import Mathlib

/-!
# Task manager: the concurrent execution engine

A shallow embedding of `src/task_manager.c`: the task store, the selection
resolver of `executeMultipleTasks` (lines 609-652) and its wave scheduler
(lines 654-738), the sequential and single-task executors, and the operations
`addTask`, `deleteTask`, `modifyTask` and `sortTasks`, followed by the properties
proved about them.

Conventions of the embedding.

* The global array `tasks[0 .. taskCount)` is a `List Task`; `taskCount` is its
  length.  Loops `for (i = a; i < taskCount; i++)` recurse over the index list
  `List.range' a (taskCount - a)`.
* Console output is not modelled; which message is printed is recorded in an
  `Outcome`.  Of the console input only the line read by `fgets` (line 616)
  matters; `clearInputBuffer` and the `getchar` that waits for Enter (line 663)
  consume input without influencing what follows and are left out.
* `pthread_create`, `pthread_join` and `saveTasksToFile` are recorded as an
  event trace.  A unit stores `completed = true` at some moment between its
  creation and its join; the only place where the orchestrator reads the flag of
  a unit that may still be running is the scan of lines 689-695, and what it
  sees there is supplied by the environment (`Env.early`).
* Whether a `malloc` succeeds is supplied by the environment (`Env.mallocOk`).
  After a failed `malloc` the function returns at once (lines 673, 709); units
  still running at that moment are not joined.
* The run-control flag `isRunning` is set to 1 at line 658 and never written
  again, so every unit is run with the flag set.
* The `while` loop of lines 688-725 takes a fuel argument counting its passes.
* The numbers read by `scanf("%d", ...)` and the lines read by `fgets` are given
  as lists.  An operation that reads past the end of its list has no result
  (`none`): the variable it should fill stays uninitialised, or its prompt loop
  never ends.
* The increment `nextTaskId++` of line 174 is undefined in C at `INT_MAX`; it is
  taken with the 32-bit wrap-around to `-2147483648` that the compiled program
  performs.
-/

namespace TaskManager

/-! ## Data model (lines 20-48) -/

/-- Capacity of the task array (line 20). -/
def MAX_TASKS : Nat := 100

/-- Largest number of units running at once (line 23). -/
def MAX_SIMULTANEOUS_TASKS : Nat := 10

/-- The `Priority` enumeration (lines 25-29). -/
inductive Priority where
  | LOW
  | MEDIUM
  | HIGH
deriving DecidableEq, Repr

/-- Numeric value of an enumerator: `LOW = 5`, `MEDIUM = 3`, `HIGH = 1`. -/
def Priority.toInt : Priority → Int
  | Priority.LOW => 5
  | Priority.MEDIUM => 3
  | Priority.HIGH => 1

/-- The `Task` record (lines 31-38). -/
structure Task where
  id : Int
  description : String
  priority : Priority
  duration : Int
  created : Int
  completed : Bool
deriving DecidableEq, Repr

/-- The globals `tasks`, `taskCount` (the length of `tasks`) and `nextTaskId`
(lines 46-48). -/
structure Store where
  tasks : List Task
  nextTaskId : Int
deriving DecidableEq, Repr

/-- The global `taskCount`. -/
def Store.taskCount (s : Store) : Nat := s.tasks.length

/-- Value of `tasks[i].completed` (false outside the array, never read there). -/
def isCompleted (tasks : List Task) (i : Nat) : Bool :=
  match tasks[i]? with
  | some t => t.completed
  | none => false

/-- Value of `tasks[i].id` (zero outside the array, never read there). -/
def idAt (tasks : List Task) (i : Nat) : Int :=
  match tasks[i]? with
  | some t => t.id
  | none => 0

/-- Value of `selectedTasks[i]`. -/
def isSelected (selectedTasks : List Bool) (i : Nat) : Bool :=
  selectedTasks.getD i false

/-! ## Reading and splitting the selection line (lines 616-619, 633-645) -/

/-- The terminating NUL of a C string. -/
def NUL : Char := Char.ofNat 0

/-- The newline character. -/
def NEWLINE : Char := Char.ofNat 10

/-- Content of `taskSelection` after `fgets(taskSelection, sizeof(taskSelection),
stdin)` and the removal of the newline (lines 616-619): at most
`MAX_TASKS * 4 - 1` characters of the input line, cut at the first newline (or
NUL, where a C string ends). -/
def readSelection (input : List Char) : List Char :=
  (input.take (MAX_TASKS * 4 - 1)).takeWhile (fun c => c != NEWLINE && c != NUL)

/-- The delimiter set `" ,"` passed to `strtok`. -/
def isDelim (c : Char) : Bool := c == ' ' || c == ','

/-- Scanner behind `strtok(_, " ,")`: `cur` holds, reversed, the characters of the
token being read; a delimiter closes a non-empty token and is skipped. -/
def strtokAux : List Char → List Char → List (List Char)
  | [], cur => if cur = [] then [] else [cur.reverse]
  | c :: cs, cur =>
    if isDelim c then
      (if cur = [] then strtokAux cs [] else cur.reverse :: strtokAux cs [])
    else strtokAux cs (c :: cur)

/-- All tokens the successive calls `strtok(taskSelection, " ,")`,
`strtok(NULL, " ,")`, ... return, in order (lines 633, 645). -/
def strtokAll (s : List Char) : List (List Char) := strtokAux s []

/-- The C `isspace` in the default locale. -/
def isspace (c : Char) : Bool :=
  c == ' ' || (9 ≤ c.toNat && c.toNat ≤ 13)

/-- The C `isdigit`. -/
def isdigit (c : Char) : Bool := 48 ≤ c.toNat && c.toNat ≤ 57

/-- Value of the leading run of decimal digits, continuing from `acc`. -/
def digitsValue : List Char → Nat → Nat
  | [], acc => acc
  | c :: cs, acc => if isdigit c then digitsValue cs (10 * acc + (c.toNat - 48)) else acc

/-- The mathematical value `strtol(s, NULL, 10)` reads: leading white space, an
optional sign, then the longest run of digits (zero when there is none). -/
def parseDecimal (s : List Char) : Int :=
  match s.dropWhile isspace with
  | '-' :: r => - (digitsValue r 0 : Int)
  | '+' :: r => (digitsValue r 0 : Int)
  | r => (digitsValue r 0 : Int)

/-- Saturation of `strtol` at the range of a 64-bit `long` (LP64). -/
def clampLong (z : Int) : Int :=
  if z < -(2 ^ 63) then -(2 ^ 63) else if 2 ^ 63 - 1 < z then 2 ^ 63 - 1 else z

/-- Conversion to a 32-bit `int` (two's complement wrap-around). -/
def toInt32 (z : Int) : Int := (z + 2 ^ 31) % 2 ^ 32 - 2 ^ 31

/-- The library function `atoi`.  Inside the range of `int` it is the value of
the leading decimal number of the token.  C leaves the result undefined outside
that range; the embedding fixes it as glibc does, `(int) strtol(s, NULL, 10)`. -/
def atoi (s : List Char) : Int := toInt32 (clampLong (parseDecimal s))

/-! ## Selection resolver (lines 587-652) -/

/-- The locals `selectedTasks` (restricted to `[0, taskCount)`) and `numSelected`. -/
structure Selection where
  selectedTasks : List Bool
  numSelected : Nat
deriving DecidableEq, Repr

/-- The array `pendingTaskIds[0 .. pendingCount)` filled by lines 593-602. -/
def pendingTaskIds (tasks : List Task) : List Int :=
  (tasks.filter (fun t => !t.completed)).map (fun t => t.id)

/-- Inner loop of the `all` branch (lines 624-629): every `j` whose task has id
`pid` and is pending is flagged and counted. -/
def selectAllInner (tasks : List Task) (pid : Int) : List Nat → Selection → Selection
  | [], acc => acc
  | j :: rest, acc =>
    if idAt tasks j == pid && !isCompleted tasks j then
      selectAllInner tasks pid rest ⟨acc.selectedTasks.set j true, acc.numSelected + 1⟩
    else selectAllInner tasks pid rest acc

/-- Outer loop of the `all` branch (lines 623-630). -/
def selectAll (tasks : List Task) : List Int → Selection → Selection
  | [], acc => acc
  | pid :: rest, acc =>
    selectAll tasks rest (selectAllInner tasks pid (List.range tasks.length) acc)

/-- Search loop for one parsed id (lines 637-643): the first `i` whose task has
that id and is pending is flagged and counted, then the loop breaks. -/
def selectId (tasks : List Task) (id : Int) : List Nat → Selection → Selection
  | [], acc => acc
  | i :: rest, acc =>
    if idAt tasks i == id && !isCompleted tasks i then
      ⟨acc.selectedTasks.set i true, acc.numSelected + 1⟩
    else selectId tasks id rest acc

/-- Token loop of the id-list branch (lines 634-646). -/
def selectTokens (tasks : List Task) : List (List Char) → Selection → Selection
  | [], acc => acc
  | token :: rest, acc =>
    let id := atoi token
    if id > 0 then
      selectTokens tasks rest (selectId tasks id (List.range tasks.length) acc)
    else selectTokens tasks rest acc

/-- Lines 609-647: from the content of `taskSelection` to `selectedTasks` and
`numSelected`. -/
def resolveSelection (tasks : List Task) (taskSelection : List Char) : Selection :=
  let start : Selection := ⟨List.replicate tasks.length false, 0⟩
  if taskSelection = ['a', 'l', 'l'] then
    selectAll tasks (pendingTaskIds tasks) start
  else
    selectTokens tasks (strtokAll taskSelection) start

/-- Indices flagged in `selectedTasks`, in Task Store order. -/
def selectedIdx (sel : Selection) : List Nat :=
  (List.range sel.selectedTasks.length).filter (fun i => isSelected sel.selectedTasks i)

/-! ## Execution units (lines 551-578) -/

/-- The countdown of `executeTaskThread` (lines 562-571) from `j` seconds: true
when it reaches zero, false when the unit sees the run-control flag cleared and
exits. -/
def countdown (isRunning : Bool) : Nat → Bool
  | 0 => true
  | j + 1 => if !isRunning then false else countdown isRunning j

/-- Effect of `executeTaskThread` on its task: after a full countdown the task is
marked completed (line 573); a cancelled unit leaves it as it is. -/
def executeTaskThread (isRunning : Bool) (t : Task) : Task :=
  if countdown isRunning t.duration.toNat then { t with completed := true } else t

/-- Effect on the array of the unit that was created on `tasks[i]`. -/
def runUnit (isRunning : Bool) : List Task → Nat → List Task
  | [], _ => []
  | t :: ts, 0 => executeTaskThread isRunning t :: ts
  | t :: ts, i + 1 => t :: runUnit isRunning ts i

/-- State of the array once the units of `threads[0 .. runningThreads)` have all
been joined. -/
def joinThreads (isRunning : Bool) (tasks : List Task) (threads : List Nat) : List Task :=
  threads.foldl (runUnit isRunning) tasks

/-! ## Wave scheduler (lines 654-738) -/

/-- Observable actions of the orchestrator. -/
inductive Event where
  | create (slot : Nat) (idx : Nat)
  | join (slot : Nat)
  | save
deriving DecidableEq, Repr

/-- How a call of `executeMultipleTasks` ends: one of its five `return` paths
(lines 584, 606, 651, 673/709, 738), or the wave loop still turning when the fuel
is spent. -/
inductive Outcome where
  | noTasks
  | noPending
  | noValidSelection
  | allocError
  | finished
  | outOfFuel
deriving DecidableEq, Repr

/-- What the program does not decide itself.  `mallocOk k` tells whether the
`malloc` for the unit created after `k` earlier ones succeeds.  `early w i` tells
whether, when pass `w` of the wave loop scans for the next task (lines 689-695),
the running unit on `tasks[i]` has already stored `completed = true`. -/
structure Env where
  mallocOk : Nat → Bool
  early : Nat → Nat → Bool

/-- The environment in which every allocation succeeds and the store of a unit
becomes visible at its join. -/
def Env.calm : Env := ⟨fun _ => true, fun _ _ => false⟩

/-- Locals of the scheduler: `threads` lists the task index behind
`threads[0 .. runningThreads)`, so `runningThreads` is its length; `waves` keeps
the batches created so far. -/
structure RunState where
  tasks : List Task
  threads : List Nat
  tasksDone : Nat
  nextTaskToRun : Nat
  trace : List Event
  waves : List (List Nat)
deriving DecidableEq, Repr

/-- The `pthread_create` calls of one batch, slot by slot. -/
def createEvents (threads : List Nat) : List Event :=
  threads.enum.map (fun p => Event.create p.1 p.2)

/-- The loop `for (i = 0; i < runningThreads; i++) pthread_join(threads[i], NULL)`. -/
def joinEvents (runningThreads : Nat) : List Event :=
  (List.range runningThreads).map Event.join

/-- First creation loop (lines 668-684).  The third component is false when a
`malloc` failed (line 671). -/
def launchFirst (mallocOk : Nat → Bool) (selectedTasks : List Bool) (maxThreads : Nat) :
    List Nat → List Nat → Nat → List Nat × Nat × Bool
  | [], threads, tasksDone => (threads, tasksDone, true)
  | i :: rest, threads, tasksDone =>
    if threads.length < maxThreads then
      if isSelected selectedTasks i then
        if mallocOk tasksDone then
          launchFirst mallocOk selectedTasks maxThreads rest (threads ++ [i]) (tasksDone + 1)
        else (threads, tasksDone, false)
      else launchFirst mallocOk selectedTasks maxThreads rest threads tasksDone
    else (threads, tasksDone, true)

/-- Scan for the next task to run (lines 689-695); `seen i` is the value read
from `tasks[i].completed`. -/
def scanNext (selectedTasks : List Bool) (seen : Nat → Bool) : List Nat → Nat → Nat
  | [], nextTaskToRun => nextTaskToRun
  | i :: rest, nextTaskToRun =>
    if isSelected selectedTasks i && !seen i then i + 1
    else scanNext selectedTasks seen rest nextTaskToRun

/-- Creation loop inside the wave loop (lines 704-724). -/
def launchNext (mallocOk : Nat → Bool) (selectedTasks : List Bool) (tasks : List Task)
    (maxThreads numSelected : Nat) : List Nat → List Nat → Nat → List Nat × Nat × Bool
  | [], threads, tasksDone => (threads, tasksDone, true)
  | i :: rest, threads, tasksDone =>
    if threads.length < maxThreads then
      if isSelected selectedTasks i && !isCompleted tasks i then
        if mallocOk tasksDone then
          if tasksDone + 1 ≥ numSelected then (threads ++ [i], tasksDone + 1, true)
          else launchNext mallocOk selectedTasks tasks maxThreads numSelected rest
            (threads ++ [i]) (tasksDone + 1)
        else (threads, tasksDone, false)
      else launchNext mallocOk selectedTasks tasks maxThreads numSelected rest threads tasksDone
    else (threads, tasksDone, true)

/-- Indices `a, a + 1, ..., taskCount - 1`. -/
def indicesFrom (a taskCount : Nat) : List Nat := List.range' a (taskCount - a)

/-- One pass of the wave loop (lines 689-724): scan, join the running batch,
create the next one.  The flag is false when a `malloc` failed. -/
def wavePass (env : Env) (selectedTasks : List Bool) (numSelected maxThreads : Nat)
    (pass : Nat) (st : RunState) : RunState × Bool :=
  let taskCount := st.tasks.length
  let seen := fun i => isCompleted st.tasks i || (decide (i ∈ st.threads) && env.early pass i)
  let next := scanNext selectedTasks seen (indicesFrom st.nextTaskToRun taskCount)
    st.nextTaskToRun
  let joined := joinThreads true st.tasks st.threads
  let r := launchNext env.mallocOk selectedTasks joined maxThreads numSelected
    (indicesFrom next taskCount) [] st.tasksDone
  ({ tasks := joined
     threads := r.1
     tasksDone := r.2.1
     nextTaskToRun := next
     trace := st.trace ++ joinEvents st.threads.length ++ createEvents r.1
     waves := st.waves ++ [r.1] }, r.2.2)

/-- Lines 727-737: join what is still running, print the summary, save. -/
def finishRun (st : RunState) : RunState :=
  { st with
    tasks := joinThreads true st.tasks st.threads
    trace := st.trace ++ joinEvents st.threads.length ++ [Event.save] }

/-- The wave loop `while (tasksDone < numSelected)` (lines 688-725) and what
follows it; `fuel` bounds the number of passes. -/
def waveLoop (env : Env) (selectedTasks : List Bool) (numSelected maxThreads : Nat) :
    Nat → Nat → RunState → Outcome × RunState
  | 0, _, st =>
    if st.tasksDone < numSelected then (Outcome.outOfFuel, st)
    else (Outcome.finished, finishRun st)
  | fuel + 1, pass, st =>
    if st.tasksDone < numSelected then
      let r := wavePass env selectedTasks numSelected maxThreads pass st
      if r.2 then waveLoop env selectedTasks numSelected maxThreads fuel (pass + 1) r.1
      else (Outcome.allocError, r.1)
    else (Outcome.finished, finishRun st)

/-- Result of a call: how it ended, the globals afterwards, the events performed
and the batches created. -/
structure Run where
  outcome : Outcome
  store : Store
  trace : List Event
  waves : List (List Nat)
deriving DecidableEq, Repr

/-- The local `maxThreads` (line 655). -/
def maxThreadsOf (numSelected : Nat) : Nat :=
  if numSelected < MAX_SIMULTANEOUS_TASKS then numSelected else MAX_SIMULTANEOUS_TASKS

/-- Lines 654-738, entered with a non-empty selection. -/
def runSelected (env : Env) (s : Store) (sel : Selection) (fuel : Nat) : Run :=
  let maxThreads := maxThreadsOf sel.numSelected
  let first := launchFirst env.mallocOk sel.selectedTasks maxThreads
    (indicesFrom 0 s.tasks.length) [] 0
  let st : RunState :=
    { tasks := s.tasks
      threads := first.1
      tasksDone := first.2.1
      nextTaskToRun := 0
      trace := createEvents first.1
      waves := [first.1] }
  if first.2.2 then
    let r := waveLoop env sel.selectedTasks sel.numSelected maxThreads fuel 0 st
    ⟨r.1, ⟨r.2.tasks, s.nextTaskId⟩, r.2.trace, r.2.waves⟩
  else ⟨Outcome.allocError, s, st.trace, st.waves⟩

/-- The function `executeMultipleTasks` (lines 581-738); `input` is the line
`fgets` reads the selection from. -/
def executeMultipleTasks (env : Env) (s : Store) (input : List Char) (fuel : Nat) : Run :=
  if s.tasks.length = 0 then ⟨Outcome.noTasks, s, [], []⟩
  else if (pendingTaskIds s.tasks).length = 0 then ⟨Outcome.noPending, s, [], []⟩
  else
    let sel := resolveSelection s.tasks (readSelection input)
    if sel.numSelected = 0 then ⟨Outcome.noValidSelection, s, [], []⟩
    else runSelected env s sel fuel

/-! ## Predicates used in the statements and proofs -/

/-- What the resolver maintains: the flags cover the array, only pending tasks
are flagged, the counter is at least the number of flagged tasks, and a positive
counter means some task is flagged. -/
structure SelInv (tasks : List Task) (acc : Selection) : Prop where
  len : acc.selectedTasks.length = tasks.length
  pending : ∀ i, isSelected acc.selectedTasks i = true → isCompleted tasks i = false
  count_le : (selectedIdx acc).length ≤ acc.numSelected
  some_flag : 0 < acc.numSelected → ∃ i, isSelected acc.selectedTasks i = true

/-- Task ids are pairwise distinct. -/
@[reducible]
def distinctIds (tasks : List Task) : Prop := (tasks.map Task.id).Nodup

/-- The test of lines 625 and 638: `tasks[i].id == id && !tasks[i].completed`. -/
def hits (tasks : List Task) (id : Int) (i : Nat) : Bool :=
  idAt tasks i == id && !isCompleted tasks i

/-- A string whose last character, if any, is a delimiter. -/
def endsDelimited (pre : List Char) : Prop := ∀ d, pre.getLast? = some d → isDelim d = true

/-- A string whose first character, if any, is a delimiter. -/
def startsDelimited (post : List Char) : Prop := ∀ d, post.head? = some d → isDelim d = true

/-- The task with its `completed` flag set. -/
def markDone (t : Task) : Task := { t with completed := true }

/-- The test of line 705: selected and not yet completed. -/
def candidate (sel : List Bool) (tasks : List Task) (i : Nat) : Bool :=
  isSelected sel i && !isCompleted tasks i

/-- The array in which exactly the units on the indices of `launched` have
finished, starting from `T0`. -/
def doneOn (T0 : List Task) (launched : List Nat) (tasks : List Task) : Prop :=
  ∀ i, tasks[i]? = (T0[i]?).map (fun t => if i ∈ launched then markDone t else t)

/-- What the scheduler maintains at the head of the wave loop, for every
environment. -/
structure LInv (T0 : List Task) (sel : List Bool) (maxT : Nat) (st : RunState) : Prop where
  len : st.tasks.length = T0.length
  joined : ∃ J, st.waves.flatten = J ++ st.threads ∧ doneOn T0 J st.tasks
  sorted : (st.waves.flatten).Sorted (· < ·)
  sel_mem : ∀ i ∈ st.waves.flatten, isSelected sel i = true
  done_eq : st.tasksDone = st.waves.flatten.length
  ahead : ∀ i, st.nextTaskToRun ≤ i → isSelected sel i = true → i ∉ st.waves.flatten →
    ∀ l ∈ st.waves.flatten, l < i
  wave_le : ∀ w ∈ st.waves, w.length ≤ maxT

/-- The flag array covers the task array and flags pending tasks only. -/
structure SelOk (T0 : List Task) (sel : List Bool) : Prop where
  len : sel.length = T0.length
  pending : ∀ i, isSelected sel i = true → isCompleted T0 i = false

/-- What holds of the result of the wave loop, for every environment and every
amount of fuel. -/
structure Post (T0 : List Task) (sel : List Bool) (maxT numSelected : Nat)
    (r : Outcome × RunState) : Prop where
  len : r.2.tasks.length = T0.length
  sorted : (r.2.waves.flatten).Sorted (· < ·)
  sel_mem : ∀ i ∈ r.2.waves.flatten, isSelected sel i = true
  wave_le : ∀ w ∈ r.2.waves, w.length ≤ maxT
  fin : r.1 = Outcome.finished →
    numSelected ≤ r.2.waves.flatten.length ∧ doneOn T0 r.2.waves.flatten r.2.tasks

/-- What the scheduler maintains in addition when the store of a unit becomes
visible at its join. -/
structure CalmInv (sel : List Bool) (numSelected : Nat) (st : RunState) : Prop where
  nolost : ∀ i, isSelected sel i = true → i ∉ st.waves.flatten → st.nextTaskToRun ≤ i
  threads_ge : ∀ t ∈ st.threads, st.nextTaskToRun ≤ t
  threads_ne : st.tasksDone < numSelected → st.threads ≠ []

/-- Effect of one event on the list of slots created and not yet joined. -/
def outstandingStep (out : List Nat) : Event → List Nat
  | Event.create slot _ => out ++ [slot]
  | Event.join slot => out.filter (fun s => s != slot)
  | Event.save => out

/-- Slots whose unit has been created and not yet joined after the events of
`trace`, starting from `out`. -/
def outstandingFrom (out : List Nat) (trace : List Event) : List Nat :=
  trace.foldl outstandingStep out

/-- Slots whose unit has been created and not yet joined at the end of `trace`. -/
def outstanding (trace : List Event) : List Nat := outstandingFrom [] trace

/-- Events in front of which no unit may be running: the creation of the first
unit of a wave (slot 0, where `runningThreads` has just been reset) and the
save. -/
def Event.isBarrier : Event → Bool
  | Event.create 0 _ => true
  | Event.create (_ + 1) _ => false
  | Event.join _ => false
  | Event.save => true

/-- The wave barrier on a trace: whenever the first unit of a wave is created,
or the store saved, every unit created before has been joined. -/
def Barrier (trace : List Event) : Prop :=
  ∀ pre e post, trace = pre ++ e :: post → e.isBarrier = true → outstanding pre = []

/-- What the scheduler maintains about its trace at the head of the wave loop. -/
structure TInv (st : RunState) : Prop where
  barrier : Barrier st.trace
  out : outstanding st.trace = List.range st.threads.length

/-- The selection `executeMultipleTasks` resolves from the input line. -/
def selectionOf (s : Store) (input : List Char) : Selection :=
  resolveSelection s.tasks (readSelection input)

/-- What holds of every run over a non-empty selection. -/
structure RunPost (s : Store) (sel : Selection) (r : Run) : Prop where
  nextId : r.store.nextTaskId = s.nextTaskId
  len : r.store.tasks.length = s.tasks.length
  sorted : (r.waves.flatten).Sorted (· < ·)
  sel_mem : ∀ i ∈ r.waves.flatten, isSelected sel.selectedTasks i = true
  wave_le : ∀ w ∈ r.waves, w.length ≤ maxThreadsOf sel.numSelected
  barrier : Barrier r.trace
  fin : r.outcome = Outcome.finished →
    sel.numSelected ≤ r.waves.flatten.length ∧ doneOn s.tasks r.waves.flatten r.store.tasks

/-- Locals of the scheduler after the first creation loop (line 685). -/
def firstState (env : Env) (s : Store) (sel : Selection) : RunState :=
  { tasks := s.tasks
    threads := (launchFirst env.mallocOk sel.selectedTasks (maxThreadsOf sel.numSelected)
      (indicesFrom 0 s.tasks.length) [] 0).1
    tasksDone := (launchFirst env.mallocOk sel.selectedTasks (maxThreadsOf sel.numSelected)
      (indicesFrom 0 s.tasks.length) [] 0).2.1
    nextTaskToRun := 0
    trace := createEvents (launchFirst env.mallocOk sel.selectedTasks
      (maxThreadsOf sel.numSelected) (indicesFrom 0 s.tasks.length) [] 0).1
    waves := [(launchFirst env.mallocOk sel.selectedTasks (maxThreadsOf sel.numSelected)
      (indicesFrom 0 s.tasks.length) [] 0).1] }

/-- No task from `nextTaskToRun` on passes the test of line 705. -/
def noCandidate (sel : List Bool) (st : RunState) : Bool :=
  (indicesFrom st.nextTaskToRun st.tasks.length).all (fun i => !candidate sel st.tasks i)

/-! ## Stores and input lines used in the instances -/

/-- A pending task with the given id, lasting one second. -/
def pendingTask (id : Int) : Task := ⟨id, "", Priority.MEDIUM, 1, 0, false⟩

/-- A store of `n` pending tasks with ids `1, ..., n`. -/
def pendingStore (n : Nat) : Store :=
  ⟨(List.range n).map (fun i => pendingTask (i + 1)), n + 1⟩

/-- The store used in the instances below: ids 5 (pending), 7 (completed) and 9
(pending). -/
def store579 : Store :=
  ⟨[pendingTask 5, { pendingTask 7 with completed := true }, pendingTask 9], 10⟩

/-- The environment in which every allocation succeeds and every unit of the
running wave has already stored `completed = true` when the orchestrator scans. -/
def Env.eager : Env := ⟨fun _ => true, fun _ _ => true⟩

/-- The store of the spec's example: two pending tasks with ids 5 and 9. -/
def store59 : Store := ⟨[pendingTask 5, pendingTask 9], 10⟩

/-- The selection line `5, x, 5,9`. -/
def line5x59 : List Char := ['5', ',', ' ', 'x', ',', ' ', '5', ',', '9']

/-- The selection line `5, x, 5,9, 7`. -/
def line5x597 : List Char :=
  ['5', ',', ' ', 'x', ',', ' ', '5', ',', '9', ',', ' ', '7']

/-- The store of the spec's example for `all`: pending tasks with ids 2, 5, 7. -/
def store257 : Store := ⟨[pendingTask 2, pendingTask 5, pendingTask 7], 8⟩

/-- A store whose only task (id 7) is completed. -/
def storeDone7 : Store := ⟨[{ pendingTask 7 with completed := true }], 8⟩

/-! ## Ordering pass and sequential executor (lines 496-548, 807-895) -/

/-- The exchange `temp = tasks[i]; tasks[i] = tasks[j]; tasks[j] = temp` guarded by
`shouldSwap` (lines 538-542, 841-846); nothing happens outside the array. -/
def swapIf (shouldSwap : Task → Task → Bool) (tasks : List Task) (i j : Nat) : List Task :=
  match tasks[i]?, tasks[j]? with
  | some a, some b => if shouldSwap a b then (tasks.set i b).set j a else tasks
  | _, _ => tasks

/-- Inner loop `for (j = i + 1; j < taskCount; j++)` of the ordering pass. -/
def sortInner (shouldSwap : Task → Task → Bool) (i : Nat) : List Nat → List Task → List Task
  | [], tasks => tasks
  | j :: rest, tasks => sortInner shouldSwap i rest (swapIf shouldSwap tasks i j)

/-- Outer loop `for (i = 0; i < taskCount - 1; i++)` of the ordering pass. -/
def sortOuter (shouldSwap : Task → Task → Bool) : List Nat → List Task → List Task
  | [], tasks => tasks
  | i :: rest, tasks =>
    sortOuter shouldSwap rest
      (sortInner shouldSwap i (indicesFrom (i + 1) tasks.length) tasks)

/-- The ordering pass shared by `sortTasks` (lines 512-544) and `executeTasks`
(lines 839-848): both loops, with the given swap test. -/
def exchangeSort (shouldSwap : Task → Task → Bool) (tasks : List Task) : List Task :=
  sortOuter shouldSwap (indicesFrom 0 (tasks.length - 1)) tasks

/-- Swap test by priority, then duration (lines 519-521 and 841-842). -/
def byPriority (a b : Task) : Bool :=
  decide (a.priority.toInt > b.priority.toInt) ||
    (decide (a.priority.toInt = b.priority.toInt) && decide (a.duration > b.duration))

/-- Swap test by duration, then priority (lines 525-527). -/
def byDuration (a b : Task) : Bool :=
  decide (a.duration > b.duration) ||
    (decide (a.duration = b.duration) && decide (a.priority.toInt > b.priority.toInt))

/-- Swap test by creation time, newer first (line 531). -/
def byCreated (a b : Task) : Bool := decide (a.created < b.created)

/-- Execution loop of the sequential executor (lines 869-886): every task still
pending is counted down and marked completed.  The first component is the array
afterwards, the second the tasks executed, in execution order, as they were
when their countdown started. -/
def runPending : List Task → List Task × List Task
  | [] => ([], [])
  | t :: rest =>
    if !t.completed then
      ({ t with completed := true } :: (runPending rest).1, t :: (runPending rest).2)
    else (t :: (runPending rest).1, (runPending rest).2)

/-- Result of the sequential executor: how it ended, the globals afterwards, the
tasks executed in order, and whether `saveTasksToFile` was called. -/
structure SeqRun where
  outcome : Outcome
  store : Store
  ran : List Task
  saved : Bool
deriving DecidableEq, Repr

/-- Case 1 of `executeTasks` (lines 819-895). -/
def executeTasksInSequence (s : Store) : SeqRun :=
  if s.tasks.length = 0 then ⟨Outcome.noTasks, s, [], false⟩
  else if (s.tasks.filter (fun t => !t.completed)).length = 0 then
    ⟨Outcome.noPending, s, [], false⟩
  else
    let sorted := exchangeSort byPriority s.tasks
    ⟨Outcome.finished, ⟨(runPending sorted).1, s.nextTaskId⟩, (runPending sorted).2, true⟩

/-! ## Single-task executor (lines 741-804) -/

/-- How a call of `executeSpecificTask` ends (the returns of lines 744, 765, 772,
796, 799 and the report of line 803). -/
inductive SpecificOutcome where
  | noTasks
  | noPending
  | cancelled
  | executed
  | alreadyCompleted
  | notFound
deriving DecidableEq, Repr

/-- Search loop of `executeSpecificTask` (lines 775-801): outcome, the array
afterwards, and the task whose countdown was run, if any. -/
def specificLoop (id : Int) : List Task → SpecificOutcome × List Task × List Task
  | [] => (SpecificOutcome.notFound, [], [])
  | t :: rest =>
    if t.id == id && !t.completed then
      (SpecificOutcome.executed, { t with completed := true } :: rest, [t])
    else if t.id == id && t.completed then
      (SpecificOutcome.alreadyCompleted, t :: rest, [])
    else
      ((specificLoop id rest).1, t :: (specificLoop id rest).2.1, (specificLoop id rest).2.2)

/-- Result of the single-task executor. -/
structure SpecificRun where
  outcome : SpecificOutcome
  store : Store
  ran : List Task
  saved : Bool
deriving DecidableEq, Repr

/-- The function `executeSpecificTask` (lines 741-804); `ints` lists the numbers
the successive `scanf("%d", ...)` calls read.  The result is `none` when a
`scanf` finds no number, which leaves the variable it should fill
uninitialised. -/
def executeSpecificTask (s : Store) (ints : List Int) : Option SpecificRun :=
  if s.tasks.length = 0 then some ⟨SpecificOutcome.noTasks, s, [], false⟩
  else if (s.tasks.filter (fun t => !t.completed)).length = 0 then
    some ⟨SpecificOutcome.noPending, s, [], false⟩
  else
    match ints with
    | [] => none
    | id :: _ =>
      if id = 0 then some ⟨SpecificOutcome.cancelled, s, [], false⟩
      else
        some ⟨(specificLoop id s.tasks).1, ⟨(specificLoop id s.tasks).2.1, s.nextTaskId⟩,
          (specificLoop id s.tasks).2.2,
          decide ((specificLoop id s.tasks).1 = SpecificOutcome.executed)⟩

/-! ## Adding, deleting, modifying and sorting (lines 134-221, 350-548) -/

/-- What the user types, as the reads of one call deliver it: `ints` are the
numbers the successive `scanf("%d", ...)` calls store, `lines` the strings the
successive `fgets` calls return.  When a line is longer than the buffer, `fgets`
returns its first 255 characters and the rest stays in the input for the reads
that follow: the rest is then part of what `ints` describes, and a `scanf` that
finds no number there is the end of `ints`. -/
structure Console where
  ints : List Int
  lines : List String
deriving DecidableEq, Repr

/-- Length of the `description` buffer (line 21). -/
def MAX_DESCRIPTION : Nat := 256

/-- A description as `fgets(description, MAX_DESCRIPTION, stdin)` and the removal
of the newline store it (lines 183-184, 445-446). -/
def readDescription (line : String) : String :=
  String.mk ((line.data.take (MAX_DESCRIPTION - 1)).takeWhile
    (fun c => c != NEWLINE && c != NUL))

/-- The priority prompt of `addTask` (lines 187-201), repeated until the choice
is 1, 2 or 3; the rest of the numbers is returned. -/
def readPriority : List Int → Option (Priority × List Int)
  | [] => none
  | choice :: rest =>
    if choice = 1 then some (Priority.HIGH, rest)
    else if choice = 2 then some (Priority.MEDIUM, rest)
    else if choice = 3 then some (Priority.LOW, rest)
    else readPriority rest

/-- The duration prompt (lines 203-210 and 466-473), repeated until the value is
between 1 and 3600. -/
def readDuration : List Int → Option (Int × List Int)
  | [] => none
  | d :: rest => if d < 1 || d > 3600 then readDuration rest else some (d, rest)

/-- The function `isDuplicateTask` (lines 135-148): at the first task with the
same description the user is asked, and the answer `confirm != 1` is returned;
without such a task the result is false. -/
def isDuplicateTask (description : String) (ints : List Int) : List Task → Option Bool
  | [] => some false
  | t :: rest =>
    if t.description = description then
      match ints with
      | [] => none
      | confirm :: _ => some (decide (confirm ≠ 1))
    else isDuplicateTask description ints rest

/-- How a call of `addTask` ends (the returns of lines 170, 214 and 221). -/
inductive AddOutcome where
  | limitReached
  | declined
  | added
deriving DecidableEq, Repr

/-- Largest value of an `int`. -/
def INT_MAX : Int := 2 ^ 31 - 1

/-- Smallest value of an `int`. -/
def INT_MIN : Int := -2 ^ 31

/-- The function `addTask` (lines 167-221); `now` is the value of `time(NULL)`.
The result is `none` when the input runs out.  The counter is advanced by the
unguarded `nextTaskId++` of line 174 before anything is read, also when the
task is declined afterwards; at `nextTaskId = INT_MAX` the task still gets the
id `INT_MAX`, and the increment, which C leaves undefined there, is taken with
the wrap-around of 32-bit two's-complement arithmetic (`toInt32`), the value
the compiled program stores. -/
def addTask (s : Store) (now : Int) (c : Console) : Option (AddOutcome × Store) :=
  if s.tasks.length ≥ MAX_TASKS then some (AddOutcome.limitReached, s)
  else
    match c.lines with
    | [] => none
    | line :: _ =>
      match readPriority c.ints with
      | none => none
      | some (priority, ints1) =>
        match readDuration ints1 with
        | none => none
        | some (duration, ints2) =>
          match isDuplicateTask (readDescription line) ints2 s.tasks with
          | none => none
          | some true => some (AddOutcome.declined, ⟨s.tasks, toInt32 (s.nextTaskId + 1)⟩)
          | some false =>
            some (AddOutcome.added,
              ⟨s.tasks ++ [⟨s.nextTaskId, readDescription line, priority, duration, now, false⟩],
                toInt32 (s.nextTaskId + 1)⟩)

/-- Search `for (i = 0; i < taskCount; i++) if (tasks[i].id == id)` of `deleteTask`
and `modifyTask` (lines 375-376, 425-426): the first position holding the id. -/
def findTask (tasks : List Task) (id : Int) : List Nat → Option Nat
  | [] => none
  | i :: rest => if idAt tasks i == id then some i else findTask tasks id rest

/-- The loop `for (j = i; j < taskCount - 1; j++) tasks[j] = tasks[j + 1]`
(lines 384-386). -/
def shiftLoop : List Nat → List Task → List Task
  | [], tasks => tasks
  | j :: rest, tasks =>
    match tasks[j + 1]? with
    | some t => shiftLoop rest (tasks.set j t)
    | none => shiftLoop rest tasks

/-- Lines 384-387: shift the tasks behind position `i` down, then `taskCount--`. -/
def removeAt (tasks : List Task) (i : Nat) : List Task :=
  (shiftLoop (indicesFrom i (tasks.length - 1)) tasks).take (tasks.length - 1)

/-- How a call of `deleteTask` ends (the returns of lines 354, 372, 393 and the
report of line 397). -/
inductive DeleteOutcome where
  | noTasks
  | cancelled
  | deleted
  | notConfirmed
  | notFound
deriving DecidableEq, Repr

/-- The function `deleteTask` (lines 351-398). -/
def deleteTask (s : Store) (ints : List Int) : Option (DeleteOutcome × Store) :=
  if s.tasks.length = 0 then some (DeleteOutcome.noTasks, s)
  else
    match ints with
    | [] => none
    | id :: rest =>
      if id = 0 then some (DeleteOutcome.cancelled, s)
      else
        match findTask s.tasks id (indicesFrom 0 s.tasks.length) with
        | none => some (DeleteOutcome.notFound, s)
        | some i =>
          match rest with
          | [] => none
          | confirm :: _ =>
            if confirm = 1 then some (DeleteOutcome.deleted, ⟨removeAt s.tasks i, s.nextTaskId⟩)
            else some (DeleteOutcome.notConfirmed, s)

/-- The menu loop of `modifyTask` (lines 437-487) on the task `t`; it returns the
task as it is when choice 5 is entered.  `fuel` bounds the number of menu
rounds; every round reads at least one number. -/
def modifyMenu : Nat → Task → List Int → List String → Option Task
  | 0, _, _, _ => none
  | _ + 1, _, [], _ => none
  | fuel + 1, t, choice :: ints, lines =>
    if choice = 1 then
      match lines with
      | [] => modifyMenu fuel t ints []
      | line :: rest => modifyMenu fuel { t with description := readDescription line } ints rest
    else if choice = 2 then
      match ints with
      | [] => none
      | p :: ints1 =>
        if p = 1 then modifyMenu fuel { t with priority := Priority.HIGH } ints1 lines
        else if p = 2 then modifyMenu fuel { t with priority := Priority.MEDIUM } ints1 lines
        else if p = 3 then modifyMenu fuel { t with priority := Priority.LOW } ints1 lines
        else modifyMenu fuel t ints1 lines
    else if choice = 3 then
      match readDuration ints with
      | none => none
      | some (d, ints1) => modifyMenu fuel { t with duration := d } ints1 lines
    else if choice = 4 then modifyMenu fuel { t with completed := !t.completed } ints lines
    else if choice = 5 then some t
    else modifyMenu fuel t ints lines

/-- How a call of `modifyTask` ends (the returns of lines 404, 422, 482 and the
report of line 493). -/
inductive ModifyOutcome where
  | noTasks
  | cancelled
  | saved
  | notFound
deriving DecidableEq, Repr

/-- The function `modifyTask` (lines 401-494). -/
def modifyTask (s : Store) (c : Console) : Option (ModifyOutcome × Store) :=
  if s.tasks.length = 0 then some (ModifyOutcome.noTasks, s)
  else
    match c.ints with
    | [] => none
    | id :: rest =>
      if id = 0 then some (ModifyOutcome.cancelled, s)
      else
        match findTask s.tasks id (indicesFrom 0 s.tasks.length) with
        | none => some (ModifyOutcome.notFound, s)
        | some i =>
          match s.tasks[i]? with
          | none => none
          | some t =>
            match modifyMenu rest.length t rest c.lines with
            | none => none
            | some t1 => some (ModifyOutcome.saved, ⟨s.tasks.set i t1, s.nextTaskId⟩)

/-- The function `sortTasks` (lines 497-548).  With a choice other than 1, 2, 3
the first comparison returns (line 535) and nothing is changed. -/
def sortTasks (s : Store) (ints : List Int) : Option Store :=
  if s.tasks.length ≤ 1 then some s
  else
    match ints with
    | [] => none
    | choice :: _ =>
      if choice = 1 then some ⟨exchangeSort byPriority s.tasks, s.nextTaskId⟩
      else if choice = 2 then some ⟨exchangeSort byDuration s.tasks, s.nextTaskId⟩
      else if choice = 3 then some ⟨exchangeSort byCreated s.tasks, s.nextTaskId⟩
      else some s

/-- The store at program start when no file is loaded (lines 47-48). -/
def emptyStore : Store := ⟨[], 1⟩

/-- One in-memory operation: `Step s r` when some call of `addTask`, `deleteTask`,
`modifyTask`, `sortTasks` or of one of the three executors, started in store
`s`, returns with store `r`. -/
inductive Step : Store → Store → Prop where
  | byAdd (s : Store) (now : Int) (c : Console) (r : AddOutcome × Store) :
      addTask s now c = some r → Step s r.2
  | byDelete (s : Store) (ints : List Int) (r : DeleteOutcome × Store) :
      deleteTask s ints = some r → Step s r.2
  | byModify (s : Store) (c : Console) (r : ModifyOutcome × Store) :
      modifyTask s c = some r → Step s r.2
  | bySort (s : Store) (ints : List Int) (r : Store) :
      sortTasks s ints = some r → Step s r
  | bySequence (s : Store) : Step s (executeTasksInSequence s).store
  | bySpecific (s : Store) (ints : List Int) (r : SpecificRun) :
      executeSpecificTask s ints = some r → Step s r.store
  | byMultiple (s : Store) (env : Env) (input : List Char) (fuel : Nat) :
      (executeMultipleTasks env s input fuel).outcome ≠ Outcome.outOfFuel →
      Step s (executeMultipleTasks env s input fuel).store

/-- The store invariant: ids pairwise distinct and below `nextTaskId`, durations
between 1 and 3600, at most `MAX_TASKS` tasks. -/
def storeInv (s : Store) : Prop :=
  distinctIds s.tasks ∧ (∀ t ∈ s.tasks, t.id < s.nextTaskId) ∧
    (∀ t ∈ s.tasks, 1 ≤ t.duration ∧ t.duration ≤ 3600) ∧ s.tasks.length ≤ MAX_TASKS

/-- The fields of a task the store invariant speaks about. -/
def core (t : Task) : Int × Int := (t.id, t.duration)

/-! ## Predicates used in the statements about the store operations -/

/-- The order of the sequential executor: `a` does not come after `b` by
priority rank (High before Medium before Low), then by duration. -/
@[reducible]
def taskLe (a b : Task) : Prop := byPriority a b = false

/-- The order the spec asks for: `a` has the smaller priority value (High 1,
Medium 3, Low 5), or the same priority and a duration that is not larger. -/
@[reducible]
def notAfter (a b : Task) : Prop :=
  a.priority.toInt < b.priority.toInt ∨
    (a.priority.toInt = b.priority.toInt ∧ a.duration ≤ b.duration)

/-- Every task in front of position `i` does not come after any task behind it. -/
def sortedUpTo (i : Nat) (T : List Task) : Prop :=
  ∀ p q a b, p < i → p < q → T[p]? = some a → T[q]? = some b → taskLe a b

/-- What one operation does to the invariant: it is kept, `nextTaskId` does not
decrease, and an id in the new store was in the old store or is at least the
old `nextTaskId`. -/
def stepKeeps (s r : Store) : Prop :=
  storeInv r ∧ s.nextTaskId ≤ r.nextTaskId ∧
    ∀ t ∈ r.tasks, (∃ u ∈ s.tasks, u.id = t.id) ∨ s.nextTaskId ≤ t.id

/-- One operation started below `INT_MAX`. -/
def StepBelow (s r : Store) : Prop := Step s r ∧ s.nextTaskId < INT_MAX

/-! ## Further stores used in the instances -/

/-- The spec's example: ids 1 (High, 10 s), 2 (Low, 5 s), 3 (High, 2 s). -/
def storeHighLow : Store :=
  ⟨[⟨1, "", Priority.HIGH, 10, 0, false⟩, ⟨2, "", Priority.LOW, 5, 0, false⟩,
    ⟨3, "", Priority.HIGH, 2, 0, false⟩], 4⟩

/-- A store with a completed task of id 0, the pending task 5 and the completed
task 7. -/
def store057 : Store :=
  ⟨[{ pendingTask 0 with completed := true }, pendingTask 5,
    { pendingTask 7 with completed := true }], 8⟩

/-- A task `a`, the first one added to the empty store. -/
def taskA : Task := ⟨1, "a", Priority.HIGH, 1, 0, false⟩

/-- A task `b` that was given the id `INT_MAX`. -/
def taskB : Task := ⟨2147483647, "b", Priority.HIGH, 1, 0, false⟩

/-- A task `c` that was given the id 1 a second time. -/
def taskC : Task := ⟨1, "c", Priority.HIGH, 1, 0, false⟩

/-- What is typed to add a task with the description `a` again and to answer
the question of `isDuplicateTask` with 0. -/
def declineA : Console := ⟨[1, 1, 0], ["a"]⟩

/-! ## Lemmas -/

theorem isSelected_lt {l : List Bool} {i : Nat} (h : isSelected l i = true) : i < l.length := by
  unfold isSelected at h
  by_contra hc
  rw [List.getD_eq_default _ _ (by omega)] at h
  exact Bool.false_ne_true h

theorem isSelected_set (l : List Bool) (j i : Nat) :
    isSelected (l.set j true) i = (isSelected l i || (decide (i = j) && decide (j < l.length))) := by
  unfold isSelected
  simp only [List.getD_eq_getElem?_getD, List.getElem?_set]
  by_cases hij : j = i
  · subst hij
    by_cases hj : j < l.length
    · simp [hj]
    · simp [hj, List.getElem?_eq_none (Nat.le_of_not_lt hj)]
  · have : ¬ i = j := fun h => hij h.symm
    simp [hij, this]

theorem isSelected_replicate (n i : Nat) : isSelected (List.replicate n false) i = false := by
  unfold isSelected
  by_cases h : i < n
  · simp [List.getD_eq_getElem?_getD, List.getElem?_replicate, h]
  · rw [List.getD_eq_default _ _ (by simpa using h)]

theorem mem_selectedIdx {sel : Selection} {i : Nat} :
    i ∈ selectedIdx sel ↔ isSelected sel.selectedTasks i = true := by
  unfold selectedIdx
  simp only [List.mem_filter, List.mem_range]
  constructor
  · exact fun h => h.2
  · exact fun h => ⟨isSelected_lt h, h⟩

theorem selectedIdx_nodup (sel : Selection) : (selectedIdx sel).Nodup :=
  (List.nodup_range _).filter _

theorem selectedIdx_sorted (sel : Selection) : (selectedIdx sel).Sorted (· < ·) :=
  (List.sorted_lt_range _).filter _

theorem isCompleted_of_get {tasks : List Task} {i : Nat} {t : Task} (h : tasks[i]? = some t) :
    isCompleted tasks i = t.completed := by
  simp [isCompleted, h]

theorem idAt_of_get {tasks : List Task} {i : Nat} {t : Task} (h : tasks[i]? = some t) :
    idAt tasks i = t.id := by
  simp [idAt, h]

theorem selInv_start (tasks : List Task) :
    SelInv tasks ⟨List.replicate tasks.length false, 0⟩ where
  len := by simp
  pending := by intro i h; simp [isSelected_replicate] at h
  count_le := by
    have : selectedIdx ⟨List.replicate tasks.length false, 0⟩ = [] := by
      apply List.eq_nil_iff_forall_not_mem.2
      intro i hi
      have := mem_selectedIdx.1 hi
      simp [isSelected_replicate] at this
    simp [this]
  some_flag := by intro h; exact absurd h (Nat.lt_irrefl 0)

theorem selInv_mark {tasks : List Task} {acc : Selection} (h : SelInv tasks acc) {j : Nat}
    (hj : j < tasks.length) (hp : isCompleted tasks j = false) :
    SelInv tasks ⟨acc.selectedTasks.set j true, acc.numSelected + 1⟩ where
  len := by simp [h.len]
  pending := by
    intro i hi
    rw [isSelected_set] at hi
    simp only [Bool.or_eq_true, Bool.and_eq_true, decide_eq_true_eq] at hi
    rcases hi with hi | ⟨hi, _⟩
    · exact h.pending i hi
    · rw [hi]; exact hp
  count_le := by
    have hsub : selectedIdx ⟨acc.selectedTasks.set j true, acc.numSelected + 1⟩
        ⊆ j :: selectedIdx acc := by
      intro i hi
      have hi2 := mem_selectedIdx.1 hi
      simp only [isSelected_set, Bool.or_eq_true, Bool.and_eq_true, decide_eq_true_eq] at hi2
      rcases hi2 with hi2 | ⟨hi2, _⟩
      · exact List.mem_cons_of_mem _ (mem_selectedIdx.2 hi2)
      · rw [hi2]; exact List.mem_cons_self _ _
    have hle := ((selectedIdx_nodup _).subperm hsub).length_le
    have := h.count_le
    simp only [List.length_cons] at hle
    show _ ≤ acc.numSelected + 1
    omega
  some_flag := by
    intro _
    refine ⟨j, ?_⟩
    rw [isSelected_set]
    simp [h.len, hj]

theorem selInv_selectId {tasks : List Task} (id : Int) :
    ∀ (l : List Nat) (acc : Selection), (∀ i ∈ l, i < tasks.length) → SelInv tasks acc →
      SelInv tasks (selectId tasks id l acc)
  | [], acc, _, h => by simpa [TaskManager.selectId] using h
  | i :: rest, acc, hl, h => by
    unfold TaskManager.selectId
    split
    · rename_i hc
      simp only [Bool.and_eq_true, Bool.not_eq_true'] at hc
      exact selInv_mark h (hl i (List.mem_cons_self _ _)) hc.2
    · exact selInv_selectId id rest acc (fun k hk => hl k (List.mem_cons_of_mem _ hk)) h

theorem selInv_selectAllInner {tasks : List Task} (pid : Int) :
    ∀ (l : List Nat) (acc : Selection), (∀ i ∈ l, i < tasks.length) → SelInv tasks acc →
      SelInv tasks (selectAllInner tasks pid l acc)
  | [], acc, _, h => by simpa [TaskManager.selectAllInner] using h
  | i :: rest, acc, hl, h => by
    unfold TaskManager.selectAllInner
    have hr : ∀ k ∈ rest, k < tasks.length := fun k hk => hl k (List.mem_cons_of_mem _ hk)
    split
    · rename_i hc
      simp only [Bool.and_eq_true, Bool.not_eq_true'] at hc
      exact selInv_selectAllInner pid rest _ hr (selInv_mark h (hl i (List.mem_cons_self _ _)) hc.2)
    · exact selInv_selectAllInner pid rest acc hr h

theorem selInv_selectTokens {tasks : List Task} :
    ∀ (toks : List (List Char)) (acc : Selection), SelInv tasks acc →
      SelInv tasks (selectTokens tasks toks acc)
  | [], acc, h => by simpa [TaskManager.selectTokens] using h
  | tok :: rest, acc, h => by
    unfold TaskManager.selectTokens
    simp only
    split
    · exact selInv_selectTokens rest _
        (selInv_selectId _ _ acc (fun i hi => List.mem_range.1 hi) h)
    · exact selInv_selectTokens rest acc h

theorem selInv_selectAll {tasks : List Task} :
    ∀ (pids : List Int) (acc : Selection), SelInv tasks acc →
      SelInv tasks (selectAll tasks pids acc)
  | [], acc, h => by simpa [TaskManager.selectAll] using h
  | pid :: rest, acc, h => by
    unfold TaskManager.selectAll
    exact selInv_selectAll rest _
      (selInv_selectAllInner pid _ acc (fun i hi => List.mem_range.1 hi) h)

theorem selInv_resolve (tasks : List Task) (taskSelection : List Char) :
    SelInv tasks (resolveSelection tasks taskSelection) := by
  unfold resolveSelection
  simp only
  split
  · exact selInv_selectAll _ _ (selInv_start tasks)
  · exact selInv_selectTokens _ _ (selInv_start tasks)

theorem idAt_inj {tasks : List Task} (hd : distinctIds tasks) {i j : Nat}
    (hi : i < tasks.length) (hj : j < tasks.length) (h : idAt tasks i = idAt tasks j) : i = j := by
  have hi2 : i < (tasks.map Task.id).length := by simpa using hi
  have hj2 : j < (tasks.map Task.id).length := by simpa using hj
  have e1 : idAt tasks i = (tasks.map Task.id)[i] := by
    simp [idAt, List.getElem?_eq_getElem hi]
  have e2 : idAt tasks j = (tasks.map Task.id)[j] := by
    simp [idAt, List.getElem?_eq_getElem hj]
  rw [e1, e2] at h
  exact (List.Nodup.getElem_inj_iff hd).1 h

theorem selectId_flags {tasks : List Task} (hd : distinctIds tasks) (id : Int) :
    ∀ (l : List Nat) (acc : Selection), (∀ i ∈ l, i < tasks.length) →
      acc.selectedTasks.length = tasks.length → ∀ i,
      isSelected (selectId tasks id l acc).selectedTasks i
        = (isSelected acc.selectedTasks i || (decide (i ∈ l) && hits tasks id i))
  | [], acc, _, _, i => by simp [selectId]
  | j :: rest, acc, hl, hlen, i => by
    unfold selectId
    have hjl : j < tasks.length := hl j (List.mem_cons_self _ _)
    have hr : ∀ k ∈ rest, k < tasks.length := fun k hk => hl k (List.mem_cons_of_mem _ hk)
    by_cases hc : (idAt tasks j == id && !isCompleted tasks j) = true
    · rw [if_pos hc, isSelected_set]
      by_cases hij : i = j
      · subst hij
        simp [hits, hc, hlen, hjl]
      · have hno : (decide (i ∈ j :: rest) && hits tasks id i) = false := by
          by_contra hne
          simp only [Bool.not_eq_false, Bool.and_eq_true, decide_eq_true_eq] at hne
          have hil : i < tasks.length := hl i hne.1
          have h1 := hne.2
          unfold hits at h1
          simp only [Bool.and_eq_true, beq_iff_eq] at h1 hc
          exact hij (idAt_inj hd hil hjl (h1.1.trans hc.1.symm))
        rw [hno]
        simp [hij]
    · rw [if_neg hc, selectId_flags hd id rest acc hr hlen i]
      by_cases hij : i = j
      · subst hij
        have : hits tasks id i = false := by simpa [hits] using hc
        simp [this]
      · simp [hij]

theorem selectId_length (tasks : List Task) (id : Int) :
    ∀ (l : List Nat) (acc : Selection),
      (selectId tasks id l acc).selectedTasks.length = acc.selectedTasks.length
  | [], acc => by simp [selectId]
  | j :: rest, acc => by
    unfold selectId
    split
    · simp
    · exact selectId_length tasks id rest acc

theorem selectTokens_flags {tasks : List Task} (hd : distinctIds tasks) :
    ∀ (toks : List (List Char)) (acc : Selection),
      acc.selectedTasks.length = tasks.length → ∀ i, i < tasks.length →
      (isSelected (selectTokens tasks toks acc).selectedTasks i = true ↔
        (isSelected acc.selectedTasks i = true ∨
          (isCompleted tasks i = false ∧
            ∃ tok ∈ toks, 0 < atoi tok ∧ atoi tok = idAt tasks i)))
  | [], acc, _, i, _ => by simp [selectTokens]
  | tok :: rest, acc, hlen, i, hi => by
    unfold selectTokens
    simp only
    by_cases hpos : atoi tok > 0
    · rw [if_pos hpos, selectTokens_flags hd rest _
        ((selectId_length tasks _ _ acc).trans hlen) i hi,
        selectId_flags hd _ _ acc (fun k hk => List.mem_range.1 hk) hlen i]
      simp only [Bool.or_eq_true, Bool.and_eq_true, decide_eq_true_eq, List.mem_range, hits,
        beq_iff_eq, Bool.not_eq_true', List.mem_cons, exists_eq_or_imp]
      constructor
      · rintro ((h | ⟨_, h1, h2⟩) | ⟨h1, h2⟩)
        · exact Or.inl h
        · exact Or.inr ⟨h2, Or.inl ⟨hpos, h1.symm⟩⟩
        · exact Or.inr ⟨h1, Or.inr h2⟩
      · rintro (h | ⟨h1, ⟨_, h2⟩ | h2⟩)
        · exact Or.inl (Or.inl h)
        · exact Or.inl (Or.inr ⟨hi, h2.symm, h1⟩)
        · exact Or.inr ⟨h1, h2⟩
    · rw [if_neg hpos, selectTokens_flags hd rest acc hlen i hi]
      simp only [List.mem_cons, exists_eq_or_imp]
      constructor
      · rintro (h | ⟨h1, h2⟩)
        · exact Or.inl h
        · exact Or.inr ⟨h1, Or.inr h2⟩
      · rintro (h | ⟨h1, ⟨h2, _⟩ | h2⟩)
        · exact Or.inl h
        · exact absurd h2 hpos
        · exact Or.inr ⟨h1, h2⟩

theorem selectAllInner_flags (tasks : List Task) (pid : Int) :
    ∀ (l : List Nat) (acc : Selection), (∀ i ∈ l, i < tasks.length) →
      acc.selectedTasks.length = tasks.length → ∀ i,
      isSelected (selectAllInner tasks pid l acc).selectedTasks i
        = (isSelected acc.selectedTasks i || (decide (i ∈ l) && hits tasks pid i))
  | [], acc, _, _, i => by simp [selectAllInner]
  | j :: rest, acc, hl, hlen, i => by
    unfold selectAllInner
    have hjl : j < tasks.length := hl j (List.mem_cons_self _ _)
    have hr : ∀ k ∈ rest, k < tasks.length := fun k hk => hl k (List.mem_cons_of_mem _ hk)
    by_cases hc : (idAt tasks j == pid && !isCompleted tasks j) = true
    · rw [if_pos hc, selectAllInner_flags tasks pid rest _ hr (by simpa using hlen) i,
        isSelected_set]
      by_cases hij : i = j
      · subst hij
        simp [hits, hc, hlen, hjl]
      · simp [hij]
    · rw [if_neg hc, selectAllInner_flags tasks pid rest acc hr hlen i]
      by_cases hij : i = j
      · subst hij
        have : hits tasks pid i = false := by simpa [hits] using hc
        simp [this]
      · simp [hij]

theorem selectAllInner_length (tasks : List Task) (pid : Int) :
    ∀ (l : List Nat) (acc : Selection),
      (selectAllInner tasks pid l acc).selectedTasks.length = acc.selectedTasks.length
  | [], acc => by simp [selectAllInner]
  | j :: rest, acc => by
    unfold selectAllInner
    split
    · rw [selectAllInner_length tasks pid rest _]; simp
    · exact selectAllInner_length tasks pid rest acc

theorem selectAllInner_count (tasks : List Task) (pid : Int) :
    ∀ (l : List Nat) (acc : Selection),
      (selectAllInner tasks pid l acc).numSelected
        = acc.numSelected + l.countP (hits tasks pid)
  | [], acc => by simp [selectAllInner]
  | j :: rest, acc => by
    unfold selectAllInner
    by_cases hc : (idAt tasks j == pid && !isCompleted tasks j) = true
    · have hh : hits tasks pid j = true := hc
      rw [if_pos hc, selectAllInner_count tasks pid rest _, List.countP_cons_of_pos _ _ hh]
      simp only
      omega
    · have hh : ¬ hits tasks pid j = true := hc
      rw [if_neg hc, selectAllInner_count tasks pid rest acc, List.countP_cons_of_neg _ _ hh]

theorem selectAll_length (tasks : List Task) :
    ∀ (pids : List Int) (acc : Selection),
      (selectAll tasks pids acc).selectedTasks.length = acc.selectedTasks.length
  | [], acc => by simp [selectAll]
  | pid :: rest, acc => by
    unfold selectAll
    rw [selectAll_length tasks rest _, selectAllInner_length]

theorem selectAll_flags (tasks : List Task) :
    ∀ (pids : List Int) (acc : Selection), acc.selectedTasks.length = tasks.length → ∀ i,
      (isSelected (selectAll tasks pids acc).selectedTasks i = true ↔
        (isSelected acc.selectedTasks i = true ∨
          (i < tasks.length ∧ ∃ pid ∈ pids, hits tasks pid i = true)))
  | [], acc, _, i => by simp [selectAll]
  | pid :: rest, acc, hlen, i => by
    unfold selectAll
    rw [selectAll_flags tasks rest _ ((selectAllInner_length tasks pid _ acc).trans hlen) i,
      selectAllInner_flags tasks pid _ acc (fun k hk => List.mem_range.1 hk) hlen i]
    simp only [Bool.or_eq_true, Bool.and_eq_true, decide_eq_true_eq, List.mem_range,
      List.mem_cons, exists_eq_or_imp]
    constructor
    · rintro ((h | ⟨h1, h2⟩) | ⟨h1, h2⟩)
      · exact Or.inl h
      · exact Or.inr ⟨h1, Or.inl h2⟩
      · exact Or.inr ⟨h1, Or.inr h2⟩
    · rintro (h | ⟨h1, h2 | h2⟩)
      · exact Or.inl (Or.inl h)
      · exact Or.inl (Or.inr ⟨h1, h2⟩)
      · exact Or.inr ⟨h1, h2⟩

theorem selectAll_count (tasks : List Task) :
    ∀ (pids : List Int) (acc : Selection),
      (selectAll tasks pids acc).numSelected
        = acc.numSelected
          + (pids.map (fun pid => (List.range tasks.length).countP (hits tasks pid))).sum
  | [], acc => by simp [selectAll]
  | pid :: rest, acc => by
    unfold selectAll
    rw [selectAll_count tasks rest _, selectAllInner_count]
    simp only [List.map_cons, List.sum_cons]
    omega

theorem mem_pendingTaskIds {tasks : List Task} {pid : Int} (h : pid ∈ pendingTaskIds tasks) :
    ∃ i, i < tasks.length ∧ hits tasks pid i = true := by
  unfold pendingTaskIds at h
  simp only [List.mem_map, List.mem_filter, Bool.not_eq_true'] at h
  obtain ⟨t, ⟨ht, hc⟩, hid⟩ := h
  obtain ⟨i, hi, hget⟩ := List.mem_iff_getElem.1 ht
  have hg : tasks[i]? = some t := by rw [List.getElem?_eq_getElem hi, hget]
  refine ⟨i, hi, ?_⟩
  simp [hits, idAt_of_get hg, isCompleted_of_get hg, hid, hc]

theorem countP_hits_eq_one {tasks : List Task} (hd : distinctIds tasks) {pid : Int}
    (h : pid ∈ pendingTaskIds tasks) :
    (List.range tasks.length).countP (hits tasks pid) = 1 := by
  obtain ⟨i0, hi0, hh0⟩ := mem_pendingTaskIds h
  have hfil : (List.range tasks.length).filter (hits tasks pid)
      = (List.range tasks.length).filter (fun i => i == i0) := by
    apply List.filter_congr
    intro i hi
    have hil : i < tasks.length := List.mem_range.1 hi
    by_cases hii : i = i0
    · subst hii; simp [hh0]
    · have : hits tasks pid i = false := by
        by_contra hne
        simp only [Bool.not_eq_false] at hne
        unfold hits at hne hh0
        simp only [Bool.and_eq_true, beq_iff_eq] at hne hh0
        exact hii (idAt_inj hd hil hi0 (hne.1.trans hh0.1.symm))
      simp [this, hii]
  rw [List.countP_eq_length_filter, hfil, ← List.countP_eq_length_filter]
  have := List.count_eq_one_of_mem (List.nodup_range tasks.length) (List.mem_range.2 hi0)
  simpa [List.count] using this

theorem selectTokens_skip (tasks : List Task) :
    ∀ (toks : List (List Char)) (acc : Selection), (∀ tok ∈ toks, atoi tok ≤ 0) →
      selectTokens tasks toks acc = acc
  | [], acc, _ => by simp [selectTokens]
  | tok :: rest, acc, h => by
    unfold selectTokens
    have h1 : ¬ atoi tok > 0 := not_lt.2 (h tok (List.mem_cons_self _ _))
    simp only [if_neg h1]
    exact selectTokens_skip tasks rest acc (fun t ht => h t (List.mem_cons_of_mem _ ht))

theorem toLower_cases (c : Char) (hl : c.toLower = 'a' ∨ c.toLower = 'l') :
    c = 'a' ∨ c = 'A' ∨ c = 'l' ∨ c = 'L' := by
  by_cases hr : c.toNat ≥ 65 ∧ c.toNat ≤ 90
  · obtain ⟨n, hn⟩ : ∃ n, c.toNat = n := ⟨_, rfl⟩
    have hc : c = Char.ofNat n := by rw [← hn]; exact (Char.ofNat_toNat c).symm
    rw [hn] at hr
    obtain ⟨h1, h2⟩ := hr
    subst hc
    clear hn
    interval_cases n <;> revert hl <;> decide
  · have : c.toLower = c := by
      unfold Char.toLower
      simp only [hr, if_false]
    rw [this] at hl
    rcases hl with h | h
    · left; exact h
    · right; right; left; exact h

theorem strtokAux_delim {d : Char} (hd : isDelim d = true) (s cur : List Char) :
    strtokAux (d :: s) cur = strtokAux [] cur ++ strtokAux s [] := by
  by_cases hc : cur = []
  · simp [strtokAux, hd, hc]
  · simp [strtokAux, hd, hc]

theorem strtokAux_run :
    ∀ (run s cur : List Char), (∀ c ∈ run, isDelim c = false) →
      strtokAux (run ++ s) cur = strtokAux s (run.reverse ++ cur)
  | [], s, cur, _ => by simp
  | c :: run, s, cur, h => by
    have hc : isDelim c = false := h c (List.mem_cons_self _ _)
    have hr : ∀ x ∈ run, isDelim x = false := fun x hx => h x (List.mem_cons_of_mem _ hx)
    rw [List.cons_append, strtokAux]
    simp only [hc, Bool.false_eq_true, if_false]
    rw [strtokAux_run run s (c :: cur) hr]
    simp

theorem strtokAux_append_of_delim {d : Char} (hd : isDelim d = true) :
    ∀ (p s cur : List Char),
      strtokAux (p ++ [d] ++ s) cur = strtokAux (p ++ [d]) cur ++ strtokAux s []
  | [], s, cur => by
    simp only [List.nil_append, List.singleton_append]
    rw [strtokAux_delim hd s cur, strtokAux_delim hd [] cur]
    simp [strtokAux]
  | c :: p, s, cur => by
    simp only [List.cons_append]
    by_cases hc : isDelim c = true
    · rw [strtokAux_delim hc, strtokAux_delim hc]
      have := strtokAux_append_of_delim hd p s []
      simp only [List.append_assoc] at this ⊢
      rw [this]
    · have := strtokAux_append_of_delim hd p s (c :: cur)
      simp only [List.append_assoc, List.cons_append, List.nil_append] at this ⊢
      rw [strtokAux, strtokAux]
      simp only [hc, if_false]
      exact this

theorem strtokAll_append {pre : List Char} (hpre : endsDelimited pre) (s : List Char) :
    strtokAll (pre ++ s) = strtokAll pre ++ strtokAll s := by
  unfold strtokAll
  rcases List.eq_nil_or_concat pre with h | ⟨p, d, h⟩
  · subst h; simp [strtokAux]
  · subst h
    have hd : isDelim d = true := hpre d (by simp)
    simpa using strtokAux_append_of_delim hd p s []

theorem strtokAll_token {tok post : List Char} (htok : tok ≠ [])
    (hnd : ∀ c ∈ tok, isDelim c = false) (hpost : startsDelimited post) :
    strtokAll (tok ++ post) = tok :: strtokAll post := by
  unfold strtokAll
  rw [strtokAux_run tok post [] hnd]
  cases post with
  | nil => simp [strtokAux, htok]
  | cons d p =>
    have hd : isDelim d = true := hpost d (by simp)
    rw [strtokAux_delim hd, strtokAux_delim hd p []]
    simp [strtokAux, htok]

theorem selectTokens_append (tasks : List Task) :
    ∀ (a b : List (List Char)) (acc : Selection),
      selectTokens tasks (a ++ b) acc = selectTokens tasks b (selectTokens tasks a acc)
  | [], b, acc => by simp [selectTokens]
  | tok :: a, b, acc => by
    simp only [List.cons_append, selectTokens]
    split
    · exact selectTokens_append tasks a b _
    · exact selectTokens_append tasks a b acc

theorem not_all_of_delimited {pre post : List Char} (hpre : endsDelimited pre)
    (hpost : startsDelimited post) : pre ++ post ≠ ['a', 'l', 'l'] := by
  intro h
  rcases List.eq_nil_or_concat pre with hp | ⟨p, d, hp⟩
  · subst hp
    simp only [List.nil_append] at h
    subst h
    have := hpost 'a' (by simp)
    revert this; decide
  · subst hp
    have hd : isDelim d = true := hpre d (by simp)
    have hmem : d ∈ ['a', 'l', 'l'] := by
      rw [← h]; simp
    simp only [List.mem_cons, List.mem_singleton, List.not_mem_nil, or_false] at hmem
    rcases hmem with rfl | rfl | rfl <;> revert hd <;> decide

theorem countdown_true : ∀ j, countdown true j = true
  | 0 => rfl
  | j + 1 => by simp [countdown, countdown_true j]

theorem executeTaskThread_true (t : Task) : executeTaskThread true t = markDone t := by
  simp [executeTaskThread, countdown_true, markDone]

theorem runUnit_get : ∀ (tasks : List Task) (j i : Nat),
    (runUnit true tasks j)[i]? = (tasks[i]?).map (fun t => if i = j then markDone t else t)
  | [], j, i => by simp [runUnit]
  | t :: ts, 0, 0 => by simp [runUnit, executeTaskThread_true]
  | t :: ts, 0, i + 1 => by simp [runUnit]
  | t :: ts, j + 1, 0 => by simp [runUnit]
  | t :: ts, j + 1, i + 1 => by
    simp only [runUnit, List.getElem?_cons_succ, runUnit_get ts j i, Nat.add_right_cancel_iff]

theorem runUnit_length : ∀ (tasks : List Task) (j : Nat),
    (runUnit true tasks j).length = tasks.length
  | [], j => by simp [runUnit]
  | t :: ts, 0 => by simp [runUnit]
  | t :: ts, j + 1 => by simp [runUnit, runUnit_length ts j]

theorem markDone_markDone (t : Task) : markDone (markDone t) = markDone t := rfl

theorem joinThreads_get : ∀ (threads : List Nat) (tasks : List Task) (i : Nat),
    (joinThreads true tasks threads)[i]?
      = (tasks[i]?).map (fun t => if i ∈ threads then markDone t else t)
  | [], tasks, i => by simp [joinThreads]
  | j :: rest, tasks, i => by
    have ih := joinThreads_get rest (runUnit true tasks j) i
    unfold joinThreads at ih ⊢
    rw [List.foldl_cons, ih, runUnit_get]
    cases tasks[i]? with
    | none => simp
    | some t =>
      simp only [Option.map_some', List.mem_cons]
      by_cases h1 : i = j <;> by_cases h2 : i ∈ rest <;> simp [h1, h2, markDone_markDone]

theorem joinThreads_length : ∀ (threads : List Nat) (tasks : List Task),
    (joinThreads true tasks threads).length = tasks.length
  | [], tasks => by simp [joinThreads]
  | j :: rest, tasks => by
    have ih := joinThreads_length rest (runUnit true tasks j)
    unfold joinThreads at ih ⊢
    rw [List.foldl_cons, ih, runUnit_length]

theorem launchFirst_spec (mallocOk : Nat → Bool) (sel : List Bool) (maxT : Nat) :
    ∀ (l threads : List Nat) (done : Nat), threads.length ≤ maxT →
      ∃ k, (launchFirst mallocOk sel maxT l threads done).1
            = threads ++ (l.filter (isSelected sel)).take k ∧
        k ≤ (l.filter (isSelected sel)).length ∧
        (launchFirst mallocOk sel maxT l threads done).2.1 = done + k ∧
        threads.length + k ≤ maxT ∧
        ((∀ n, mallocOk n = true) →
          (launchFirst mallocOk sel maxT l threads done).2.2 = true ∧
          k = min (maxT - threads.length) (l.filter (isSelected sel)).length)
  | [], threads, done, h => ⟨0, by simp [launchFirst], by simp, by simp [launchFirst], by simpa using h,
      fun _ => by simp [launchFirst]⟩
  | i :: rest, threads, done, h => by
    unfold launchFirst
    by_cases hlt : threads.length < maxT
    · rw [if_pos hlt]
      by_cases hs : isSelected sel i = true
      · rw [if_pos hs]
        by_cases hm : mallocOk done = true
        · rw [if_pos hm]
          obtain ⟨k, h1, h2, h3, h4, h5⟩ :=
            launchFirst_spec mallocOk sel maxT rest (threads ++ [i]) (done + 1)
              (by simp; omega)
          refine ⟨k + 1, ?_, ?_, ?_, ?_, ?_⟩
          · rw [h1]; simp [List.filter_cons, hs]
          · simp [List.filter_cons, hs]; exact h2
          · rw [h3]; omega
          · simp at h4; omega
          · intro hall
            obtain ⟨h6, h7⟩ := h5 hall
            refine ⟨h6, ?_⟩
            simp only [List.filter_cons, hs, if_true, List.length_cons]
            simp at h7
            omega
        · rw [if_neg hm]
          refine ⟨0, by simp, by simp, by simp, by simpa using h, ?_⟩
          intro hall
          exact absurd (hall done) hm
      · rw [if_neg hs]
        obtain ⟨k, h1, h2, h3, h4, h5⟩ :=
          launchFirst_spec mallocOk sel maxT rest threads done h
        refine ⟨k, ?_, ?_, h3, h4, ?_⟩
        · rw [h1]; simp [List.filter_cons, hs]
        · simpa [List.filter_cons, hs] using h2
        · intro hall
          simpa [List.filter_cons, hs] using h5 hall
    · rw [if_neg hlt]
      refine ⟨0, by simp, by simp, by simp, by simpa using h, ?_⟩
      intro _
      refine ⟨rfl, ?_⟩
      have : maxT - threads.length = 0 := by omega
      simp [this]

theorem launchNext_spec (mallocOk : Nat → Bool) (sel : List Bool) (tasks : List Task)
    (maxT numSelected : Nat) :
    ∀ (l threads : List Nat) (done : Nat), threads.length ≤ maxT →
      ∃ k, (launchNext mallocOk sel tasks maxT numSelected l threads done).1
            = threads ++ (l.filter (candidate sel tasks)).take k ∧
        k ≤ (l.filter (candidate sel tasks)).length ∧
        (launchNext mallocOk sel tasks maxT numSelected l threads done).2.1 = done + k ∧
        threads.length + k ≤ maxT ∧
        ((∀ n, mallocOk n = true) → done < numSelected →
          (launchNext mallocOk sel tasks maxT numSelected l threads done).2.2 = true ∧
          k = min (min (maxT - threads.length) (numSelected - done))
                (l.filter (candidate sel tasks)).length)
  | [], threads, done, h => ⟨0, by simp [launchNext], by simp, by simp [launchNext],
      by simpa using h, fun _ _ => by simp [launchNext]⟩
  | i :: rest, threads, done, h => by
    unfold launchNext
    by_cases hlt : threads.length < maxT
    · rw [if_pos hlt]
      by_cases hs : (isSelected sel i && !isCompleted tasks i) = true
      · have hs2 : candidate sel tasks i = true := hs
        rw [if_pos hs]
        by_cases hm : mallocOk done = true
        · rw [if_pos hm]
          by_cases hb : done + 1 ≥ numSelected
          · rw [if_pos hb]
            refine ⟨1, ?_, ?_, rfl, by omega, ?_⟩
            · simp [List.filter_cons, hs2]
            · simp [List.filter_cons, hs2]
            · intro _ hdn
              refine ⟨rfl, ?_⟩
              simp only [List.filter_cons, hs2, if_true, List.length_cons]
              omega
          · rw [if_neg hb]
            obtain ⟨k, h1, h2, h3, h4, h5⟩ :=
              launchNext_spec mallocOk sel tasks maxT numSelected rest (threads ++ [i])
                (done + 1) (by simp; omega)
            refine ⟨k + 1, ?_, ?_, ?_, ?_, ?_⟩
            · rw [h1]; simp [List.filter_cons, hs2]
            · simp [List.filter_cons, hs2]; exact h2
            · rw [h3]; omega
            · simp at h4; omega
            · intro hall hdn
              obtain ⟨h6, h7⟩ := h5 hall (by omega)
              refine ⟨h6, ?_⟩
              simp only [List.filter_cons, hs2, if_true, List.length_cons]
              simp at h7
              omega
        · rw [if_neg hm]
          refine ⟨0, by simp, by simp, by simp, by simpa using h, ?_⟩
          intro hall
          exact absurd (hall done) hm
      · have hs2 : ¬ candidate sel tasks i = true := hs
        rw [if_neg hs]
        obtain ⟨k, h1, h2, h3, h4, h5⟩ :=
          launchNext_spec mallocOk sel tasks maxT numSelected rest threads done h
        refine ⟨k, ?_, ?_, h3, h4, ?_⟩
        · rw [h1]; simp [List.filter_cons, hs2]
        · simpa [List.filter_cons, hs2] using h2
        · intro hall hdn
          simpa [List.filter_cons, hs2] using h5 hall hdn
    · rw [if_neg hlt]
      refine ⟨0, by simp, by simp, by simp, by simpa using h, ?_⟩
      intro _ _
      refine ⟨rfl, ?_⟩
      have : maxT - threads.length = 0 := by omega
      simp [this]

theorem indicesFrom_sorted (a n : Nat) : (indicesFrom a n).Sorted (· < ·) := by
  unfold indicesFrom
  exact List.pairwise_lt_range' a (n - a)

theorem mem_indicesFrom {a n i : Nat} : i ∈ indicesFrom a n ↔ a ≤ i ∧ i < n := by
  unfold indicesFrom
  rw [List.mem_range'_1]
  omega

theorem take_filter_lt {p : Nat → Bool} {L : List Nat} (hs : L.Sorted (· < ·)) (k : Nat)
    {i : Nat} (hi : i ∈ L) (hp : p i = true) (hn : i ∉ (L.filter p).take k) :
    ∀ w ∈ (L.filter p).take k, w < i := by
  intro w hw
  have hF : (L.filter p).Sorted (· < ·) := hs.filter _
  have hiF : i ∈ L.filter p := List.mem_filter.2 ⟨hi, hp⟩
  rw [← List.take_append_drop k (L.filter p)] at hF hiF
  rcases List.mem_append.1 hiF with h | h
  · exact absurd h hn
  · exact (List.pairwise_append.1 hF).2.2 w hw i h

theorem scanNext_ge (sel : List Bool) (seen : Nat → Bool) :
    ∀ (l : List Nat) (next : Nat), (∀ i ∈ l, next ≤ i) → next ≤ scanNext sel seen l next
  | [], next, _ => by simp [scanNext]
  | i :: rest, next, h => by
    unfold scanNext
    split
    · have := h i (List.mem_cons_self _ _); omega
    · exact scanNext_ge sel seen rest next (fun k hk => h k (List.mem_cons_of_mem _ hk))

theorem scanNext_le (sel : List Bool) (seen : Nat → Bool) :
    ∀ (l : List Nat) (next : Nat) (t : Nat), l.Sorted (· < ·) → t ∈ l →
      (isSelected sel t && !seen t) = true → scanNext sel seen l next ≤ t + 1
  | [], next, t, _, ht, _ => by simp at ht
  | i :: rest, next, t, hs, ht, hc => by
    unfold scanNext
    by_cases hi : (isSelected sel i && !seen i) = true
    · rw [if_pos hi]
      rcases List.mem_cons.1 ht with h | h
      · omega
      · have := List.rel_of_sorted_cons hs t h
        omega
    · rw [if_neg hi]
      rcases List.mem_cons.1 ht with h | h
      · subst h; exact absurd hc hi
      · exact scanNext_le sel seen rest next t (List.Sorted.of_cons hs) h hc

theorem doneOn_join {T0 : List Task} {J threads : List Nat} {tasks : List Task}
    (h : doneOn T0 J tasks) : doneOn T0 (J ++ threads) (joinThreads true tasks threads) := by
  intro i
  rw [joinThreads_get, h i]
  cases T0[i]? with
  | none => simp
  | some t =>
    simp only [Option.map_some', List.mem_append]
    by_cases h1 : i ∈ J <;> by_cases h2 : i ∈ threads <;> simp [h1, h2, markDone_markDone]

theorem candidate_doneOn {T0 : List Task} {sel : List Bool} (hok : SelOk T0 sel)
    {L : List Nat} {tasks : List Task} (h : doneOn T0 L tasks) (i : Nat) :
    candidate sel tasks i = (isSelected sel i && !decide (i ∈ L)) := by
  unfold candidate
  by_cases hs : isSelected sel i = true
  · have hp := hok.pending i hs
    have hi : i < T0.length := by rw [← hok.len]; exact isSelected_lt hs
    have hg : T0[i]? = some T0[i] := List.getElem?_eq_getElem hi
    have hc : T0[i].completed = false := by rw [← isCompleted_of_get hg]; exact hp
    have := h i
    rw [hg] at this
    simp only [Option.map_some'] at this
    rw [isCompleted_of_get this, hs]
    by_cases hL : i ∈ L
    · simp [hL, markDone]
    · simp [hL, hc]
  · simp only [Bool.not_eq_true] at hs
    simp [hs]

theorem linv_pass {T0 : List Task} {sel : List Bool} {maxT numSelected : Nat} (env : Env)
    (hok : SelOk T0 sel) (pass : Nat) {st : RunState} (h : LInv T0 sel maxT st) :
    LInv T0 sel maxT (wavePass env sel numSelected maxT pass st).1 := by
  obtain ⟨J, hJ, hdone⟩ := h.joined
  have hdone2 : doneOn T0 st.waves.flatten (joinThreads true st.tasks st.threads) := by
    rw [hJ]; exact doneOn_join hdone
  obtain ⟨k, h1, h2, h3, h4, -⟩ := launchNext_spec env.mallocOk sel
    (joinThreads true st.tasks st.threads) maxT numSelected
    (indicesFrom (scanNext sel
      (fun i => isCompleted st.tasks i || (decide (i ∈ st.threads) && env.early pass i))
      (indicesFrom st.nextTaskToRun st.tasks.length) st.nextTaskToRun) st.tasks.length)
    [] st.tasksDone (Nat.zero_le _)
  have hnext := scanNext_ge sel
      (fun i => isCompleted st.tasks i || (decide (i ∈ st.threads) && env.early pass i))
      (indicesFrom st.nextTaskToRun st.tasks.length) st.nextTaskToRun
      (fun i hi => (mem_indicesFrom.1 hi).1)
  simp only [List.nil_append, List.length_nil, Nat.zero_add] at h1 h4
  generalize hN : scanNext sel
      (fun i => isCompleted st.tasks i || (decide (i ∈ st.threads) && env.early pass i))
      (indicesFrom st.nextTaskToRun st.tasks.length) st.nextTaskToRun = next at h1 h2 h3 hnext
  generalize hW : (launchNext env.mallocOk sel (joinThreads true st.tasks st.threads) maxT
      numSelected (indicesFrom next st.tasks.length) [] st.tasksDone) = r at h1 h3
  have hst : (wavePass env sel numSelected maxT pass st).1 =
      { tasks := joinThreads true st.tasks st.threads
        threads := r.1
        tasksDone := r.2.1
        nextTaskToRun := next
        trace := st.trace ++ joinEvents st.threads.length ++ createEvents r.1
        waves := st.waves ++ [r.1] } := by
    simp only [wavePass, joinThreads_length, hN, hW]
  rw [hst]
  have hflat : (st.waves ++ [r.1]).flatten = st.waves.flatten ++ r.1 := by simp
  have hWmem : ∀ w ∈ r.1, next ≤ w ∧ w < st.tasks.length ∧ isSelected sel w = true ∧
      w ∉ st.waves.flatten := by
    intro w hw
    rw [h1] at hw
    have hw2 := List.mem_filter.1 (List.mem_of_mem_take hw)
    have hc := hw2.2
    rw [candidate_doneOn hok hdone2] at hc
    simp only [Bool.and_eq_true, Bool.not_eq_true', decide_eq_false_iff_not] at hc
    exact ⟨(mem_indicesFrom.1 hw2.1).1, (mem_indicesFrom.1 hw2.1).2, hc.1, hc.2⟩
  have hWsorted : r.1.Sorted (· < ·) := by
    rw [h1]
    exact ((indicesFrom_sorted _ _).filter _).sublist (List.take_sublist _ _)
  refine ⟨?_, ⟨st.waves.flatten, hflat, hdone2⟩, ?_, ?_, ?_, ?_, ?_⟩
  · simp [joinThreads_length, h.len]
  · show ((st.waves ++ [r.1]).flatten).Sorted (· < ·)
    rw [hflat]
    refine List.pairwise_append.2 ⟨h.sorted, hWsorted, ?_⟩
    intro l hl w hw
    obtain ⟨hw1, _, hw3, hw4⟩ := hWmem w hw
    exact h.ahead w (le_trans hnext hw1) hw3 hw4 l hl
  · intro i hi
    rw [hflat] at hi
    rcases List.mem_append.1 hi with hi | hi
    · exact h.sel_mem i hi
    · exact (hWmem i hi).2.2.1
  · show r.2.1 = ((st.waves ++ [r.1]).flatten).length
    rw [hflat, h3, h.done_eq, h1]
    simp [List.length_take, h2]
  · intro i hi hs hn l hl
    rw [hflat] at hn hl
    simp only [List.mem_append, not_or] at hn
    rcases List.mem_append.1 hl with hl | hl
    · exact h.ahead i (le_trans hnext hi) hs hn.1 l hl
    · have hilt : i < st.tasks.length := by
        rw [h.len, ← hok.len]; exact isSelected_lt hs
      have hcand : candidate sel (joinThreads true st.tasks st.threads) i = true := by
        rw [candidate_doneOn hok hdone2]
        simp [hs, hn.1]
      rw [h1] at hl
      refine take_filter_lt (indicesFrom_sorted _ _) k (mem_indicesFrom.2 ⟨hi, hilt⟩) hcand ?_ l hl
      rw [← h1]; exact hn.2
  · intro w hw
    rcases List.mem_append.1 hw with hw | hw
    · exact h.wave_le w hw
    · simp only [List.mem_singleton] at hw
      rw [hw, h1, List.length_take]
      omega

theorem doneOn_nil (T0 : List Task) : doneOn T0 [] T0 := by
  intro i
  cases T0[i]? <;> simp

theorem linv_first {T0 : List Task} {sel : List Bool} (hok : SelOk T0 sel) (maxT : Nat)
    (mallocOk : Nat → Bool) (tr : List Event) :
    LInv T0 sel maxT
      { tasks := T0
        threads := (launchFirst mallocOk sel maxT (indicesFrom 0 T0.length) [] 0).1
        tasksDone := (launchFirst mallocOk sel maxT (indicesFrom 0 T0.length) [] 0).2.1
        nextTaskToRun := 0
        trace := tr
        waves := [(launchFirst mallocOk sel maxT (indicesFrom 0 T0.length) [] 0).1] } := by
  obtain ⟨k, h1, h2, h3, h4, -⟩ := launchFirst_spec mallocOk sel maxT
    (indicesFrom 0 T0.length) [] 0 (Nat.zero_le _)
  simp only [List.nil_append, List.length_nil, Nat.zero_add] at h1 h3 h4
  generalize (launchFirst mallocOk sel maxT (indicesFrom 0 T0.length) [] 0) = r at h1 h3
  have hflat : [r.1].flatten = r.1 := by simp
  refine ⟨rfl, ⟨[], by simp, doneOn_nil T0⟩, ?_, ?_, ?_, ?_, ?_⟩
  · show ([r.1].flatten).Sorted (· < ·)
    rw [hflat, h1]
    exact ((indicesFrom_sorted _ _).filter _).sublist (List.take_sublist _ _)
  · intro i hi
    rw [hflat, h1] at hi
    exact (List.mem_filter.1 (List.mem_of_mem_take hi)).2
  · show r.2.1 = ([r.1].flatten).length
    rw [hflat, h3, h1]
    simp [List.length_take, h2]
  · intro i _ hs hn l hl
    rw [hflat] at hn hl
    rw [h1] at hl hn
    have hilt : i < T0.length := by rw [← hok.len]; exact isSelected_lt hs
    exact take_filter_lt (indicesFrom_sorted _ _) k
      (mem_indicesFrom.2 ⟨Nat.zero_le _, hilt⟩) hs hn l hl
  · intro w hw
    simp only [List.mem_singleton] at hw
    rw [hw, h1, List.length_take]
    omega

theorem post_finish {T0 : List Task} {sel : List Bool} {maxT numSelected : Nat}
    {st : RunState} (h : LInv T0 sel maxT st) (hd : ¬ st.tasksDone < numSelected) :
    Post T0 sel maxT numSelected (Outcome.finished, finishRun st) := by
  obtain ⟨J, hJ, hdone⟩ := h.joined
  refine ⟨?_, h.sorted, h.sel_mem, h.wave_le, ?_⟩
  · simp [finishRun, joinThreads_length, h.len]
  · intro _
    refine ⟨?_, ?_⟩
    · have := h.done_eq
      show numSelected ≤ st.waves.flatten.length
      omega
    · show doneOn T0 st.waves.flatten (joinThreads true st.tasks st.threads)
      rw [hJ]; exact doneOn_join hdone

theorem post_stop {T0 : List Task} {sel : List Bool} {maxT numSelected : Nat}
    {st : RunState} (h : LInv T0 sel maxT st) (o : Outcome) (ho : o ≠ Outcome.finished) :
    Post T0 sel maxT numSelected (o, st) :=
  ⟨h.len, h.sorted, h.sel_mem, h.wave_le, fun hf => absurd hf ho⟩

theorem waveLoop_post {T0 : List Task} {sel : List Bool} {maxT numSelected : Nat} (env : Env)
    (hok : SelOk T0 sel) :
    ∀ (fuel pass : Nat) (st : RunState), LInv T0 sel maxT st →
      Post T0 sel maxT numSelected (waveLoop env sel numSelected maxT fuel pass st)
  | 0, pass, st, h => by
    unfold waveLoop
    by_cases hd : st.tasksDone < numSelected
    · rw [if_pos hd]; exact post_stop h _ (by decide)
    · rw [if_neg hd]; exact post_finish h hd
  | fuel + 1, pass, st, h => by
    unfold waveLoop
    by_cases hd : st.tasksDone < numSelected
    · rw [if_pos hd]
      simp only
      have h2 := @linv_pass T0 sel maxT numSelected env hok pass st h
      by_cases hm : (wavePass env sel numSelected maxT pass st).2 = true
      · rw [if_pos hm]
        exact waveLoop_post env hok fuel (pass + 1) _ h2
      · rw [if_neg hm]
        exact post_stop h2 _ (by decide)
    · rw [if_neg hd]; exact post_finish h hd

theorem exists_unlaunched {sel : List Bool} {n : Nat} {L : List Nat}
    (hlt : L.length < (selectedIdx ⟨sel, n⟩).length) :
    ∃ i, isSelected sel i = true ∧ i ∉ L := by
  by_contra hc
  push_neg at hc
  have hsub : selectedIdx ⟨sel, n⟩ ⊆ L := fun i hi => hc i (mem_selectedIdx.1 hi)
  have := ((selectedIdx_nodup ⟨sel, n⟩).subperm hsub).length_le
  omega

theorem calm_pass {T0 : List Task} {sel : List Bool} {maxT numSelected : Nat} (env : Env)
    (hok : SelOk T0 sel) (hearly : ∀ w i, env.early w i = false)
    (hmalloc : ∀ k, env.mallocOk k = true)
    (hcount : numSelected = (selectedIdx ⟨sel, numSelected⟩).length) (hmax : 1 ≤ maxT)
    (pass : Nat) {st : RunState} (h : LInv T0 sel maxT st) (hc : CalmInv sel numSelected st)
    (hd : st.tasksDone < numSelected) :
    (wavePass env sel numSelected maxT pass st).2 = true ∧
      CalmInv sel numSelected (wavePass env sel numSelected maxT pass st).1 ∧
      st.tasksDone < (wavePass env sel numSelected maxT pass st).1.tasksDone := by
  obtain ⟨J, hJ, hdone⟩ := h.joined
  have hdone2 : doneOn T0 st.waves.flatten (joinThreads true st.tasks st.threads) := by
    rw [hJ]; exact doneOn_join hdone
  have hseen : (fun i => isCompleted st.tasks i ||
      (decide (i ∈ st.threads) && env.early pass i)) = fun i => isCompleted st.tasks i := by
    funext i; simp [hearly]
  -- the scan stops at or before the first running unit
  obtain ⟨t0, ht0⟩ := List.exists_mem_of_ne_nil _ (hc.threads_ne hd)
  have ht0L : t0 ∈ st.waves.flatten := by rw [hJ]; exact List.mem_append_right _ ht0
  have ht0sel := h.sel_mem t0 ht0L
  have ht0lt : t0 < st.tasks.length := by rw [h.len, ← hok.len]; exact isSelected_lt ht0sel
  have hnd : (J ++ st.threads).Nodup := by rw [← hJ]; exact h.sorted.nodup
  have ht0J : t0 ∉ J := fun hj => (List.disjoint_of_nodup_append hnd) hj ht0
  have ht0c : (isSelected sel t0 && !isCompleted st.tasks t0) = true := by
    have := candidate_doneOn hok hdone t0
    unfold candidate at this
    rw [this]; simp [ht0sel, ht0J]
  have hle := scanNext_le sel (fun i => isCompleted st.tasks i)
      (indicesFrom st.nextTaskToRun st.tasks.length) st.nextTaskToRun t0
      (indicesFrom_sorted _ _) (mem_indicesFrom.2 ⟨hc.threads_ge t0 ht0, ht0lt⟩) ht0c
  obtain ⟨k, h1, h2, h3, h4, h5⟩ := launchNext_spec env.mallocOk sel
    (joinThreads true st.tasks st.threads) maxT numSelected
    (indicesFrom (scanNext sel (fun i => isCompleted st.tasks i)
      (indicesFrom st.nextTaskToRun st.tasks.length) st.nextTaskToRun) st.tasks.length)
    [] st.tasksDone (Nat.zero_le _)
  obtain ⟨h6, h7⟩ := h5 hmalloc hd
  simp only [List.nil_append, List.length_nil, Nat.zero_add, Nat.sub_zero] at h1 h4 h7
  generalize hN : scanNext sel (fun i => isCompleted st.tasks i)
      (indicesFrom st.nextTaskToRun st.tasks.length) st.nextTaskToRun = next
      at h1 h2 h3 h6 h7 hle
  generalize hW : (launchNext env.mallocOk sel (joinThreads true st.tasks st.threads) maxT
      numSelected (indicesFrom next st.tasks.length) [] st.tasksDone) = r at h1 h3 h6
  have hst : wavePass env sel numSelected maxT pass st =
      ({ tasks := joinThreads true st.tasks st.threads
         threads := r.1
         tasksDone := r.2.1
         nextTaskToRun := next
         trace := st.trace ++ joinEvents st.threads.length ++ createEvents r.1
         waves := st.waves ++ [r.1] }, r.2.2) := by
    simp only [wavePass, joinThreads_length, hseen, hN, hW]
  rw [hst]
  have hflat : (st.waves ++ [r.1]).flatten = st.waves.flatten ++ r.1 := by simp
  -- every selected task not yet launched lies beyond the scan position
  have hbeyond : ∀ i, isSelected sel i = true → i ∉ st.waves.flatten → next ≤ i := by
    intro i hs hn
    have := h.ahead i (hc.nolost i hs hn) hs hn t0 ht0L
    omega
  have hkpos : 1 ≤ k := by
    have hlen : st.waves.flatten.length < (selectedIdx ⟨sel, numSelected⟩).length := by
      rw [← hcount, ← h.done_eq]; exact hd
    obtain ⟨i, hs, hn⟩ := exists_unlaunched hlen
    have hilt : i < st.tasks.length := by rw [h.len, ← hok.len]; exact isSelected_lt hs
    have hcand : candidate sel (joinThreads true st.tasks st.threads) i = true := by
      rw [candidate_doneOn hok hdone2]; simp [hs, hn]
    have hmem : i ∈ (indicesFrom next st.tasks.length).filter
        (candidate sel (joinThreads true st.tasks st.threads)) :=
      List.mem_filter.2 ⟨mem_indicesFrom.2 ⟨hbeyond i hs hn, hilt⟩, hcand⟩
    have := List.length_pos_of_mem hmem
    omega
  refine ⟨h6, ⟨?_, ?_, ?_⟩, ?_⟩
  · intro i hs hn
    rw [hflat] at hn
    simp only [List.mem_append, not_or] at hn
    exact hbeyond i hs hn.1
  · intro t ht
    rw [h1] at ht
    exact (mem_indicesFrom.1 (List.mem_filter.1 (List.mem_of_mem_take ht)).1).1
  · intro _ hnil
    have : r.1.length = k := by rw [h1, List.length_take]; omega
    rw [show r.1 = [] from hnil] at this
    simp at this
    omega
  · show st.tasksDone < r.2.1
    omega

theorem waveLoop_calm {T0 : List Task} {sel : List Bool} {maxT numSelected : Nat} (env : Env)
    (hok : SelOk T0 sel) (hearly : ∀ w i, env.early w i = false)
    (hmalloc : ∀ k, env.mallocOk k = true)
    (hcount : numSelected = (selectedIdx ⟨sel, numSelected⟩).length) (hmax : 1 ≤ maxT) :
    ∀ (fuel pass : Nat) (st : RunState), LInv T0 sel maxT st → CalmInv sel numSelected st →
      numSelected - st.tasksDone ≤ fuel →
      (waveLoop env sel numSelected maxT fuel pass st).1 = Outcome.finished
  | 0, pass, st, _, _, hf => by
    unfold waveLoop
    have hd : ¬ st.tasksDone < numSelected := by omega
    rw [if_neg hd]
  | fuel + 1, pass, st, h, hc, hf => by
    unfold waveLoop
    by_cases hd : st.tasksDone < numSelected
    · rw [if_pos hd]
      simp only
      obtain ⟨h1, h2, h3⟩ := calm_pass env hok hearly hmalloc hcount hmax pass h hc hd
      rw [if_pos h1]
      exact waveLoop_calm env hok hearly hmalloc hcount hmax fuel (pass + 1) _
        (linv_pass env hok pass h) h2 (by omega)
    · rw [if_neg hd]

theorem outstandingFrom_append (out : List Nat) (a b : List Event) :
    outstandingFrom out (a ++ b) = outstandingFrom (outstandingFrom out a) b := by
  simp [outstandingFrom, List.foldl_append]

theorem outstanding_append (a b : List Event) :
    outstanding (a ++ b) = outstandingFrom (outstanding a) b :=
  outstandingFrom_append [] a b

theorem outstandingFrom_joins (out : List Nat) :
    ∀ n, outstandingFrom out (joinEvents n) = out.filter (fun s => decide (n ≤ s))
  | 0 => by simp [joinEvents, outstandingFrom]
  | n + 1 => by
    have e : joinEvents (n + 1) = joinEvents n ++ [Event.join n] := by
      simp [joinEvents, List.range_succ]
    rw [e, outstandingFrom_append, outstandingFrom_joins out n]
    simp only [outstandingFrom, List.foldl_cons, List.foldl_nil, outstandingStep,
      List.filter_filter]
    apply List.filter_congr
    intro s _
    rw [Bool.eq_iff_iff]
    simp only [Bool.and_eq_true, decide_eq_true_eq, bne_iff_ne, ne_eq]
    omega

theorem outstandingFrom_creates :
    ∀ (W : List Nat) (a : Nat) (out : List Nat),
      outstandingFrom out ((W.enumFrom a).map (fun p => Event.create p.1 p.2))
        = out ++ List.range' a W.length
  | [], a, out => by simp [outstandingFrom]
  | w :: W, a, out => by
    have ih := outstandingFrom_creates W (a + 1) (out ++ [a])
    simp only [outstandingFrom] at ih ⊢
    simp only [List.enumFrom_cons, List.map_cons, List.foldl_cons, outstandingStep, ih,
      List.length_cons, List.range'_succ, List.append_assoc, List.singleton_append]

theorem creates_not_barrier :
    ∀ (W : List Nat) (a : Nat), 0 < a →
      ∀ e ∈ (W.enumFrom a).map (fun p => Event.create p.1 p.2), e.isBarrier = false
  | [], a, _, e, he => by simp at he
  | w :: W, a, ha, e, he => by
    simp only [List.enumFrom_cons, List.map_cons, List.mem_cons] at he
    rcases he with he | he
    · subst he
      obtain ⟨b, rfl⟩ : ∃ b, a = b + 1 := ⟨a - 1, by omega⟩
      rfl
    · exact creates_not_barrier W (a + 1) (Nat.succ_pos a) e he

theorem joins_not_barrier (n : Nat) : ∀ e ∈ joinEvents n, e.isBarrier = false := by
  intro e he
  simp only [joinEvents, List.mem_map] at he
  obtain ⟨s, _, rfl⟩ := he
  rfl

theorem barrier_nil : Barrier [] := by
  intro pre e post h
  simp at h

theorem barrier_append {tr new : List Event} (h : Barrier tr)
    (hnew : ∀ pre e post, new = pre ++ e :: post → e.isBarrier = true →
      outstanding (tr ++ pre) = []) : Barrier (tr ++ new) := by
  intro p x q hx hb
  rcases List.append_eq_append_iff.1 hx with ⟨a, h1, h2⟩ | ⟨c, h1, h2⟩
  · rw [h1]; exact hnew a x q h2 hb
  · cases c with
    | nil =>
      simp only [List.nil_append] at h2
      simp only [List.append_nil] at h1
      have := hnew [] x q h2.symm hb
      rw [List.append_nil] at this
      rw [← h1]; exact this
    | cons y c =>
      simp only [List.cons_append, List.cons.injEq] at h2
      rw [← h2.1] at h1
      exact h p x c h1 hb

theorem barrier_append_free {tr new : List Event} (h : Barrier tr)
    (hnew : ∀ e ∈ new, e.isBarrier = false) : Barrier (tr ++ new) := by
  apply barrier_append h
  intro pre e post he hb
  have : e ∈ new := by rw [he]; simp
  rw [hnew e this] at hb
  exact absurd hb (by decide)

theorem barrier_snoc {tr : List Event} (h : Barrier tr) (e : Event)
    (he : outstanding tr = []) : Barrier (tr ++ [e]) := by
  apply barrier_append h
  intro pre x post hx _
  cases pre with
  | nil => simpa using he
  | cons y pre =>
    simp only [List.cons_append, List.cons.injEq] at hx
    have := congrArg List.length hx.2
    simp only [List.length_nil, List.length_append, List.length_cons] at this
    omega

theorem barrier_creates {tr : List Event} (h : Barrier tr) (he : outstanding tr = [])
    (W : List Nat) : Barrier (tr ++ createEvents W) := by
  cases W with
  | nil => simpa [createEvents] using h
  | cons w W =>
    have e : tr ++ createEvents (w :: W)
        = (tr ++ [Event.create 0 w]) ++ (W.enumFrom 1).map (fun p => Event.create p.1 p.2) := by
      simp [createEvents, List.enum, List.enumFrom_cons]
    rw [e]
    exact barrier_append_free (barrier_snoc h _ he) (creates_not_barrier W 1 (by decide))

theorem outstanding_creates {tr : List Event} (W : List Nat) :
    outstanding (tr ++ createEvents W) = outstanding tr ++ List.range W.length := by
  rw [outstanding_append]
  simp only [createEvents, List.enum]
  rw [outstandingFrom_creates, List.range_eq_range']

theorem outstanding_joins {tr : List Event} {n : Nat} (h : outstanding tr = List.range n) :
    outstanding (tr ++ joinEvents n) = [] := by
  rw [outstanding_append, outstandingFrom_joins, h]
  apply List.filter_eq_nil_iff.2
  intro s hs
  have := List.mem_range.1 hs
  simp; omega

theorem tinv_pass (env : Env) (sel : List Bool) (numSelected maxT pass : Nat) {st : RunState}
    (h : TInv st) : TInv (wavePass env sel numSelected maxT pass st).1 := by
  have hj := outstanding_joins h.out
  have hb : Barrier (st.trace ++ joinEvents st.threads.length) :=
    barrier_append_free h.barrier (joins_not_barrier _)
  refine ⟨?_, ?_⟩
  · exact barrier_creates hb hj _
  · show outstanding (st.trace ++ joinEvents st.threads.length ++ createEvents _) = _
    rw [outstanding_creates, hj]
    simp [wavePass]

theorem tinv_finish {st : RunState} (h : TInv st) : Barrier (finishRun st).trace := by
  have hj := outstanding_joins h.out
  have hb : Barrier (st.trace ++ joinEvents st.threads.length) :=
    barrier_append_free h.barrier (joins_not_barrier _)
  exact barrier_snoc hb _ hj

theorem waveLoop_barrier (env : Env) (sel : List Bool) (numSelected maxT : Nat) :
    ∀ (fuel pass : Nat) (st : RunState), TInv st →
      Barrier (waveLoop env sel numSelected maxT fuel pass st).2.trace
  | 0, pass, st, h => by
    unfold waveLoop
    split
    · exact h.barrier
    · exact tinv_finish h
  | fuel + 1, pass, st, h => by
    unfold waveLoop
    split
    · simp only
      split
      · exact waveLoop_barrier env sel numSelected maxT fuel (pass + 1) _
          (tinv_pass env sel numSelected maxT pass h)
      · exact (tinv_pass env sel numSelected maxT pass h).barrier
    · exact tinv_finish h

theorem tinv_first (W : List Nat) (tasks : List Task) (done next : Nat)
    (waves : List (List Nat)) :
    TInv { tasks := tasks, threads := W, tasksDone := done, nextTaskToRun := next,
           trace := createEvents W, waves := waves } := by
  refine ⟨?_, ?_⟩
  · have := barrier_creates barrier_nil rfl W
    simpa using this
  · have := @outstanding_creates [] W
    simpa [outstanding, outstandingFrom] using this

theorem selOk_resolve (tasks : List Task) (x : List Char) :
    SelOk tasks (resolveSelection tasks x).selectedTasks :=
  ⟨(selInv_resolve tasks x).len, (selInv_resolve tasks x).pending⟩

theorem pendingTaskIds_ne_nil {tasks : List Task} {i : Nat} (hi : i < tasks.length)
    (hp : isCompleted tasks i = false) : (pendingTaskIds tasks).length ≠ 0 := by
  have hg : tasks[i]? = some tasks[i] := List.getElem?_eq_getElem hi
  have hc : tasks[i].completed = false := by rw [← isCompleted_of_get hg]; exact hp
  have hmem : tasks[i] ∈ tasks.filter (fun t => !t.completed) :=
    List.mem_filter.2 ⟨List.getElem_mem hi, by simp [hc]⟩
  have := List.length_pos_of_mem hmem
  simp only [pendingTaskIds, List.length_map]
  omega

theorem exec_eq_runSelected (env : Env) (s : Store) (input : List Char) (fuel : Nat)
    (h : (selectionOf s input).numSelected ≠ 0) :
    executeMultipleTasks env s input fuel = runSelected env s (selectionOf s input) fuel := by
  have hinv := selInv_resolve s.tasks (readSelection input)
  obtain ⟨i, hi⟩ := hinv.some_flag (Nat.pos_of_ne_zero h)
  have hil : i < s.tasks.length := by rw [← hinv.len]; exact isSelected_lt hi
  have h1 : ¬ s.tasks.length = 0 := by omega
  have h2 := pendingTaskIds_ne_nil hil (hinv.pending i hi)
  unfold executeMultipleTasks
  rw [if_neg h1, if_neg h2]
  exact if_neg h

theorem exec_cases (env : Env) (s : Store) (input : List Char) (fuel : Nat) :
    (executeMultipleTasks env s input fuel = ⟨Outcome.noTasks, s, [], []⟩ ∨
     executeMultipleTasks env s input fuel = ⟨Outcome.noPending, s, [], []⟩ ∨
     executeMultipleTasks env s input fuel = ⟨Outcome.noValidSelection, s, [], []⟩) ∨
    ((selectionOf s input).numSelected ≠ 0 ∧
      executeMultipleTasks env s input fuel = runSelected env s (selectionOf s input) fuel) := by
  by_cases h : (selectionOf s input).numSelected = 0
  · left
    unfold executeMultipleTasks
    by_cases h1 : s.tasks.length = 0
    · left; rw [if_pos h1]
    · rw [if_neg h1]
      by_cases h2 : (pendingTaskIds s.tasks).length = 0
      · right; left; rw [if_pos h2]
      · right; right; rw [if_neg h2]
        exact if_pos h
  · right
    exact ⟨h, exec_eq_runSelected env s input fuel h⟩

theorem runSelected_post (env : Env) (s : Store) (sel : Selection) (fuel : Nat)
    (hok : SelOk s.tasks sel.selectedTasks) : RunPost s sel (runSelected env s sel fuel) := by
  have hI := linv_first hok (maxThreadsOf sel.numSelected) env.mallocOk
    (createEvents (launchFirst env.mallocOk sel.selectedTasks (maxThreadsOf sel.numSelected)
      (indicesFrom 0 s.tasks.length) [] 0).1)
  have hT := tinv_first (launchFirst env.mallocOk sel.selectedTasks
      (maxThreadsOf sel.numSelected) (indicesFrom 0 s.tasks.length) [] 0).1 s.tasks
      (launchFirst env.mallocOk sel.selectedTasks (maxThreadsOf sel.numSelected)
        (indicesFrom 0 s.tasks.length) [] 0).2.1 0
      [(launchFirst env.mallocOk sel.selectedTasks (maxThreadsOf sel.numSelected)
        (indicesFrom 0 s.tasks.length) [] 0).1]
  unfold runSelected
  simp only
  split
  · have hP := @waveLoop_post s.tasks sel.selectedTasks (maxThreadsOf sel.numSelected)
      sel.numSelected env hok fuel 0 _ hI
    have hB := waveLoop_barrier env sel.selectedTasks sel.numSelected
      (maxThreadsOf sel.numSelected) fuel 0 _ hT
    exact ⟨rfl, hP.len, hP.sorted, hP.sel_mem, hP.wave_le, hB, hP.fin⟩
  · exact ⟨rfl, rfl, hI.sorted, hI.sel_mem, hI.wave_le, hT.barrier,
      fun hf => by cases hf⟩

theorem runSelected_calm (env : Env) (s : Store) (sel : Selection) (fuel : Nat)
    (hok : SelOk s.tasks sel.selectedTasks) (hearly : ∀ w i, env.early w i = false)
    (hmalloc : ∀ k, env.mallocOk k = true) (hn : 1 ≤ sel.numSelected)
    (hcount : sel.numSelected = (selectedIdx sel).length) (hfuel : sel.numSelected ≤ fuel) :
    (runSelected env s sel fuel).outcome = Outcome.finished := by
  have hmax : 1 ≤ maxThreadsOf sel.numSelected := by
    unfold maxThreadsOf MAX_SIMULTANEOUS_TASKS
    split <;> omega
  have hI := linv_first hok (maxThreadsOf sel.numSelected) env.mallocOk
    (createEvents (launchFirst env.mallocOk sel.selectedTasks (maxThreadsOf sel.numSelected)
      (indicesFrom 0 s.tasks.length) [] 0).1)
  obtain ⟨k, h1, h2, h3, h4, h5⟩ := launchFirst_spec env.mallocOk sel.selectedTasks
    (maxThreadsOf sel.numSelected) (indicesFrom 0 s.tasks.length) [] 0 (Nat.zero_le _)
  obtain ⟨h6, h7⟩ := h5 hmalloc
  have hidx : (indicesFrom 0 s.tasks.length).filter (isSelected sel.selectedTasks)
      = selectedIdx sel := by
    unfold selectedIdx indicesFrom
    rw [hok.len, Nat.sub_zero, List.range_eq_range']
  rw [hidx] at h1 h2 h7
  simp only [List.nil_append, List.length_nil, Nat.zero_add, Nat.sub_zero] at h1 h3 h4 h7
  have hkpos : 1 ≤ k := by omega
  have hC : CalmInv sel.selectedTasks sel.numSelected
      { tasks := s.tasks
        threads := (launchFirst env.mallocOk sel.selectedTasks (maxThreadsOf sel.numSelected)
          (indicesFrom 0 s.tasks.length) [] 0).1
        tasksDone := (launchFirst env.mallocOk sel.selectedTasks (maxThreadsOf sel.numSelected)
          (indicesFrom 0 s.tasks.length) [] 0).2.1
        nextTaskToRun := 0
        trace := createEvents (launchFirst env.mallocOk sel.selectedTasks
          (maxThreadsOf sel.numSelected) (indicesFrom 0 s.tasks.length) [] 0).1
        waves := [(launchFirst env.mallocOk sel.selectedTasks (maxThreadsOf sel.numSelected)
          (indicesFrom 0 s.tasks.length) [] 0).1] } := by
    refine ⟨fun i _ _ => Nat.zero_le _, fun t _ => Nat.zero_le _, ?_⟩
    intro _ hnil
    simp only at hnil
    have := congrArg List.length h1
    rw [hnil, List.length_take] at this
    simp at this
    omega
  have hcount2 : sel.numSelected
      = (selectedIdx ⟨sel.selectedTasks, sel.numSelected⟩).length := hcount
  have := waveLoop_calm env hok hearly hmalloc hcount2 hmax fuel 0 _ hI hC
    (by simp only; omega)
  unfold runSelected
  simp only
  rw [if_pos h6]
  exact this

theorem idAt_nodup_of_sorted {tasks : List Task} (hd : distinctIds tasks) {w : List Nat}
    (hw : w.Nodup) (hlt : ∀ i ∈ w, i < tasks.length) : (w.map (idAt tasks)).Nodup := by
  apply List.Nodup.map_on _ hw
  intro i hi j hj hij
  exact idAt_inj hd (hlt i hi) (hlt j hj) hij

theorem launched_eq_selected {sel : Selection} {L : List Nat} (hs : L.Sorted (· < ·))
    (hmem : ∀ i ∈ L, isSelected sel.selectedTasks i = true)
    (hlen : (selectedIdx sel).length ≤ L.length) : L = selectedIdx sel := by
  have hsub : L ⊆ selectedIdx sel := fun i hi => mem_selectedIdx.2 (hmem i hi)
  have hperm : L.Perm (selectedIdx sel) :=
    (hs.nodup.subperm hsub).perm_of_length_le hlen
  exact List.eq_of_perm_of_sorted hperm hs (selectedIdx_sorted sel)

theorem scanNext_none (sel : List Bool) (seen : Nat → Bool) :
    ∀ (l : List Nat) (next : Nat), (∀ i ∈ l, (isSelected sel i && !seen i) = false) →
      scanNext sel seen l next = next
  | [], next, _ => rfl
  | i :: rest, next, h => by
    unfold scanNext
    rw [h i (List.mem_cons_self _ _)]
    simp only [Bool.false_eq_true, if_false]
    exact scanNext_none sel seen rest next (fun k hk => h k (List.mem_cons_of_mem _ hk))

theorem launchNext_none (mallocOk : Nat → Bool) (sel : List Bool) (tasks : List Task)
    (maxT numSelected : Nat) :
    ∀ (l threads : List Nat) (done : Nat), (∀ i ∈ l, candidate sel tasks i = false) →
      launchNext mallocOk sel tasks maxT numSelected l threads done = (threads, done, true)
  | [], threads, done, _ => rfl
  | i :: rest, threads, done, h => by
    unfold launchNext
    have hi : (isSelected sel i && !isCompleted tasks i) = false := h i (List.mem_cons_self _ _)
    rw [hi]
    simp only [Bool.false_eq_true, if_false]
    rw [launchNext_none mallocOk sel tasks maxT numSelected rest threads done
      (fun k hk => h k (List.mem_cons_of_mem _ hk))]
    simp

theorem wavePass_stuck (env : Env) (sel : List Bool) (numSelected maxT pass : Nat)
    {st : RunState} (hthreads : st.threads = []) (hnone : noCandidate sel st = true) :
    wavePass env sel numSelected maxT pass st = ({ st with waves := st.waves ++ [[]] }, true) := by
  have hall : ∀ i ∈ indicesFrom st.nextTaskToRun st.tasks.length,
      candidate sel st.tasks i = false := by
    intro i hi
    have := List.all_eq_true.1 hnone i hi
    simpa using this
  have hscan : scanNext sel
      (fun i => isCompleted st.tasks i || (decide (i ∈ st.threads) && env.early pass i))
      (indicesFrom st.nextTaskToRun st.tasks.length) st.nextTaskToRun = st.nextTaskToRun := by
    apply scanNext_none
    intro i hi
    have := hall i hi
    unfold candidate at this
    simp only [hthreads, List.not_mem_nil, decide_False, Bool.false_and, Bool.or_false]
    exact this
  unfold wavePass
  simp only [hscan]
  have hj : joinThreads true st.tasks st.threads = st.tasks := by
    rw [hthreads]; rfl
  rw [hj, launchNext_none env.mallocOk sel st.tasks maxT numSelected _ [] st.tasksDone hall]
  simp [hthreads, joinEvents, createEvents]

theorem waveLoop_stuck (env : Env) (sel : List Bool) (numSelected maxT : Nat) :
    ∀ (fuel pass : Nat) (st : RunState), st.tasksDone < numSelected → st.threads = [] →
      noCandidate sel st = true →
      (waveLoop env sel numSelected maxT fuel pass st).1 = Outcome.outOfFuel ∧
      (waveLoop env sel numSelected maxT fuel pass st).2.waves.flatten = st.waves.flatten ∧
      (waveLoop env sel numSelected maxT fuel pass st).2.trace = st.trace
  | 0, pass, st, hlt, _, _ => by
    unfold waveLoop
    rw [if_pos hlt]
    exact ⟨rfl, rfl, rfl⟩
  | fuel + 1, pass, st, hlt, hthreads, hnone => by
    unfold waveLoop
    rw [if_pos hlt]
    simp only [wavePass_stuck env sel numSelected maxT pass hthreads hnone, if_true]
    have := waveLoop_stuck env sel numSelected maxT fuel (pass + 1)
      { st with waves := st.waves ++ [[]] } hlt hthreads hnone
    refine ⟨this.1, ?_, this.2.2⟩
    rw [this.2.1]
    simp

theorem runSelected_stuck (env : Env) (s : Store) (sel : Selection) (fuel : Nat)
    (hfirst : (launchFirst env.mallocOk sel.selectedTasks (maxThreadsOf sel.numSelected)
      (indicesFrom 0 s.tasks.length) [] 0).2.2 = true)
    (hlt : (firstState env s sel).tasksDone < sel.numSelected)
    (hok : (wavePass env sel.selectedTasks sel.numSelected (maxThreadsOf sel.numSelected) 0
      (firstState env s sel)).2 = true)
    (hlt1 : (wavePass env sel.selectedTasks sel.numSelected (maxThreadsOf sel.numSelected) 0
      (firstState env s sel)).1.tasksDone < sel.numSelected)
    (hthreads : (wavePass env sel.selectedTasks sel.numSelected (maxThreadsOf sel.numSelected) 0
      (firstState env s sel)).1.threads = [])
    (hnone : noCandidate sel.selectedTasks (wavePass env sel.selectedTasks sel.numSelected
      (maxThreadsOf sel.numSelected) 0 (firstState env s sel)).1 = true) :
    (runSelected env s sel (fuel + 1)).outcome = Outcome.outOfFuel ∧
    (runSelected env s sel (fuel + 1)).waves.flatten
      = (wavePass env sel.selectedTasks sel.numSelected (maxThreadsOf sel.numSelected) 0
          (firstState env s sel)).1.waves.flatten ∧
    (runSelected env s sel (fuel + 1)).trace
      = (wavePass env sel.selectedTasks sel.numSelected (maxThreadsOf sel.numSelected) 0
          (firstState env s sel)).1.trace := by
  have hrun : runSelected env s sel (fuel + 1) =
      ⟨(waveLoop env sel.selectedTasks sel.numSelected (maxThreadsOf sel.numSelected)
          (fuel + 1) 0 (firstState env s sel)).1,
        ⟨(waveLoop env sel.selectedTasks sel.numSelected (maxThreadsOf sel.numSelected)
          (fuel + 1) 0 (firstState env s sel)).2.tasks, s.nextTaskId⟩,
        (waveLoop env sel.selectedTasks sel.numSelected (maxThreadsOf sel.numSelected)
          (fuel + 1) 0 (firstState env s sel)).2.trace,
        (waveLoop env sel.selectedTasks sel.numSelected (maxThreadsOf sel.numSelected)
          (fuel + 1) 0 (firstState env s sel)).2.waves⟩ := by
    unfold runSelected
    simp only
    rw [if_pos hfirst]
    rfl
  have hloop : waveLoop env sel.selectedTasks sel.numSelected (maxThreadsOf sel.numSelected)
      (fuel + 1) 0 (firstState env s sel)
      = waveLoop env sel.selectedTasks sel.numSelected (maxThreadsOf sel.numSelected) fuel 1
          (wavePass env sel.selectedTasks sel.numSelected (maxThreadsOf sel.numSelected) 0
            (firstState env s sel)).1 := by
    conv_lhs => unfold waveLoop
    rw [if_pos hlt]
    simp only [hok, if_true, Nat.zero_add]
  rw [hrun, hloop]
  exact waveLoop_stuck env sel.selectedTasks sel.numSelected (maxThreadsOf sel.numSelected)
    fuel 1 _ hlt1 hthreads hnone

theorem sum_map_one {α : Type} : ∀ l : List α, (l.map (fun _ => 1)).sum = l.length
  | [] => rfl
  | _ :: l => by
    simp only [List.map_cons, List.sum_cons, List.length_cons, sum_map_one l]
    omega

theorem resolve_not_all (tasks : List Task) {v : List Char} (hne : v ≠ ['a', 'l', 'l'])
    (htok : ∀ tok ∈ strtokAll v, atoi tok ≤ 0) :
    resolveSelection tasks v = ⟨List.replicate tasks.length false, 0⟩ := by
  unfold resolveSelection
  simp only [if_neg hne]
  exact selectTokens_skip tasks _ _ htok

theorem numSelected_eq_zero {tasks : List Task} {x : List Char}
    (h : selectedIdx (resolveSelection tasks x) = []) :
    (resolveSelection tasks x).numSelected = 0 := by
  by_contra hne
  obtain ⟨i, hi⟩ := (selInv_resolve tasks x).some_flag (Nat.pos_of_ne_zero hne)
  have := mem_selectedIdx.2 hi
  rw [h] at this
  simp at this

theorem pendingTaskIds_eq_nil_iff (tasks : List Task) :
    (pendingTaskIds tasks).length = 0 ↔ ∀ t ∈ tasks, t.completed = true := by
  unfold pendingTaskIds
  rw [List.length_map, List.length_eq_zero, List.filter_eq_nil_iff]
  simp

theorem selectTokens_cons_skip (tasks : List Task) {tok : List Char} (h : atoi tok ≤ 0)
    (rest : List (List Char)) (acc : Selection) :
    selectTokens tasks (tok :: rest) acc = selectTokens tasks rest acc := by
  have hnot : ¬ atoi tok > 0 := not_lt.2 h
  conv_lhs => unfold selectTokens
  simp only [if_neg hnot]

/-! ## Properties of `executeMultipleTasks` -/

/-- C1 (wave schedule).  For a store with pairwise distinct ids and a selection
of `n ≥ 1` pending tasks whose count `numSelected` equals the number of flagged
tasks, in an environment where every allocation succeeds and the store of a
unit becomes visible at its join, `executeMultipleTasks` given at least `n`
passes finishes; the units created, concatenated over all waves, are exactly the
selected indices in Task Store order; no task id is launched twice; and every
wave has at most `min n 10` units, on pairwise distinct task ids. -/
theorem wave_schedule (env : Env) (s : Store) (input : List Char) (fuel : Nat)
    (hids : distinctIds s.tasks)
    (hearly : ∀ w i, env.early w i = false)
    (hmalloc : ∀ k, env.mallocOk k = true)
    (hn : 1 ≤ (selectionOf s input).numSelected)
    (hcount : (selectionOf s input).numSelected = (selectedIdx (selectionOf s input)).length)
    (hfuel : (selectionOf s input).numSelected ≤ fuel) :
    (executeMultipleTasks env s input fuel).outcome = Outcome.finished ∧
    (executeMultipleTasks env s input fuel).waves.flatten = selectedIdx (selectionOf s input) ∧
    ((executeMultipleTasks env s input fuel).waves.flatten.map (idAt s.tasks)).Nodup ∧
    ∀ w ∈ (executeMultipleTasks env s input fuel).waves,
      w.length ≤ min (selectionOf s input).numSelected MAX_SIMULTANEOUS_TASKS ∧
      (w.map (idAt s.tasks)).Nodup := by
  have hok := selOk_resolve s.tasks (readSelection input)
  rw [exec_eq_runSelected env s input fuel (by omega)]
  have hP := runSelected_post env s (selectionOf s input) fuel hok
  have hfin := runSelected_calm env s (selectionOf s input) fuel hok hearly hmalloc hn hcount
    hfuel
  have hlt : ∀ i ∈ (runSelected env s (selectionOf s input) fuel).waves.flatten,
      i < s.tasks.length := by
    intro i hi
    rw [← hok.len]
    exact isSelected_lt (hP.sel_mem i hi)
  have heq := launched_eq_selected hP.sorted hP.sel_mem (by
    have := (hP.fin hfin).1
    omega)
  refine ⟨hfin, heq, idAt_nodup_of_sorted hids hP.sorted.nodup hlt, ?_⟩
  intro w hw
  have hsub : w.Sublist (runSelected env s (selectionOf s input) fuel).waves.flatten :=
    List.sublist_flatten_of_mem hw
  refine ⟨?_, idAt_nodup_of_sorted hids (hP.sorted.nodup.sublist hsub)
    (fun i hi => hlt i (hsub.subset hi))⟩
  have := hP.wave_le w hw
  unfold maxThreadsOf at this
  split at this <;> omega

/-- Instance of C1: twelve pending tasks and the selection `all` run in a wave of
ten followed by a wave of two. -/
theorem wave_schedule_witness :
    (executeMultipleTasks Env.calm (pendingStore 12) ['a', 'l', 'l'] 12).outcome
      = Outcome.finished ∧
    (executeMultipleTasks Env.calm (pendingStore 12) ['a', 'l', 'l'] 12).waves
      = [[0, 1, 2, 3, 4, 5, 6, 7, 8, 9], [10, 11]] ∧
    (executeMultipleTasks Env.calm (pendingStore 12) ['a', 'l', 'l'] 12).waves.flatten
      = selectedIdx (selectionOf (pendingStore 12) ['a', 'l', 'l']) := by
  have h := wave_schedule Env.calm (pendingStore 12) ['a', 'l', 'l'] 12 (by decide)
    (fun _ _ => rfl) (fun _ => rfl) (by decide) (by decide) (by decide)
  exact ⟨h.1, by decide, h.2.1⟩

/-- C2 (final state of a concurrent run).  Whenever `executeMultipleTasks`
finishes (summary and save reached; the run-control flag is never cleared, so no
unit is cancelled), in every environment: `nextTaskId`, `taskCount` and the order
of the store are unchanged, and the task at each position is the task that was
there before with only its `completed` flag changed, which is true exactly when
the task was selected or was completed before the run. -/
theorem final_state (env : Env) (s : Store) (input : List Char) (fuel : Nat)
    (hfin : (executeMultipleTasks env s input fuel).outcome = Outcome.finished) :
    (executeMultipleTasks env s input fuel).store.nextTaskId = s.nextTaskId ∧
    (executeMultipleTasks env s input fuel).store.tasks.length = s.tasks.length ∧
    ∀ (i : Nat) (t : Task), s.tasks[i]? = some t →
      (executeMultipleTasks env s input fuel).store.tasks[i]? =
        some { t with
          completed := t.completed || isSelected (selectionOf s input).selectedTasks i } := by
  rcases exec_cases env s input fuel with (h | h | h) | ⟨hne, h⟩
  · rw [h] at hfin; cases hfin
  · rw [h] at hfin; cases hfin
  · rw [h] at hfin; cases hfin
  · rw [h] at hfin ⊢
    have hok := selOk_resolve s.tasks (readSelection input)
    have hinv := selInv_resolve s.tasks (readSelection input)
    have hP := runSelected_post env s (selectionOf s input) fuel hok
    obtain ⟨hlen, hdone⟩ := hP.fin hfin
    have heq := launched_eq_selected hP.sorted hP.sel_mem (by
      have := hinv.count_le
      unfold selectionOf at hlen ⊢
      omega)
    refine ⟨hP.nextId, hP.len, ?_⟩
    intro i t hi
    rw [hdone i, hi, heq]
    simp only [Option.map_some', Option.some.injEq]
    by_cases hs : isSelected (selectionOf s input).selectedTasks i = true
    · rw [if_pos (mem_selectedIdx.2 hs), hs]
      simp [markDone]
    · rw [if_neg (fun hm => hs (mem_selectedIdx.1 hm))]
      simp only [Bool.not_eq_true] at hs
      rw [hs]
      simp

/-- Instance of C2: selecting `9` in `store579` completes the task at position 2
and leaves the other two tasks as they were. -/
theorem final_state_witness :
    (executeMultipleTasks Env.calm store579 ['9'] 3).store.nextTaskId = 10 ∧
    (executeMultipleTasks Env.calm store579 ['9'] 3).store.tasks.length = 3 ∧
    (executeMultipleTasks Env.calm store579 ['9'] 3).store.tasks[0]? = some (pendingTask 5) ∧
    (executeMultipleTasks Env.calm store579 ['9'] 3).store.tasks[2]?
      = some { pendingTask 9 with completed := true } := by
  have h := final_state Env.calm store579 ['9'] 3 (by decide)
  exact ⟨h.1, h.2.1, h.2.2 0 (pendingTask 5) (by decide), h.2.2 2 (pendingTask 9) (by decide)⟩

/-- C4 (wave barrier).  In every environment, for every store, input line and
number of passes, the events performed respect the barrier: wherever the trace
creates the first unit of a wave (slot 0) or saves, every unit created earlier
has already been joined. -/
theorem wave_barrier (env : Env) (s : Store) (input : List Char) (fuel : Nat)
    (pre post : List Event) (e : Event)
    (htrace : (executeMultipleTasks env s input fuel).trace = pre ++ e :: post)
    (he : e.isBarrier = true) :
    outstanding pre = [] := by
  rcases exec_cases env s input fuel with (h | h | h) | ⟨_, h⟩
  · rw [h] at htrace; simp at htrace
  · rw [h] at htrace; simp at htrace
  · rw [h] at htrace; simp at htrace
  · rw [h] at htrace
    exact (runSelected_post env s (selectionOf s input) fuel
      (selOk_resolve s.tasks (readSelection input))).barrier pre e post htrace he

/-- Instance of C4: with twelve pending tasks, when the second wave starts the ten
units of the first wave have been created and joined. -/
theorem wave_barrier_witness :
    outstanding ((createEvents [0, 1, 2, 3, 4, 5, 6, 7, 8, 9]) ++ joinEvents 10) = [] :=
  wave_barrier Env.calm (pendingStore 12) ['a', 'l', 'l'] 12
    ((createEvents [0, 1, 2, 3, 4, 5, 6, 7, 8, 9]) ++ joinEvents 10)
    [Event.create 1 11, Event.join 0, Event.join 1, Event.save] (Event.create 0 10)
    (by decide) (by decide)

/-- C3 (termination), failing input: on the store with pending ids 5 and 9 and
the line `5, x, 5,9`, `numSelected` is 3 while two tasks are flagged; after the
first wave `tasksDone` stays at 2 and the wave loop never exits, whatever the
number of passes granted, so the summary and the save are never reached. -/
theorem repeated_id_never_finishes (fuel : Nat) :
    (selectionOf store59 line5x59).numSelected = 3 ∧
    selectedIdx (selectionOf store59 line5x59) = [0, 1] ∧
    (executeMultipleTasks Env.calm store59 line5x59 fuel).outcome = Outcome.outOfFuel ∧
    Event.save ∉ (executeMultipleTasks Env.calm store59 line5x59 fuel).trace := by
  refine ⟨by decide, by decide, ?_⟩
  cases fuel with
  | zero => decide
  | succ n =>
    rw [exec_eq_runSelected Env.calm store59 line5x59 (n + 1) (by decide)]
    have h := runSelected_stuck Env.calm store59 (selectionOf store59 line5x59) n
      (by decide) (by decide) (by decide) (by decide) (by decide) (by decide)
    refine ⟨h.1, ?_⟩
    rw [h.2.2]
    decide

/-- C5 (independence from completion timing), failing input: eleven pending
tasks, the selection `all`, and a first wave whose ten units have all stored
`completed = true` before the orchestrator scans.  The scan of lines 689-695
then stops on the eleventh task and moves `nextTaskToRun` past it, so that task
(index 10) is never launched and the wave loop never exits. -/
theorem early_completion_skips_task (fuel : Nat) :
    (selectionOf (pendingStore 11) ['a', 'l', 'l']).numSelected = 11 ∧
    selectedIdx (selectionOf (pendingStore 11) ['a', 'l', 'l'])
      = [0, 1, 2, 3, 4, 5, 6, 7, 8, 9, 10] ∧
    (executeMultipleTasks Env.eager (pendingStore 11) ['a', 'l', 'l'] fuel).outcome
      = Outcome.outOfFuel ∧
    10 ∉ (executeMultipleTasks Env.eager (pendingStore 11) ['a', 'l', 'l'] fuel).waves.flatten := by
  refine ⟨by decide, by decide, ?_⟩
  cases fuel with
  | zero => decide
  | succ n =>
    rw [exec_eq_runSelected Env.eager (pendingStore 11) ['a', 'l', 'l'] (n + 1) (by decide)]
    have h := runSelected_stuck Env.eager (pendingStore 11)
      (selectionOf (pendingStore 11) ['a', 'l', 'l']) n
      (by decide) (by decide) (by decide) (by decide) (by decide) (by decide)
    refine ⟨h.1, ?_⟩
    rw [h.2.1]
    decide

/-- C6 (id-list selection).  For a store with pairwise distinct ids and a
selection string other than `all`, the flag array covers the store position by
position (so the selected set is in Task Store order and holds a task at most
once), and the task at position `i` is flagged exactly when it is pending and
its id is the positive value `atoi` reads from at least one token of the string
split on commas and spaces. -/
theorem idList_selection (tasks : List Task) (taskSelection : List Char)
    (hids : distinctIds tasks) (hne : taskSelection ≠ ['a', 'l', 'l']) :
    (resolveSelection tasks taskSelection).selectedTasks.length = tasks.length ∧
    ∀ (i : Nat) (t : Task), tasks[i]? = some t →
      (isSelected (resolveSelection tasks taskSelection).selectedTasks i = true ↔
        t.completed = false ∧
          ∃ tok ∈ strtokAll taskSelection, 0 < atoi tok ∧ atoi tok = t.id) := by
  refine ⟨(selInv_resolve tasks taskSelection).len, ?_⟩
  intro i t hi
  have hil : i < tasks.length := by
    by_contra hc
    rw [List.getElem?_eq_none (Nat.le_of_not_lt hc)] at hi
    cases hi
  unfold resolveSelection
  simp only [if_neg hne]
  rw [selectTokens_flags hids _ _ (by simp) i hil, isCompleted_of_get hi, idAt_of_get hi]
  simp [isSelected_replicate]

/-- Instance of C6: in `store579` the line `5, x, 5,9, 7` flags the pending task 5
at position 0, through its token `5`. -/
theorem idList_selection_witness :
    (resolveSelection store579.tasks line5x597).selectedTasks.length = 3 ∧
    isSelected (resolveSelection store579.tasks line5x597).selectedTasks 0 = true :=
  ⟨(idList_selection store579.tasks line5x597 (by decide) (by decide)).1,
   ((idList_selection store579.tasks line5x597 (by decide) (by decide)).2 0 (pendingTask 5)
      (by decide)).2 ⟨by decide, ['5'], by decide, by decide, by decide⟩⟩

/-- C7 (selection `all`).  For a store with pairwise distinct ids, the string
`all` flags exactly the pending tasks, position by position, and `numSelected`
is the number of pending tasks; a string that differs from `all` only in letter
case flags nothing and counts nothing. -/
theorem all_selection (tasks : List Task) (hids : distinctIds tasks) :
    (resolveSelection tasks ['a', 'l', 'l']).selectedTasks.length = tasks.length ∧
    (∀ (i : Nat) (t : Task), tasks[i]? = some t →
      isSelected (resolveSelection tasks ['a', 'l', 'l']).selectedTasks i = !t.completed) ∧
    (resolveSelection tasks ['a', 'l', 'l']).numSelected
      = (tasks.filter (fun t => !t.completed)).length ∧
    ∀ v : List Char, v.map Char.toLower = ['a', 'l', 'l'] → v ≠ ['a', 'l', 'l'] →
      (resolveSelection tasks v).numSelected = 0 ∧
      ∀ i, isSelected (resolveSelection tasks v).selectedTasks i = false := by
  refine ⟨(selInv_resolve tasks _).len, ?_, ?_, ?_⟩
  · intro i t hi
    have hil : i < tasks.length := by
      by_contra hc
      rw [List.getElem?_eq_none (Nat.le_of_not_lt hc)] at hi
      cases hi
    have hflag := selectAll_flags tasks (pendingTaskIds tasks)
      ⟨List.replicate tasks.length false, 0⟩ (by simp) i
    have hres : resolveSelection tasks ['a', 'l', 'l']
        = selectAll tasks (pendingTaskIds tasks) ⟨List.replicate tasks.length false, 0⟩ := by
      unfold resolveSelection; simp
    rw [hres]
    rw [Bool.eq_iff_iff, hflag]
    simp only [isSelected_replicate, Bool.false_eq_true, false_or, Bool.not_eq_true']
    constructor
    · rintro ⟨_, pid, _, hh⟩
      unfold hits at hh
      simp only [Bool.and_eq_true, Bool.not_eq_true'] at hh
      rw [← isCompleted_of_get hi]; exact hh.2
    · intro hc
      refine ⟨hil, t.id, ?_, ?_⟩
      · unfold pendingTaskIds
        exact List.mem_map.2 ⟨t, List.mem_filter.2 ⟨List.getElem?_mem hi, by simp [hc]⟩, rfl⟩
      · simp [hits, idAt_of_get hi, isCompleted_of_get hi, hc]
  · have hres : resolveSelection tasks ['a', 'l', 'l']
        = selectAll tasks (pendingTaskIds tasks) ⟨List.replicate tasks.length false, 0⟩ := by
      unfold resolveSelection; simp
    rw [hres, selectAll_count]
    have hone : (pendingTaskIds tasks).map
        (fun pid => (List.range tasks.length).countP (hits tasks pid))
        = (pendingTaskIds tasks).map (fun _ => 1) := by
      apply List.map_congr_left
      intro pid hpid
      exact countP_hits_eq_one hids hpid
    rw [hone, sum_map_one]
    simp [pendingTaskIds]
  · intro v hv hne
    have hskip : resolveSelection tasks v = ⟨List.replicate tasks.length false, 0⟩ := by
      have hlen : v.length = 3 := by
        have := congrArg List.length hv
        simpa using this
      obtain ⟨x, y, z, rfl⟩ := List.length_eq_three.1 hlen
      · simp only [List.map_cons, List.map_nil, List.cons.injEq, and_true] at hv
        obtain ⟨hx, hy, hz⟩ := hv
        have hx2 := toLower_cases x (Or.inl hx)
        have hy2 := toLower_cases y (Or.inr hy)
        have hz2 := toLower_cases z (Or.inr hz)
        apply resolve_not_all tasks hne
        rcases hx2 with rfl | rfl | rfl | rfl <;> rcases hy2 with rfl | rfl | rfl | rfl <;>
          rcases hz2 with rfl | rfl | rfl | rfl <;>
          first
            | exact absurd hx (by decide)
            | exact absurd hy (by decide)
            | exact absurd hz (by decide)
            | decide
    rw [hskip]
    exact ⟨rfl, fun i => isSelected_replicate _ i⟩

/-- Instance of C7: `all` on `store257` counts three tasks, and `ALL` counts none. -/
theorem all_selection_witness :
    (resolveSelection store257.tasks ['a', 'l', 'l']).numSelected = 3 ∧
    (resolveSelection store257.tasks ['A', 'L', 'L']).numSelected = 0 :=
  ⟨(all_selection store257.tasks (by decide)).2.2.1,
   ((all_selection store257.tasks (by decide)).2.2.2 ['A', 'L', 'L'] (by decide)
      (by decide)).1⟩

/-- C8 (selection count), failing input: on the store with pending ids 5 and 9
the line `5, x, 5,9` flags two tasks but leaves `numSelected` at 3, because the
repeated id 5 is counted at each occurrence (lines 639-640); `maxThreads` is
then 3. -/
theorem numSelected_counts_repeats :
    (resolveSelection store59.tasks line5x59).selectedTasks = [true, true] ∧
    (selectedIdx (resolveSelection store59.tasks line5x59)).length = 2 ∧
    (resolveSelection store59.tasks line5x59).numSelected = 3 ∧
    maxThreadsOf (resolveSelection store59.tasks line5x59).numSelected = 3 := by
  decide

/-- C9 as stated fails: on a store whose only task is completed, the line `7`
resolves to no pending task, yet the call ends on the report of line 605 (no
pending tasks), not on the one of line 650 (no valid tasks selected); on the
empty store it ends on the report of line 583. -/
theorem no_pending_reported_before_selection :
    selectedIdx (selectionOf storeDone7 ['7']) = [] ∧
    (executeMultipleTasks Env.calm storeDone7 ['7'] 1).outcome = Outcome.noPending ∧
    (executeMultipleTasks Env.calm storeDone7 ['7'] 1).outcome ≠ Outcome.noValidSelection ∧
    selectedIdx (selectionOf ⟨[], 1⟩ []) = [] ∧
    (executeMultipleTasks Env.calm ⟨[], 1⟩ [] 1).outcome = Outcome.noTasks := by
  decide

/-- C9 (empty selection), amended.  When the input line resolves to no pending
task, `executeMultipleTasks` creates no unit, performs no join and no save, and
returns the store as it was, in every environment.  If the store holds a pending
task the call ends on the report that no valid task was selected; if the store
is empty, or holds completed tasks only, it ends before the line is read, on
the report that there is no task, respectively no pending task, to execute. -/
theorem empty_selection (env : Env) (s : Store) (input : List Char) (fuel : Nat)
    (hempty : selectedIdx (selectionOf s input) = []) :
    (executeMultipleTasks env s input fuel).store = s ∧
    (executeMultipleTasks env s input fuel).trace = [] ∧
    (executeMultipleTasks env s input fuel).waves = [] ∧
    ((∃ t ∈ s.tasks, t.completed = false) →
      (executeMultipleTasks env s input fuel).outcome = Outcome.noValidSelection) ∧
    (s.tasks = [] → (executeMultipleTasks env s input fuel).outcome = Outcome.noTasks) ∧
    (s.tasks ≠ [] → (∀ t ∈ s.tasks, t.completed = true) →
      (executeMultipleTasks env s input fuel).outcome = Outcome.noPending) := by
  have hzero : (resolveSelection s.tasks (readSelection input)).numSelected = 0 :=
    numSelected_eq_zero hempty
  unfold executeMultipleTasks
  by_cases h1 : s.tasks.length = 0
  · rw [if_pos h1]
    have hnil : s.tasks = [] := List.length_eq_zero.1 h1
    refine ⟨rfl, rfl, rfl, ?_, fun _ => rfl, fun hne => absurd hnil hne⟩
    rintro ⟨t, ht, _⟩
    rw [hnil] at ht
    simp at ht
  · rw [if_neg h1]
    have hne : s.tasks ≠ [] := fun h => h1 (by rw [h]; rfl)
    by_cases h2 : (pendingTaskIds s.tasks).length = 0
    · rw [if_pos h2]
      have hall := (pendingTaskIds_eq_nil_iff s.tasks).1 h2
      refine ⟨rfl, rfl, rfl, ?_, fun h => absurd h hne, fun _ _ => rfl⟩
      rintro ⟨t, ht, hc⟩
      rw [hall t ht] at hc
      cases hc
    · rw [if_neg h2]
      simp only [hzero, if_true]
      refine ⟨trivial, trivial, trivial, fun _ => trivial, fun h => absurd h hne, ?_⟩
      intro _ hall
      exact absurd ((pendingTaskIds_eq_nil_iff s.tasks).2 hall) h2

/-- Instance of C9: in `store579` the line `x, 7, 12` (an invalid token, the id of
a completed task, an absent id) selects nothing; nothing is launched or saved
and the call reports that no valid task was selected. -/
theorem empty_selection_witness :
    (executeMultipleTasks Env.calm store579 ['x', ',', ' ', '7', ',', ' ', '1', '2'] 1).store
      = store579 ∧
    (executeMultipleTasks Env.calm store579 ['x', ',', ' ', '7', ',', ' ', '1', '2'] 1).trace
      = [] ∧
    (executeMultipleTasks Env.calm store579 ['x', ',', ' ', '7', ',', ' ', '1', '2'] 1).outcome
      = Outcome.noValidSelection :=
  have h := empty_selection Env.calm store579 ['x', ',', ' ', '7', ',', ' ', '1', '2'] 1
    (by decide)
  ⟨h.1, h.2.1, h.2.2.2.1 ⟨pendingTask 5, by decide, by decide⟩⟩

/-- C10 as stated fails: the token `5x` is not a decimal integer (its second
character is no digit), yet `atoi` reads 5 from it and the pending task 5 is
selected, unlike with the token removed. -/
theorem token_5x_selects :
    strtokAll ['5', 'x'] = [['5', 'x']] ∧
    isdigit 'x' = false ∧
    atoi ['5', 'x'] = 5 ∧
    resolveSelection [pendingTask 5] ['5', 'x'] = ⟨[true], 1⟩ ∧
    resolveSelection [pendingTask 5] [] = ⟨[false], 0⟩ := by
  decide

/-- C10 (invalid tokens are skipped), amended.  In a selection string other than
`all`, a token from which `atoi` reads no positive value (no leading decimal
number, or a value that is zero or negative) contributes nothing: flags and
count are the same as for the string with that token removed.  A token with a
leading positive number such as `5x` is read as that number. -/
theorem invalid_token_skipped (tasks : List Task) (pre tok post : List Char)
    (htok : tok ≠ []) (hnd : ∀ c ∈ tok, isDelim c = false)
    (hpre : endsDelimited pre) (hpost : startsDelimited post)
    (hne : pre ++ tok ++ post ≠ ['a', 'l', 'l'])
    (hval : atoi tok ≤ 0) :
    strtokAll (pre ++ tok ++ post) = strtokAll pre ++ tok :: strtokAll post ∧
    strtokAll (pre ++ post) = strtokAll pre ++ strtokAll post ∧
    resolveSelection tasks (pre ++ tok ++ post) = resolveSelection tasks (pre ++ post) := by
  have h1 : strtokAll (pre ++ tok ++ post) = strtokAll pre ++ tok :: strtokAll post := by
    rw [List.append_assoc, strtokAll_append hpre, strtokAll_token htok hnd hpost]
  have h2 : strtokAll (pre ++ post) = strtokAll pre ++ strtokAll post :=
    strtokAll_append hpre post
  refine ⟨h1, h2, ?_⟩
  unfold resolveSelection
  simp only [if_neg hne, if_neg (not_all_of_delimited hpre hpost)]
  rw [h1, h2, selectTokens_append, selectTokens_append, selectTokens_cons_skip tasks hval]

/-- Instance of C10: removing the token `x` from `5, x, 5,9` changes nothing. -/
theorem invalid_token_skipped_witness :
    resolveSelection store59.tasks (['5', ',', ' '] ++ ['x'] ++ [',', ' ', '5', ',', '9'])
      = resolveSelection store59.tasks (['5', ',', ' '] ++ [',', ' ', '5', ',', '9']) :=
  (invalid_token_skipped store59.tasks ['5', ',', ' '] ['x'] [',', ' ', '5', ',', '9']
    (by decide) (by decide)
    (by intro d hd; simp at hd; subst hd; decide)
    (by intro d hd; simp at hd; subst hd; decide)
    (by decide) (by decide)).2.2

/-! ## Lemmas: the ordering pass -/

theorem taskLe_trans {a b c : Task} (h1 : taskLe a b) (h2 : taskLe b c) : taskLe a c := by
  unfold taskLe byPriority at *
  simp only [Bool.or_eq_false_iff, Bool.and_eq_false_iff, decide_eq_false_iff_not, not_lt,
    gt_iff_lt] at *
  omega

theorem taskLe_of_swap {a b : Task} (h : byPriority a b = true) : taskLe b a := by
  unfold taskLe byPriority at *
  simp only [Bool.or_eq_false_iff, Bool.and_eq_false_iff, decide_eq_false_iff_not, not_lt,
    gt_iff_lt, Bool.or_eq_true, Bool.and_eq_true, decide_eq_true_eq] at *
  omega

theorem taskLe_iff (a b : Task) : taskLe a b ↔ notAfter a b := by
  unfold taskLe notAfter byPriority
  simp only [Bool.or_eq_false_iff, Bool.and_eq_false_iff, decide_eq_false_iff_not, not_lt,
    gt_iff_lt]
  omega

theorem taskLe_refl (a : Task) : taskLe a a := by
  unfold taskLe byPriority
  simp

theorem perm_set_cons {a b : Task} : ∀ (l : List Task) (j : Nat), l[j]? = some b →
    (b :: l.set j a).Perm (a :: l)
  | [], j, h => by simp at h
  | c :: l, 0, h => by
    simp only [List.getElem?_cons_zero, Option.some.injEq] at h
    subst h
    simpa using List.Perm.swap a c l
  | c :: l, j + 1, h => by
    simp only [List.getElem?_cons_succ] at h
    simp only [List.set_cons_succ]
    exact (List.Perm.swap c b _).trans (((perm_set_cons l j h).cons c).trans (List.Perm.swap a c l))

theorem perm_swap_lt {a b : Task} : ∀ (l : List Task) (i j : Nat), i < j →
    l[i]? = some a → l[j]? = some b → ((l.set i b).set j a).Perm l
  | [], i, j, _, h, _ => by simp at h
  | c :: l, 0, 0, hij, _, _ => by omega
  | c :: l, 0, j + 1, _, hi, hj => by
    simp only [List.getElem?_cons_zero, Option.some.injEq] at hi
    simp only [List.getElem?_cons_succ] at hj
    subst hi
    simpa using perm_set_cons l j hj
  | c :: l, i + 1, 0, hij, _, _ => by omega
  | c :: l, i + 1, j + 1, hij, hi, hj => by
    simp only [List.getElem?_cons_succ] at hi hj
    simp only [List.set_cons_succ]
    exact (perm_swap_lt l i j (by omega) hi hj).cons c

theorem swapIf_perm (f : Task → Task → Bool) (T : List Task) {i j : Nat} (hij : i < j) :
    (swapIf f T i j).Perm T := by
  unfold swapIf
  split
  · rename_i a b hi hj
    split
    · exact perm_swap_lt T i j hij hi hj
    · exact List.Perm.refl _
  · exact List.Perm.refl _

theorem swapIf_length (f : Task → Task → Bool) (T : List Task) (i j : Nat) :
    (swapIf f T i j).length = T.length := by
  unfold swapIf
  split
  · split <;> simp
  · rfl

theorem swapIf_get_other (f : Task → Task → Bool) (T : List Task) {i j k : Nat}
    (hi : k ≠ i) (hj : k ≠ j) : (swapIf f T i j)[k]? = T[k]? := by
  unfold swapIf
  split
  · split
    · rw [List.getElem?_set, List.getElem?_set]
      simp [Ne.symm hi, Ne.symm hj]
    · rfl
  · rfl

/-- After the exchange the two positions hold the same two tasks, the one at `i`
not after the one at `j`, and the one at `i` not after what was there. -/
theorem swapIf_pair (T : List Task) {i j : Nat} (hij : i < j) (hj : j < T.length) :
    ∃ a b a0 b0, T[i]? = some a0 ∧ T[j]? = some b0 ∧
      (swapIf byPriority T i j)[i]? = some a ∧ (swapIf byPriority T i j)[j]? = some b ∧
      taskLe a b ∧ taskLe a a0 ∧ ((a = a0 ∧ b = b0) ∨ (a = b0 ∧ b = a0)) := by
  have hi : i < T.length := by omega
  have e1 : T[i]? = some T[i] := List.getElem?_eq_getElem hi
  have e2 : T[j]? = some T[j] := List.getElem?_eq_getElem hj
  unfold swapIf
  rw [e1, e2]
  simp only
  by_cases hs : byPriority T[i] T[j] = true
  · rw [if_pos hs]
    refine ⟨T[j], T[i], T[i], T[j], rfl, rfl, ?_, ?_, taskLe_of_swap hs, taskLe_of_swap hs,
      Or.inr ⟨rfl, rfl⟩⟩
    · rw [List.getElem?_set, List.getElem?_set]
      have : ¬ j = i := by omega
      simp [this, hi]
    · rw [List.getElem?_set]
      simp [hj]
  · rw [if_neg hs]
    simp only [Bool.not_eq_true] at hs
    exact ⟨T[i], T[j], T[i], T[j], rfl, rfl, e1, e2, hs, taskLe_refl _, Or.inl ⟨rfl, rfl⟩⟩

theorem swapIf_get_ge (f : Task → Task → Bool) (T : List Task) {i j : Nat} (hij : i < j)
    (k : Nat) (hk : i ≤ k) : ∃ k', i ≤ k' ∧ (swapIf f T i j)[k]? = T[k']? := by
  by_cases h1 : k = i
  · subst h1
    unfold swapIf
    split
    · rename_i a b hi hj
      split
      · refine ⟨j, by omega, ?_⟩
        rw [List.getElem?_set, List.getElem?_set]
        have hne : ¬ j = k := by omega
        have hlt : k < T.length := by
          by_contra hc
          rw [List.getElem?_eq_none (Nat.le_of_not_lt hc)] at hi
          cases hi
        simp [hne, hlt, hj]
      · exact ⟨k, le_refl _, rfl⟩
    · exact ⟨k, le_refl _, rfl⟩
  · by_cases h2 : k = j
    · subst h2
      unfold swapIf
      split
      · rename_i a b hi hj
        split
        · refine ⟨i, le_refl _, ?_⟩
          rw [List.getElem?_set]
          have hlt : k < T.length := by
            by_contra hc
            rw [List.getElem?_eq_none (Nat.le_of_not_lt hc)] at hj
            cases hj
          simp [hlt, hi]
        · exact ⟨k, hk, rfl⟩
      · exact ⟨k, hk, rfl⟩
    · exact ⟨k, hk, swapIf_get_other f T h1 h2⟩

theorem sortInner_length (f : Task → Task → Bool) (i : Nat) :
    ∀ (js : List Nat) (T : List Task), (sortInner f i js T).length = T.length
  | [], T => rfl
  | j :: rest, T => by
    unfold sortInner
    rw [sortInner_length f i rest _, swapIf_length]

theorem sortInner_perm (f : Task → Task → Bool) (i : Nat) :
    ∀ (js : List Nat) (T : List Task), (∀ j ∈ js, i < j) → (sortInner f i js T).Perm T
  | [], T, _ => List.Perm.refl _
  | j :: rest, T, h => by
    unfold sortInner
    exact (sortInner_perm f i rest _ (fun k hk => h k (List.mem_cons_of_mem _ hk))).trans
      (swapIf_perm f T (h j (List.mem_cons_self _ _)))

theorem sortInner_get_other (f : Task → Task → Bool) (i : Nat) :
    ∀ (js : List Nat) (T : List Task) (k : Nat), k ≠ i → k ∉ js →
      (sortInner f i js T)[k]? = T[k]?
  | [], T, k, _, _ => rfl
  | j :: rest, T, k, hi, hjs => by
    unfold sortInner
    simp only [List.mem_cons, not_or] at hjs
    rw [sortInner_get_other f i rest _ k hi hjs.2, swapIf_get_other f T hi hjs.1]

theorem sortInner_get_ge (f : Task → Task → Bool) (i : Nat) :
    ∀ (js : List Nat) (T : List Task), (∀ j ∈ js, i < j) → ∀ k, i ≤ k →
      ∃ k', i ≤ k' ∧ (sortInner f i js T)[k]? = T[k']?
  | [], T, _, k, hk => ⟨k, hk, rfl⟩
  | j :: rest, T, h, k, hk => by
    unfold sortInner
    obtain ⟨k1, hk1, e1⟩ := sortInner_get_ge f i rest (swapIf f T i j)
      (fun x hx => h x (List.mem_cons_of_mem _ hx)) k hk
    obtain ⟨k2, hk2, e2⟩ := swapIf_get_ge f T (h j (List.mem_cons_self _ _)) k1 hk1
    exact ⟨k2, hk2, e1.trans e2⟩

theorem sortInner_min (i : Nat) :
    ∀ (js : List Nat) (T : List Task), (∀ j ∈ js, i < j ∧ j < T.length) → js.Nodup →
      (∀ a a0, (sortInner byPriority i js T)[i]? = some a → T[i]? = some a0 → taskLe a a0) ∧
      (∀ j ∈ js, ∀ a b, (sortInner byPriority i js T)[i]? = some a →
        (sortInner byPriority i js T)[j]? = some b → taskLe a b)
  | [], T, _, _ => by
    refine ⟨?_, fun j hj => by simp at hj⟩
    intro a a0 h1 h2
    simp only [sortInner] at h1
    rw [h1] at h2
    cases h2
    exact taskLe_refl _
  | j :: rest, T, h, hnd => by
    obtain ⟨hij, hj⟩ := h j (List.mem_cons_self _ _)
    obtain ⟨a1, b1, a0, b0, e0, _, e1, e2, hab, ha, _⟩ := swapIf_pair T hij hj
    have hrest : ∀ x ∈ rest, i < x ∧ x < (swapIf byPriority T i j).length := by
      intro x hx
      rw [swapIf_length]
      exact h x (List.mem_cons_of_mem _ hx)
    obtain ⟨ih1, ih2⟩ := sortInner_min i rest (swapIf byPriority T i j) hrest
      (List.nodup_cons.1 hnd).2
    unfold sortInner
    refine ⟨?_, ?_⟩
    · intro a a0' h1 h2
      rw [e0] at h2
      cases h2
      exact taskLe_trans (ih1 a a1 h1 e1) ha
    · intro x hx a b h1 h2
      rcases List.mem_cons.1 hx with hx | hx
      · subst hx
        have hnot : x ∉ rest := (List.nodup_cons.1 hnd).1
        rw [sortInner_get_other byPriority i rest _ x (by omega) hnot, e2] at h2
        cases h2
        exact taskLe_trans (ih1 a a1 h1 e1) hab
      · exact ih2 x hx a b h1 h2

theorem sortedUpTo_step {i : Nat} {T : List Task} (h : sortedUpTo i T) :
    sortedUpTo (i + 1) (sortInner byPriority i (indicesFrom (i + 1) T.length) T) := by
  have hjs : ∀ j ∈ indicesFrom (i + 1) T.length, i < j ∧ j < T.length := by
    intro j hj
    have := mem_indicesFrom.1 hj
    omega
  have hjs1 : ∀ j ∈ indicesFrom (i + 1) T.length, i < j := fun j hj => (hjs j hj).1
  have hnd : (indicesFrom (i + 1) T.length).Nodup := (indicesFrom_sorted _ _).nodup
  intro p q a b hp hpq e1 e2
  by_cases hpi : p < i
  · have hpn : p ∉ indicesFrom (i + 1) T.length := by
      intro hm
      have := (hjs p hm).1
      omega
    rw [sortInner_get_other byPriority i _ T p (by omega) hpn] at e1
    by_cases hqi : q < i
    · have hqn : q ∉ indicesFrom (i + 1) T.length := by
        intro hm
        have := (hjs q hm).1
        omega
      rw [sortInner_get_other byPriority i _ T q (by omega) hqn] at e2
      exact h p q a b hpi hpq e1 e2
    · obtain ⟨q', hq', e3⟩ := sortInner_get_ge byPriority i _ T hjs1 q (by omega)
      rw [e3] at e2
      exact h p q' a b hpi (by omega) e1 e2
  · have hpe : p = i := by omega
    subst hpe
    have hql : q < T.length := by
      by_contra hc
      rw [List.getElem?_eq_none (by rw [sortInner_length]; omega)] at e2
      cases e2
    exact (sortInner_min p _ T hjs hnd).2 q (mem_indicesFrom.2 ⟨by omega, hql⟩) a b e1 e2

theorem sortOuter_length (f : Task → Task → Bool) :
    ∀ (is : List Nat) (T : List Task), (sortOuter f is T).length = T.length
  | [], T => rfl
  | i :: rest, T => by
    unfold sortOuter
    rw [sortOuter_length f rest _, sortInner_length]

theorem sortOuter_perm (f : Task → Task → Bool) :
    ∀ (is : List Nat) (T : List Task), (sortOuter f is T).Perm T
  | [], T => List.Perm.refl _
  | i :: rest, T => by
    unfold sortOuter
    refine (sortOuter_perm f rest _).trans (sortInner_perm f i _ T ?_)
    intro j hj
    have := mem_indicesFrom.1 hj
    omega

theorem sortOuter_sorted :
    ∀ (m i : Nat) (T : List Task), sortedUpTo i T →
      sortedUpTo (i + m) (sortOuter byPriority (List.range' i m) T)
  | 0, i, T, h => by simpa [sortOuter] using h
  | m + 1, i, T, h => by
    rw [List.range'_succ]
    unfold sortOuter
    have := sortOuter_sorted m (i + 1) _ (sortedUpTo_step h)
    rw [show i + (m + 1) = i + 1 + m by omega]
    exact this

theorem exchangeSort_perm (f : Task → Task → Bool) (T : List Task) :
    (exchangeSort f T).Perm T := sortOuter_perm f _ T

theorem exchangeSort_length (f : Task → Task → Bool) (T : List Task) :
    (exchangeSort f T).length = T.length := sortOuter_length f _ T

theorem exchangeSort_sorted (T : List Task) :
    (exchangeSort byPriority T).Pairwise taskLe := by
  have h0 : sortedUpTo 0 T := by
    intro p q a b hp
    omega
  have h := sortOuter_sorted (T.length - 1 - 0) 0 T h0
  have hlen := exchangeSort_length byPriority T
  rw [List.pairwise_iff_getElem]
  intro p q hp hq hpq
  apply h p q _ _ (by omega) hpq
  · exact List.getElem?_eq_getElem hp
  · exact List.getElem?_eq_getElem hq

theorem swapIf_fixed (f : Task → Task → Bool) (T : List Task) (i j : Nat)
    (h : ∀ a b, T[i]? = some a → T[j]? = some b → f a b = false) : swapIf f T i j = T := by
  unfold swapIf
  split
  · rename_i a b hi hj
    rw [h a b hi hj]
    simp
  · rfl

theorem sortInner_fixed (f : Task → Task → Bool) (i : Nat) :
    ∀ (js : List Nat) (T : List Task),
      (∀ j ∈ js, ∀ a b, T[i]? = some a → T[j]? = some b → f a b = false) →
      sortInner f i js T = T
  | [], T, _ => rfl
  | j :: rest, T, h => by
    unfold sortInner
    rw [swapIf_fixed f T i j (h j (List.mem_cons_self _ _))]
    exact sortInner_fixed f i rest T (fun x hx => h x (List.mem_cons_of_mem _ hx))

theorem sortOuter_fixed (f : Task → Task → Bool) :
    ∀ (is : List Nat) (T : List Task),
      (∀ (p q : Nat) (a b : Task), p < q → T[p]? = some a → T[q]? = some b → f a b = false) →
      sortOuter f is T = T
  | [], T, _ => rfl
  | i :: rest, T, h => by
    unfold sortOuter
    have : sortInner f i (indicesFrom (i + 1) T.length) T = T := by
      apply sortInner_fixed
      intro j hj a b e1 e2
      have := mem_indicesFrom.1 hj
      exact h i j a b (by omega) e1 e2
    rw [this]
    exact sortOuter_fixed f rest T h

theorem exchangeSort_fixed (T : List Task) (h : T.Pairwise taskLe) :
    exchangeSort byPriority T = T := by
  apply sortOuter_fixed
  intro p q a b hpq e1 e2
  rw [List.pairwise_iff_getElem] at h
  have hp : p < T.length := by
    by_contra hc
    rw [List.getElem?_eq_none (Nat.le_of_not_lt hc)] at e1
    cases e1
  have hq : q < T.length := by
    by_contra hc
    rw [List.getElem?_eq_none (Nat.le_of_not_lt hc)] at e2
    cases e2
  rw [List.getElem?_eq_getElem hp] at e1
  rw [List.getElem?_eq_getElem hq] at e2
  cases e1
  cases e2
  exact h p q hp hq hpq

/-! ## Lemmas: the sequential executor -/

theorem runPending_fst : ∀ T : List Task, (runPending T).1 = T.map markDone
  | [] => rfl
  | t :: rest => by
    unfold runPending
    by_cases h : t.completed = true
    · have e : markDone t = t := by
        cases t
        simp only [markDone] at h ⊢
        simp [h]
      simp [h, runPending_fst rest, e]
    · simp only [Bool.not_eq_true] at h
      simp [h, runPending_fst rest, markDone]

theorem runPending_snd : ∀ T : List Task,
    (runPending T).2 = T.filter (fun t => !t.completed)
  | [] => rfl
  | t :: rest => by
    unfold runPending
    by_cases h : t.completed = true
    · simp [h, runPending_snd rest]
    · simp only [Bool.not_eq_true] at h
      simp [h, runPending_snd rest]

/-- C11 (sequential executor).  On a store with at least one pending task, case 1
of `executeTasks` finishes and saves; the tasks it executes are exactly the
initially pending tasks, each once (a permutation of them), in an order that is
non-decreasing by priority rank (High, Medium, Low) and then duration;
afterwards every task is completed, and the store holds the former tasks with
their `completed` flag set, in some order, with `nextTaskId` unchanged. -/
theorem sequential_executor (s : Store) (hpending : ∃ t ∈ s.tasks, t.completed = false) :
    (executeTasksInSequence s).outcome = Outcome.finished ∧
    (executeTasksInSequence s).saved = true ∧
    (executeTasksInSequence s).ran.Perm (s.tasks.filter (fun t => !t.completed)) ∧
    (executeTasksInSequence s).ran.Pairwise notAfter ∧
    (∀ t ∈ (executeTasksInSequence s).store.tasks, t.completed = true) ∧
    (executeTasksInSequence s).store.tasks.Perm (s.tasks.map markDone) ∧
    (executeTasksInSequence s).store.nextTaskId = s.nextTaskId := by
  obtain ⟨t, ht, hc⟩ := hpending
  have h1 : ¬ s.tasks.length = 0 := by
    intro h0
    rw [List.length_eq_zero.1 h0] at ht
    simp at ht
  have h2 : ¬ (s.tasks.filter (fun t => !t.completed)).length = 0 := by
    have hm : t ∈ s.tasks.filter (fun t => !t.completed) :=
      List.mem_filter.2 ⟨ht, by simp [hc]⟩
    have := List.length_pos_of_mem hm
    omega
  have hrun : executeTasksInSequence s =
      ⟨Outcome.finished, ⟨(runPending (exchangeSort byPriority s.tasks)).1, s.nextTaskId⟩,
        (runPending (exchangeSort byPriority s.tasks)).2, true⟩ := by
    unfold executeTasksInSequence
    rw [if_neg h1, if_neg h2]
  rw [hrun, runPending_fst, runPending_snd]
  refine ⟨rfl, rfl, (exchangeSort_perm byPriority s.tasks).filter _,
    ((exchangeSort_sorted s.tasks).imp (fun h => (taskLe_iff _ _).1 h)).sublist
      (List.filter_sublist _), ?_,
    (exchangeSort_perm byPriority s.tasks).map _, rfl⟩
  intro u hu
  simp only [List.mem_map] at hu
  obtain ⟨v, _, rfl⟩ := hu
  rfl

/-- Instance of C11: on the spec's example the executor runs ids 3, 1, 2, in
non-decreasing order. -/
theorem sequential_executor_witness :
    (executeTasksInSequence storeHighLow).ran.map Task.id = [3, 1, 2] ∧
    (executeTasksInSequence storeHighLow).ran.Pairwise notAfter ∧
    ∀ t ∈ (executeTasksInSequence storeHighLow).store.tasks, t.completed = true :=
  have h := sequential_executor storeHighLow ⟨⟨1, "", Priority.HIGH, 10, 0, false⟩,
    by decide, rfl⟩
  ⟨by decide, h.2.2.2.1, h.2.2.2.2.1⟩

/-- C12 as stated fails: tasks 1 and 2 have the same priority and duration and
stand in this order; the pass exchanges task 1 with the High task 3 behind
them, so task 2 ends up in front of task 1. -/
theorem ordering_pass_reverses_equal_tasks :
    (exchangeSort byPriority
      [⟨1, "", Priority.MEDIUM, 5, 0, false⟩, ⟨2, "", Priority.MEDIUM, 5, 0, false⟩,
        ⟨3, "", Priority.HIGH, 5, 0, false⟩]).map Task.id = [3, 2, 1] := by
  decide

/-- C12 (ordering pass), amended.  The ordering pass of the sequential executor
returns the same tasks in non-decreasing order of priority rank and duration;
when the store is already in that order the pass changes nothing, so tasks with
equal priority and duration keep their relative order.  In general it is not
stable. -/
theorem ordering_pass (tasks : List Task) :
    (exchangeSort byPriority tasks).Perm tasks ∧
    (exchangeSort byPriority tasks).Pairwise notAfter ∧
    (tasks.Pairwise notAfter → exchangeSort byPriority tasks = tasks) :=
  ⟨exchangeSort_perm byPriority tasks,
    (exchangeSort_sorted tasks).imp (fun h => (taskLe_iff _ _).1 h),
    fun h => exchangeSort_fixed tasks (h.imp (fun h2 => (taskLe_iff _ _).2 h2))⟩

/-- Instance of C12 (amended): two equal Medium tasks behind a High task stay as
they are. -/
theorem ordering_pass_witness :
    exchangeSort byPriority
      [⟨3, "", Priority.HIGH, 5, 0, false⟩, ⟨1, "", Priority.MEDIUM, 5, 0, false⟩,
        ⟨2, "", Priority.MEDIUM, 5, 0, false⟩]
    = [⟨3, "", Priority.HIGH, 5, 0, false⟩, ⟨1, "", Priority.MEDIUM, 5, 0, false⟩,
        ⟨2, "", Priority.MEDIUM, 5, 0, false⟩] :=
  (ordering_pass _).2.2 (by decide)

/-! ## Lemmas: the single-task executor -/

theorem specificLoop_completed (id : Int) :
    ∀ (pre : List Task) (t : Task) (post : List Task), (∀ u ∈ pre, u.id ≠ id) → t.id = id →
      t.completed = true →
      specificLoop id (pre ++ t :: post)
        = (SpecificOutcome.alreadyCompleted, pre ++ t :: post, [])
  | [], t, post, _, hid, hc => by
    simp [specificLoop, hid, hc]
  | u :: pre, t, post, hpre, hid, hc => by
    have hu : u.id ≠ id := hpre u (List.mem_cons_self _ _)
    have ih := specificLoop_completed id pre t post
      (fun v hv => hpre v (List.mem_cons_of_mem _ hv)) hid hc
    rw [List.cons_append, specificLoop]
    simp [hu, ih]

theorem ids_before_differ {pre post : List Task} {t : Task}
    (hd : distinctIds (pre ++ t :: post)) : ∀ u ∈ pre, u.id ≠ t.id := by
  intro u hu heq
  unfold distinctIds at hd
  rw [List.map_append, List.map_cons] at hd
  have hdis := List.disjoint_of_nodup_append hd
  exact hdis (List.mem_map_of_mem _ hu) (by rw [heq]; exact List.mem_cons_self _ _)

/-- C13 as stated fails: in a store whose only task (id 7) is completed, the call
ends on the report that no task is pending (line 764) before an id is read;
and the id 0 of a completed task is taken as the request to cancel (line 772). -/
theorem completed_task_not_always_reported :
    executeSpecificTask storeDone7 [7]
      = some ⟨SpecificOutcome.noPending, storeDone7, [], false⟩ ∧
    executeSpecificTask store057 [0]
      = some ⟨SpecificOutcome.cancelled, store057, [], false⟩ := by
  decide

/-- C13 (single-task executor on a finished task), amended.  In a store with
pairwise distinct ids that holds at least one pending task, entering the
non-zero id of a completed task ends on the report that the task is already
completed: no countdown is run, nothing is saved and the store is unchanged.
When no task is pending the call ends before an id is read, on the report that
there is no task or no pending task; the id 0 cancels; there too nothing is run
or saved and the store is unchanged. -/
theorem specific_already_completed (s : Store) (rest : List Int) :
    (∀ (pre post : List Task) (t : Task), distinctIds s.tasks → s.tasks = pre ++ t :: post →
      t.completed = true → t.id ≠ 0 → (∃ u ∈ s.tasks, u.completed = false) →
      executeSpecificTask s (t.id :: rest)
        = some ⟨SpecificOutcome.alreadyCompleted, s, [], false⟩) ∧
    ((∀ u ∈ s.tasks, u.completed = true) → ∀ ints : List Int,
      executeSpecificTask s ints = some ⟨SpecificOutcome.noTasks, s, [], false⟩ ∨
      executeSpecificTask s ints = some ⟨SpecificOutcome.noPending, s, [], false⟩) ∧
    ((∃ u ∈ s.tasks, u.completed = false) →
      executeSpecificTask s (0 :: rest) = some ⟨SpecificOutcome.cancelled, s, [], false⟩) := by
  have hguards : (∃ u ∈ s.tasks, u.completed = false) →
      ¬ s.tasks.length = 0 ∧ ¬ (s.tasks.filter (fun t => !t.completed)).length = 0 := by
    rintro ⟨u, hu, huc⟩
    refine ⟨?_, ?_⟩
    · intro h0
      rw [List.length_eq_zero.1 h0] at hu
      simp at hu
    · have hm : u ∈ s.tasks.filter (fun t => !t.completed) :=
        List.mem_filter.2 ⟨hu, by simp [huc]⟩
      have := List.length_pos_of_mem hm
      omega
  refine ⟨?_, ?_, ?_⟩
  · intro pre post t hids hs hc hid hpending
    obtain ⟨h1, h2⟩ := hguards hpending
    have hloop : specificLoop t.id s.tasks
        = (SpecificOutcome.alreadyCompleted, s.tasks, []) := by
      rw [hs]
      exact specificLoop_completed t.id pre t post (ids_before_differ (hs ▸ hids)) rfl hc
    unfold executeSpecificTask
    rw [if_neg h1, if_neg h2]
    simp only [if_neg hid, hloop]
    simp
  · intro hall ints
    unfold executeSpecificTask
    by_cases h1 : s.tasks.length = 0
    · left; rw [if_pos h1]
    · right
      have h2 : (s.tasks.filter (fun t => !t.completed)).length = 0 := by
        rw [List.length_eq_zero, List.filter_eq_nil_iff]
        intro u hu
        simp [hall u hu]
      rw [if_neg h1, if_pos h2]
  · intro hpending
    obtain ⟨h1, h2⟩ := hguards hpending
    unfold executeSpecificTask
    rw [if_neg h1, if_neg h2]
    simp

/-- Instance of C13 (amended): entering 7 in `store579`. -/
theorem specific_already_completed_witness :
    executeSpecificTask store579 [7]
      = some ⟨SpecificOutcome.alreadyCompleted, store579, [], false⟩ :=
  (specific_already_completed store579 []).1 [pendingTask 5] [pendingTask 9]
    { pendingTask 7 with completed := true } (by decide) (by decide) (by decide)
    (by decide) ⟨pendingTask 5, by decide, rfl⟩

/-! ## Lemmas: adding and deleting -/

/-- C14 (capacity).  When the store holds `MAX_TASKS` (100) tasks, `addTask`
returns on the report that the limit is reached, for every clock value and every
input, and leaves the tasks, `taskCount` and `nextTaskId` as they were. -/
theorem addTask_at_capacity (s : Store) (now : Int) (c : Console)
    (hfull : s.tasks.length = MAX_TASKS) :
    addTask s now c = some (AddOutcome.limitReached, s) := by
  unfold addTask
  rw [if_pos (by omega)]

/-- Instance of C14: a store of one hundred tasks and an otherwise valid input. -/
theorem addTask_at_capacity_witness :
    addTask (pendingStore 100) 0 ⟨[1, 30], ["report"]⟩
      = some (AddOutcome.limitReached, pendingStore 100) :=
  addTask_at_capacity (pendingStore 100) 0 ⟨[1, 30], ["report"]⟩ (by decide)

theorem findTask_some (tasks : List Task) (id : Int) :
    ∀ (m a i : Nat), a ≤ i → i < a + m → (∀ k, a ≤ k → k < i → idAt tasks k ≠ id) →
      idAt tasks i = id → findTask tasks id (List.range' a m) = some i
  | 0, a, i, h1, h2, _, _ => by omega
  | m + 1, a, i, h1, h2, hbefore, hi => by
    rw [List.range'_succ]
    unfold findTask
    by_cases hai : a = i
    · subst hai
      simp [hi]
    · have hne : idAt tasks a ≠ id := hbefore a (le_refl _) (by omega)
      simp only [beq_iff_eq, hne, if_false]
      exact findTask_some tasks id m (a + 1) i (by omega) (by omega)
        (fun k hk1 hk2 => hbefore k (by omega) hk2) hi

theorem findTask_none (tasks : List Task) (id : Int) :
    ∀ (l : List Nat), (∀ k ∈ l, idAt tasks k ≠ id) → findTask tasks id l = none
  | [], _ => rfl
  | i :: rest, h => by
    unfold findTask
    have hne : idAt tasks i ≠ id := h i (List.mem_cons_self _ _)
    simp only [beq_iff_eq, hne, if_false]
    exact findTask_none tasks id rest (fun k hk => h k (List.mem_cons_of_mem _ hk))

theorem findTask_mem (tasks : List Task) (id : Int) :
    ∀ (l : List Nat) (i : Nat), findTask tasks id l = some i → i ∈ l ∧ idAt tasks i = id
  | [], i, h => by simp [findTask] at h
  | j :: rest, i, h => by
    unfold findTask at h
    by_cases hj : idAt tasks j = id
    · simp only [beq_iff_eq, hj, if_true, Option.some.injEq] at h
      subst h
      exact ⟨List.mem_cons_self _ _, hj⟩
    · simp only [beq_iff_eq, hj, if_false] at h
      obtain ⟨h1, h2⟩ := findTask_mem tasks id rest i h
      exact ⟨List.mem_cons_of_mem _ h1, h2⟩

theorem idAt_append_mid (pre post : List Task) (t : Task) :
    idAt (pre ++ t :: post) pre.length = t.id := by
  unfold idAt
  rw [List.getElem?_append_right (le_refl _)]
  simp

theorem idAt_append_left (pre post : List Task) (t : Task) {k : Nat} (hk : k < pre.length) :
    ∃ u ∈ pre, idAt (pre ++ t :: post) k = u.id := by
  refine ⟨pre[k], List.getElem_mem hk, ?_⟩
  simp [idAt, List.getElem?_append_left hk, List.getElem?_eq_getElem hk]

theorem idAt_ne_of_absent {tasks : List Task} {id : Int} (h : ∀ u ∈ tasks, u.id ≠ id)
    {k : Nat} (hk : k < tasks.length) : idAt tasks k ≠ id := by
  have : idAt tasks k = tasks[k].id := by
    simp [idAt, List.getElem?_eq_getElem hk]
  rw [this]
  exact h _ (List.getElem_mem hk)

theorem shiftLoop_length : ∀ (l : List Nat) (T : List Task), (shiftLoop l T).length = T.length
  | [], T => rfl
  | j :: rest, T => by
    unfold shiftLoop
    split
    · rw [shiftLoop_length rest _]; simp
    · exact shiftLoop_length rest T

theorem shiftLoop_get :
    ∀ (m a : Nat) (T : List Task), a + m < T.length → ∀ k,
      (shiftLoop (List.range' a m) T)[k]? = if a ≤ k ∧ k < a + m then T[k + 1]? else T[k]?
  | 0, a, T, _, k => by
    simp only [List.range'_zero, shiftLoop]
    have : ¬ (a ≤ k ∧ k < a + 0) := by omega
    rw [if_neg this]
  | m + 1, a, T, h, k => by
    rw [List.range'_succ]
    unfold shiftLoop
    have ha : a + 1 < T.length := by omega
    rw [List.getElem?_eq_getElem ha]
    simp only
    rw [shiftLoop_get m (a + 1) (T.set a T[a + 1]) (by simp; omega) k]
    by_cases h1 : a + 1 ≤ k ∧ k < a + 1 + m
    · rw [if_pos h1, if_pos (by omega), List.getElem?_set]
      have : ¬ a = k + 1 := by omega
      simp [this]
    · rw [if_neg h1, List.getElem?_set]
      by_cases h2 : a = k
      · subst h2
        have hlt : a < T.length := by omega
        rw [if_pos (by omega)]
        simp [hlt]
      · have h3 : ¬ (a ≤ k ∧ k < a + (m + 1)) := by omega
        rw [if_neg h3, if_neg h2]

theorem removeAt_eq_eraseIdx (T : List Task) {i : Nat} (hi : i < T.length) :
    removeAt T i = T.eraseIdx i := by
  apply List.ext_getElem?
  intro k
  unfold removeAt indicesFrom
  rw [List.getElem?_take, List.getElem?_eraseIdx,
    shiftLoop_get (T.length - 1 - i) i T (by omega) k]
  by_cases h1 : k < T.length - 1
  · rw [if_pos h1]
    by_cases h2 : k < i
    · rw [if_pos h2, if_neg (by omega)]
    · rw [if_neg h2, if_pos (by omega)]
  · rw [if_neg h1, if_neg (by omega)]
    exact (List.getElem?_eq_none (by omega)).symm

theorem eraseIdx_append_mid (pre post : List Task) (t : Task) :
    (pre ++ t :: post).eraseIdx pre.length = pre ++ post := by
  rw [List.eraseIdx_append_of_length_le (le_refl _)]
  simp

/-- C16 as stated fails: a task with id 0 is present, but entering its id is
taken as the request to cancel (line 372) and the task stays. -/
theorem delete_id_zero_cancels :
    distinctIds store057.tasks ∧
    deleteTask store057 [0, 1] = some (DeleteOutcome.cancelled, store057) := by
  decide

/-- C16 (delete compacts in order), amended.  In a store with pairwise distinct
ids, entering the non-zero id of a task and confirming with 1 leaves exactly
the former sequence without that task, the others unchanged and in their order,
and one task less.  For an id that is not present, for an answer other than 1,
and for the id 0, the store is unchanged. -/
theorem delete_compacts (s : Store) (rest : List Int) :
    (∀ (pre post : List Task) (t : Task), distinctIds s.tasks → s.tasks = pre ++ t :: post →
      t.id ≠ 0 →
      deleteTask s (t.id :: 1 :: rest)
        = some (DeleteOutcome.deleted, ⟨pre ++ post, s.nextTaskId⟩) ∧
      (pre ++ post).length + 1 = s.tasks.length) ∧
    (∀ id : Int, (∀ u ∈ s.tasks, u.id ≠ id) →
      ∃ o, o ≠ DeleteOutcome.deleted ∧ deleteTask s (id :: rest) = some (o, s)) ∧
    (∀ id confirm : Int, confirm ≠ 1 →
      ∃ o, o ≠ DeleteOutcome.deleted ∧ deleteTask s (id :: confirm :: rest) = some (o, s)) ∧
    (∃ o, o ≠ DeleteOutcome.deleted ∧ deleteTask s (0 :: rest) = some (o, s)) := by
  refine ⟨?_, ?_, ?_, ?_⟩
  · intro pre post t hids hs hid
    have hlen : ¬ s.tasks.length = 0 := by rw [hs]; simp
    have hfind : findTask s.tasks t.id (indicesFrom 0 s.tasks.length) = some pre.length := by
      unfold indicesFrom
      apply findTask_some
      · omega
      · rw [hs]; simp
      · intro k _ hk
        rw [hs]
        obtain ⟨u, hu, e⟩ := idAt_append_left pre post t hk
        rw [e]
        exact ids_before_differ (hs ▸ hids) u hu
      · rw [hs]; exact idAt_append_mid pre post t
    refine ⟨?_, by rw [hs]; simp; omega⟩
    unfold deleteTask
    rw [if_neg hlen]
    simp only [if_neg hid, hfind, if_true]
    rw [removeAt_eq_eraseIdx s.tasks (by rw [hs]; simp), hs, eraseIdx_append_mid]
  · intro id habsent
    unfold deleteTask
    by_cases hlen : s.tasks.length = 0
    · rw [if_pos hlen]; exact ⟨_, by decide, rfl⟩
    · rw [if_neg hlen]
      by_cases hid : id = 0
      · simp only [if_pos hid]; exact ⟨_, by decide, rfl⟩
      · have hnone : findTask s.tasks id (indicesFrom 0 s.tasks.length) = none :=
          findTask_none s.tasks id _
            (fun k hk => idAt_ne_of_absent habsent (mem_indicesFrom.1 hk).2)
        simp only [if_neg hid, hnone]
        exact ⟨_, by decide, rfl⟩
  · intro id confirm hc
    unfold deleteTask
    by_cases hlen : s.tasks.length = 0
    · rw [if_pos hlen]; exact ⟨_, by decide, rfl⟩
    · rw [if_neg hlen]
      by_cases hid : id = 0
      · simp only [if_pos hid]; exact ⟨_, by decide, rfl⟩
      · simp only [if_neg hid]
        cases findTask s.tasks id (indicesFrom 0 s.tasks.length) with
        | none => exact ⟨_, by decide, rfl⟩
        | some i =>
          simp only [if_neg hc]
          exact ⟨_, by decide, rfl⟩
  · unfold deleteTask
    by_cases hlen : s.tasks.length = 0
    · rw [if_pos hlen]; exact ⟨_, by decide, rfl⟩
    · rw [if_neg hlen]
      simp only [if_true]
      exact ⟨_, by decide, rfl⟩

/-- Instance of C16 (amended): deleting the task 7 from `store579`. -/
theorem delete_compacts_witness :
    deleteTask store579 [7, 1]
      = some (DeleteOutcome.deleted, ⟨[pendingTask 5, pendingTask 9], 10⟩) :=
  ((delete_compacts store579 []).1 [pendingTask 5] [pendingTask 9]
    { pendingTask 7 with completed := true } (by decide) (by decide) (by decide)).1

/-! ## Lemmas: the store invariant -/

theorem waveLoop_doneOn {T0 : List Task} {sel : List Bool} {maxT numSelected : Nat} (env : Env)
    (hok : SelOk T0 sel) :
    ∀ (fuel pass : Nat) (st : RunState), LInv T0 sel maxT st →
      ∃ J, doneOn T0 J (waveLoop env sel numSelected maxT fuel pass st).2.tasks
  | 0, pass, st, h => by
    obtain ⟨J, _, hJ⟩ := h.joined
    unfold waveLoop
    split
    · exact ⟨J, hJ⟩
    · exact ⟨J ++ st.threads, doneOn_join hJ⟩
  | fuel + 1, pass, st, h => by
    obtain ⟨J, _, hJ⟩ := h.joined
    unfold waveLoop
    split
    · simp only
      have h2 := @linv_pass T0 sel maxT numSelected env hok pass st h
      split
      · exact waveLoop_doneOn env hok fuel (pass + 1) _ h2
      · obtain ⟨J2, _, hJ2⟩ := h2.joined
        exact ⟨J2, hJ2⟩
    · exact ⟨J ++ st.threads, doneOn_join hJ⟩

theorem runSelected_doneOn (env : Env) (s : Store) (sel : Selection) (fuel : Nat)
    (hok : SelOk s.tasks sel.selectedTasks) :
    ∃ J, doneOn s.tasks J (runSelected env s sel fuel).store.tasks := by
  have hI := linv_first hok (maxThreadsOf sel.numSelected) env.mallocOk
    (createEvents (launchFirst env.mallocOk sel.selectedTasks (maxThreadsOf sel.numSelected)
      (indicesFrom 0 s.tasks.length) [] 0).1)
  unfold runSelected
  simp only
  split
  · exact @waveLoop_doneOn s.tasks sel.selectedTasks (maxThreadsOf sel.numSelected)
      sel.numSelected env hok fuel 0 _ hI
  · exact ⟨[], doneOn_nil s.tasks⟩

theorem core_markDone (t : Task) : core (markDone t) = core t := rfl

theorem core_of_doneOn {T0 T : List Task} {J : List Nat} (h : doneOn T0 J T) :
    T.map core = T0.map core := by
  apply List.ext_getElem?
  intro i
  rw [List.getElem?_map, List.getElem?_map, h i]
  cases T0[i]? with
  | none => rfl
  | some t =>
    simp only [Option.map_some']
    split <;> rfl

theorem multiple_core (env : Env) (s : Store) (input : List Char) (fuel : Nat) :
    (executeMultipleTasks env s input fuel).store.tasks.map core = s.tasks.map core ∧
    (executeMultipleTasks env s input fuel).store.nextTaskId = s.nextTaskId := by
  rcases exec_cases env s input fuel with (h | h | h) | ⟨_, h⟩
  · rw [h]; exact ⟨rfl, rfl⟩
  · rw [h]; exact ⟨rfl, rfl⟩
  · rw [h]; exact ⟨rfl, rfl⟩
  · rw [h]
    have hok := selOk_resolve s.tasks (readSelection input)
    obtain ⟨J, hJ⟩ := runSelected_doneOn env s (selectionOf s input) fuel hok
    exact ⟨core_of_doneOn hJ, (runSelected_post env s (selectionOf s input) fuel hok).nextId⟩

theorem specificLoop_core (id : Int) : ∀ T : List Task,
    (specificLoop id T).2.1.map core = T.map core
  | [] => rfl
  | t :: rest => by
    unfold specificLoop
    split
    · rfl
    · split
      · rfl
      · simp only [List.map_cons, specificLoop_core id rest]

theorem readDuration_valid : ∀ (l : List Int) (d : Int) (r : List Int),
    readDuration l = some (d, r) → 1 ≤ d ∧ d ≤ 3600
  | [], d, r, h => by simp [readDuration] at h
  | x :: rest, d, r, h => by
    unfold readDuration at h
    split at h
    · exact readDuration_valid rest d r h
    · rename_i hx
      simp only [Option.some.injEq, Prod.mk.injEq] at h
      simp only [Bool.or_eq_true, decide_eq_true_eq, not_or, not_lt] at hx
      omega

theorem modifyMenu_core : ∀ (fuel : Nat) (t : Task) (ints : List Int) (lines : List String)
    (t1 : Task), modifyMenu fuel t ints lines = some t1 →
      t1.id = t.id ∧ ((1 ≤ t.duration ∧ t.duration ≤ 3600) → 1 ≤ t1.duration ∧ t1.duration ≤ 3600)
  | 0, t, ints, lines, t1, h => by simp [modifyMenu] at h
  | fuel + 1, t, [], lines, t1, h => by simp [modifyMenu] at h
  | fuel + 1, t, choice :: ints, lines, t1, h => by
    unfold modifyMenu at h
    split at h
    · split at h
      · exact (modifyMenu_core fuel _ _ _ t1 h : _)
      · exact (modifyMenu_core fuel _ _ _ t1 h : _)
    · split at h
      · split at h
        · cases h
        · split at h
          · exact (modifyMenu_core fuel _ _ _ t1 h : _)
          · split at h
            · exact (modifyMenu_core fuel _ _ _ t1 h : _)
            · split at h
              · exact (modifyMenu_core fuel _ _ _ t1 h : _)
              · exact (modifyMenu_core fuel _ _ _ t1 h : _)
      · split at h
        · split at h
          · cases h
          · rename_i d ints1 hd
            obtain ⟨h1, -⟩ := modifyMenu_core fuel _ ints1 lines t1 h
            have h2 := (modifyMenu_core fuel _ ints1 lines t1 h).2
            exact ⟨h1, fun _ => h2 (readDuration_valid ints d ints1 hd)⟩
        · split at h
          · exact (modifyMenu_core fuel _ _ _ t1 h : _)
          · split at h
            · simp only [Option.some.injEq] at h
              subst h
              exact ⟨rfl, fun hv => hv⟩
            · exact (modifyMenu_core fuel _ _ _ t1 h : _)

theorem stepKeeps_refl {s : Store} (h : storeInv s) : stepKeeps s s :=
  ⟨h, le_refl _, fun t ht => Or.inl ⟨t, ht, rfl⟩⟩

theorem stepKeeps_of_core {s : Store} {T : List Task} (h : storeInv s)
    (hsub : (T.map core).Subperm (s.tasks.map core)) : stepKeeps s ⟨T, s.nextTaskId⟩ := by
  obtain ⟨h1, h2, h3, h4⟩ := h
  have hmem : ∀ t ∈ T, ∃ u ∈ s.tasks, core u = core t := by
    intro t ht
    have := hsub.subset (List.mem_map_of_mem core ht)
    obtain ⟨u, hu, e⟩ := List.mem_map.1 this
    exact ⟨u, hu, e⟩
  have hids : (T.map Task.id).Subperm (s.tasks.map Task.id) := by
    obtain ⟨l, hl, hs⟩ := hsub
    refine ⟨l.map Prod.fst, ?_, ?_⟩
    · have := hl.map Prod.fst
      simpa [List.map_map, Function.comp, core] using this
    · have := hs.map Prod.fst
      simpa [List.map_map, Function.comp, core] using this
  refine ⟨⟨?_, ?_, ?_, ?_⟩, le_refl _, ?_⟩
  · obtain ⟨l, hl, hs⟩ := hids
    exact hl.nodup_iff.1 (h1.sublist hs)
  · intro t ht
    obtain ⟨u, hu, e⟩ := hmem t ht
    have : u.id = t.id := congrArg Prod.fst e
    rw [← this]; exact h2 u hu
  · intro t ht
    obtain ⟨u, hu, e⟩ := hmem t ht
    have : u.duration = t.duration := congrArg Prod.snd e
    rw [← this]; exact h3 u hu
  · have := hsub.length_le
    simp only [List.length_map] at this
    exact le_trans this h4
  · intro t ht
    obtain ⟨u, hu, e⟩ := hmem t ht
    exact Or.inl ⟨u, hu, congrArg Prod.fst e⟩

theorem stepKeeps_set {s : Store} (h : storeInv s) {i : Nat} {t t1 : Task}
    (hi : s.tasks[i]? = some t) (hid : t1.id = t.id)
    (hd : 1 ≤ t1.duration ∧ t1.duration ≤ 3600) :
    stepKeeps s ⟨s.tasks.set i t1, s.nextTaskId⟩ := by
  obtain ⟨h1, h2, h3, h4⟩ := h
  have hmap : (s.tasks.set i t1).map Task.id = s.tasks.map Task.id := by
    apply List.ext_getElem?
    intro k
    rw [List.getElem?_map, List.getElem?_map, List.getElem?_set]
    by_cases hk : i = k
    · subst hk
      have hlt : i < s.tasks.length := by
        by_contra hc
        rw [List.getElem?_eq_none (Nat.le_of_not_lt hc)] at hi
        cases hi
      simp [hlt, hi, hid]
    · simp [hk]
  have hmem : ∀ u ∈ s.tasks.set i t1, u = t1 ∨ u ∈ s.tasks := by
    intro u hu
    rcases List.mem_or_eq_of_mem_set hu with h | h
    · exact Or.inr h
    · exact Or.inl h
  have ht : t ∈ s.tasks := List.getElem?_mem hi
  refine ⟨⟨?_, ?_, ?_, ?_⟩, le_refl _, ?_⟩
  · show ((s.tasks.set i t1).map Task.id).Nodup
    rw [hmap]; exact h1
  · intro u hu
    rcases hmem u hu with rfl | hu
    · rw [hid]; exact h2 t ht
    · exact h2 u hu
  · intro u hu
    rcases hmem u hu with rfl | hu
    · exact hd
    · exact h3 u hu
  · simpa using h4
  · intro u hu
    rcases hmem u hu with rfl | hu
    · exact Or.inl ⟨t, ht, hid.symm⟩
    · exact Or.inl ⟨u, hu, rfl⟩

/-- Below `INT_MAX` the increment of line 174 does not wrap. -/
theorem toInt32_succ (n : Int) (hlo : INT_MIN ≤ n) (hhi : n < INT_MAX) :
    toInt32 (n + 1) = n + 1 := by
  unfold INT_MIN at hlo
  unfold INT_MAX at hhi
  unfold toInt32
  norm_num at hlo hhi ⊢
  omega

theorem addTask_keeps {s : Store} (h : storeInv s) (hlo : INT_MIN ≤ s.nextTaskId)
    (hhi : s.nextTaskId < INT_MAX) (now : Int) (c : Console)
    (r : AddOutcome × Store) (hr : addTask s now c = some r) : stepKeeps s r.2 := by
  unfold addTask at hr
  rw [toInt32_succ _ hlo hhi] at hr
  split at hr
  · cases hr; exact stepKeeps_refl h
  · rename_i hcap
    split at hr
    · cases hr
    · split at hr
      · cases hr
      · split at hr
        · cases hr
        · rename_i priority ints1 _ _ duration ints2 hdur
          have hvalid := readDuration_valid ints1 duration ints2 hdur
          obtain ⟨h1, h2, h3, h4⟩ := h
          split at hr
          · cases hr
          · cases hr
            refine ⟨⟨h1, ?_, h3, h4⟩, by show s.nextTaskId ≤ s.nextTaskId + 1; omega,
              fun t ht => Or.inl ⟨t, ht, rfl⟩⟩
            intro t ht
            have := h2 t ht
            show t.id < s.nextTaskId + 1
            omega
          · cases hr
            refine ⟨⟨?_, ?_, ?_, ?_⟩, by show s.nextTaskId ≤ s.nextTaskId + 1; omega, ?_⟩
            · show ((s.tasks ++ [_]).map Task.id).Nodup
              rw [List.map_append, List.map_cons, List.map_nil]
              refine List.Nodup.append h1 (List.nodup_singleton _) ?_
              intro x hx hx2
              simp only [List.mem_singleton] at hx2
              obtain ⟨u, hu, e⟩ := List.mem_map.1 hx
              have := h2 u hu
              rw [e, hx2] at this
              exact lt_irrefl _ this
            · intro t ht
              show t.id < s.nextTaskId + 1
              rcases List.mem_append.1 ht with ht | ht
              · have := h2 t ht; omega
              · simp only [List.mem_singleton] at ht
                subst ht
                show s.nextTaskId < s.nextTaskId + 1
                omega
            · intro t ht
              rcases List.mem_append.1 ht with ht | ht
              · exact h3 t ht
              · simp only [List.mem_singleton] at ht
                subst ht
                exact hvalid
            · show (s.tasks ++ [_]).length ≤ MAX_TASKS
              simp only [List.length_append, List.length_singleton]
              omega
            · intro t ht
              rcases List.mem_append.1 ht with ht | ht
              · exact Or.inl ⟨t, ht, rfl⟩
              · simp only [List.mem_singleton] at ht
                subst ht
                exact Or.inr (le_refl _)

theorem deleteTask_keeps {s : Store} (h : storeInv s) (ints : List Int)
    (r : DeleteOutcome × Store) (hr : deleteTask s ints = some r) : stepKeeps s r.2 := by
  unfold deleteTask at hr
  split at hr
  · cases hr; exact stepKeeps_refl h
  · split at hr
    · cases hr
    · split at hr
      · cases hr; exact stepKeeps_refl h
      · split at hr
        · cases hr; exact stepKeeps_refl h
        · rename_i i hfind
          have hi : i < s.tasks.length :=
            (mem_indicesFrom.1 (findTask_mem s.tasks _ _ i hfind).1).2
          split at hr
          · cases hr
          · split at hr
            · cases hr
              show stepKeeps s ⟨removeAt s.tasks i, s.nextTaskId⟩
              rw [removeAt_eq_eraseIdx s.tasks hi]
              exact stepKeeps_of_core h ((List.eraseIdx_sublist _ _).map core).subperm
            · cases hr; exact stepKeeps_refl h

theorem modifyTask_keeps {s : Store} (h : storeInv s) (c : Console)
    (r : ModifyOutcome × Store) (hr : modifyTask s c = some r) : stepKeeps s r.2 := by
  unfold modifyTask at hr
  split at hr
  · cases hr; exact stepKeeps_refl h
  · split at hr
    · cases hr
    · split at hr
      · cases hr; exact stepKeeps_refl h
      · split at hr
        · cases hr; exact stepKeeps_refl h
        · split at hr
          · cases hr
          · rename_i t ht
            split at hr
            · cases hr
            · rename_i t1 hmenu
              cases hr
              obtain ⟨hid, hd⟩ := modifyMenu_core _ t _ _ t1 hmenu
              exact stepKeeps_set h ht hid (hd (h.2.2.1 t (List.getElem?_mem ht)))

theorem sortTasks_keeps {s : Store} (h : storeInv s) (ints : List Int) (r : Store)
    (hr : sortTasks s ints = some r) : stepKeeps s r := by
  unfold sortTasks at hr
  split at hr
  · cases hr; exact stepKeeps_refl h
  · split at hr
    · cases hr
    · split at hr
      · cases hr
        exact stepKeeps_of_core h ((exchangeSort_perm _ s.tasks).map core).subperm
      · split at hr
        · cases hr
          exact stepKeeps_of_core h ((exchangeSort_perm _ s.tasks).map core).subperm
        · split at hr
          · cases hr
            exact stepKeeps_of_core h ((exchangeSort_perm _ s.tasks).map core).subperm
          · cases hr; exact stepKeeps_refl h

theorem sequence_keeps {s : Store} (h : storeInv s) :
    stepKeeps s (executeTasksInSequence s).store := by
  unfold executeTasksInSequence
  split
  · exact stepKeeps_refl h
  · split
    · exact stepKeeps_refl h
    · simp only
      rw [runPending_fst]
      apply stepKeeps_of_core h
      have e : ((exchangeSort byPriority s.tasks).map markDone).map core
          = (exchangeSort byPriority s.tasks).map core := by
        rw [List.map_map]
        rfl
      rw [e]
      exact ((exchangeSort_perm _ s.tasks).map core).subperm

theorem specific_keeps {s : Store} (h : storeInv s) (ints : List Int) (r : SpecificRun)
    (hr : executeSpecificTask s ints = some r) : stepKeeps s r.store := by
  unfold executeSpecificTask at hr
  split at hr
  · cases hr; exact stepKeeps_refl h
  · split at hr
    · cases hr; exact stepKeeps_refl h
    · split at hr
      · cases hr
      · split at hr
        · cases hr; exact stepKeeps_refl h
        · cases hr
          apply stepKeeps_of_core h
          rw [specificLoop_core]

theorem multiple_keeps {s : Store} (h : storeInv s) (env : Env) (input : List Char)
    (fuel : Nat) : stepKeeps s (executeMultipleTasks env s input fuel).store := by
  obtain ⟨h1, h2⟩ := multiple_core env s input fuel
  have := @stepKeeps_of_core s (executeMultipleTasks env s input fuel).store.tasks h
    (by rw [h1])
  rw [← h2] at this
  exact this

theorem step_keeps {s r : Store} (hstep : Step s r) (h : storeInv s)
    (hlo : INT_MIN ≤ s.nextTaskId) (hhi : s.nextTaskId < INT_MAX) : stepKeeps s r := by
  cases hstep with
  | byAdd now c r hr => exact addTask_keeps h hlo hhi now c r hr
  | byDelete ints r hr => exact deleteTask_keeps h ints r hr
  | byModify c r hr => exact modifyTask_keeps h c r hr
  | bySort ints _ hsort => exact sortTasks_keeps h ints r hsort
  | bySequence => exact sequence_keeps h
  | bySpecific ints r hr => exact specific_keeps h ints r hr
  | byMultiple env input fuel _ => exact multiple_keeps h env input fuel

theorem storeInv_empty : storeInv emptyStore := by
  refine ⟨List.nodup_nil, ?_, ?_, ?_⟩
  · intro t ht; simp [emptyStore] at ht
  · intro t ht; simp [emptyStore] at ht
  · simp [emptyStore, MAX_TASKS]

/-- As long as `nextTaskId` is below `INT_MAX` when an operation starts, the
operation keeps the store invariant, does not lower `nextTaskId`, and puts into
the store only ids that were there before or that are at least the former
`nextTaskId`; every store reached from the empty one by such operations
satisfies the invariant. -/
theorem store_invariant_below_max :
    storeInv emptyStore ∧
    (∀ s r : Store, Step s r → storeInv s → INT_MIN ≤ s.nextTaskId →
      s.nextTaskId < INT_MAX →
      storeInv r ∧ s.nextTaskId ≤ r.nextTaskId ∧
        ∀ t ∈ r.tasks, (∃ u ∈ s.tasks, u.id = t.id) ∨ s.nextTaskId ≤ t.id) ∧
    ∀ s : Store, Relation.ReflTransGen StepBelow emptyStore s → storeInv s := by
  refine ⟨storeInv_empty, fun s r hstep h hlo hhi => step_keeps hstep h hlo hhi, ?_⟩
  intro s hs
  have key : storeInv s ∧ 1 ≤ s.nextTaskId := by
    induction hs with
    | refl => exact ⟨storeInv_empty, le_refl _⟩
    | @tail b c _ hstep ih =>
      have hlo : INT_MIN ≤ b.nextTaskId := by
        unfold INT_MIN
        have := ih.2
        norm_num
        omega
      have hk := step_keeps hstep.1 ih.1 hlo hstep.2
      exact ⟨hk.1, le_trans ih.2 hk.2.1⟩
  exact key.1

theorem decline_taskA (n : Int) :
    addTask ⟨[taskA], n⟩ 0 declineA
      = some (AddOutcome.declined, ⟨[taskA], toInt32 (n + 1)⟩) := by
  rfl

theorem decline_taskAB (n : Int) :
    addTask ⟨[taskA, taskB], n⟩ 0 declineA
      = some (AddOutcome.declined, ⟨[taskA, taskB], toInt32 (n + 1)⟩) := by
  rfl

/-- Declined calls of `addTask` move `nextTaskId` up one by one while the task
list stays as it is. -/
theorem declined_adds (ts : List Task) (c : Console)
    (hdecl : ∀ n : Int,
      addTask ⟨ts, n⟩ 0 c = some (AddOutcome.declined, ⟨ts, toInt32 (n + 1)⟩))
    (lo : Int) (hlo : INT_MIN ≤ lo) :
    ∀ k : Nat, lo + k ≤ INT_MAX → Relation.ReflTransGen Step ⟨ts, lo⟩ ⟨ts, lo + k⟩ := by
  intro k
  induction k with
  | zero =>
    intro _
    rw [Nat.cast_zero, add_zero]
  | succ k ih =>
    intro hk
    have hk2 : lo + (k : Int) < INT_MAX := by
      push_cast at hk
      omega
    have hlo2 : INT_MIN ≤ lo + (k : Int) := by omega
    have hstep := Step.byAdd ⟨ts, lo + k⟩ 0 c _ (hdecl (lo + k))
    rw [toInt32_succ _ hlo2 hk2] at hstep
    have e : lo + ((k + 1 : Nat) : Int) = lo + k + 1 := by
      push_cast
      omega
    rw [e]
    exact Relation.ReflTransGen.tail (ih (le_of_lt hk2)) hstep

/-- The store with the one task `a` and the counter at `INT_MAX` is reached from
the empty store: one call of `addTask` that adds `a`, then 2147483645 calls that
are declined. -/
theorem reach_counter_max :
    Relation.ReflTransGen Step emptyStore ⟨[taskA], 2147483647⟩ := by
  have h1 : Step emptyStore ⟨[taskA], 2⟩ :=
    Step.byAdd emptyStore 0 ⟨[1, 1], ["a"]⟩ (AddOutcome.added, ⟨[taskA], 2⟩) (by rfl)
  have h2 := declined_adds [taskA] declineA decline_taskA 2
    (by unfold INT_MIN; norm_num) 2147483645 (by unfold INT_MAX; norm_num)
  have e : (2 : Int) + ((2147483645 : Nat) : Int) = 2147483647 := by norm_num
  rw [e] at h2
  exact Relation.ReflTransGen.head h1 h2

/-- From the wrapped counter, 2147483649 further declined calls bring
`nextTaskId` back to 1, and the next task added gets the id 1 again. -/
theorem reach_repeated_id :
    Relation.ReflTransGen Step ⟨[taskA, taskB], -2147483648⟩ ⟨[taskA, taskB, taskC], 2⟩ := by
  have h2 := declined_adds [taskA, taskB] declineA decline_taskAB (-2147483648)
    (by unfold INT_MIN; norm_num) 2147483649 (by unfold INT_MAX; norm_num)
  have e : (-2147483648 : Int) + ((2147483649 : Nat) : Int) = 1 := by norm_num
  rw [e] at h2
  have h3 : Step ⟨[taskA, taskB], 1⟩ ⟨[taskA, taskB, taskC], 2⟩ :=
    Step.byAdd ⟨[taskA, taskB], 1⟩ 0 ⟨[1, 1], ["c"]⟩
      (AddOutcome.added, ⟨[taskA, taskB, taskC], 2⟩) (by rfl)
  exact Relation.ReflTransGen.tail h2 h3

/-- C15 (store invariant), the case the code misses.  The store with the one
task `a` and `nextTaskId = INT_MAX = 2147483647` is reached from the empty store
and satisfies the invariant; the call of `addTask` that adds `b` there returns
with the id `INT_MAX` for `b` and `nextTaskId = -2147483648`, a store in which
no id is below `nextTaskId`, so the invariant is lost; and going on from there
a store is reached that holds two tasks with the id 1. -/
theorem id_counter_wraps :
    Relation.ReflTransGen Step emptyStore ⟨[taskA], 2147483647⟩ ∧
    storeInv ⟨[taskA], 2147483647⟩ ∧
    addTask ⟨[taskA], 2147483647⟩ 0 ⟨[1, 1], ["b"]⟩
      = some (AddOutcome.added, ⟨[taskA, taskB], -2147483648⟩) ∧
    ¬ storeInv ⟨[taskA, taskB], -2147483648⟩ ∧
    Relation.ReflTransGen Step emptyStore ⟨[taskA, taskB, taskC], 2⟩ ∧
    ¬ distinctIds [taskA, taskB, taskC] := by
  have hadd : addTask ⟨[taskA], 2147483647⟩ 0 ⟨[1, 1], ["b"]⟩
      = some (AddOutcome.added, ⟨[taskA, taskB], -2147483648⟩) := by decide
  have hstep : Step ⟨[taskA], 2147483647⟩ ⟨[taskA, taskB], -2147483648⟩ :=
    Step.byAdd ⟨[taskA], 2147483647⟩ 0 ⟨[1, 1], ["b"]⟩ _ hadd
  refine ⟨reach_counter_max, ?_, hadd, ?_, ?_, by decide⟩
  · unfold storeInv
    decide
  · intro h
    have := h.2.1 taskA (List.mem_cons_self _ _)
    revert this
    decide
  · exact (reach_counter_max.tail hstep).trans reach_repeated_id

end TaskManager
